import Mathlib

/-! Key-value servers of the 6.824 labs: at-most-once execution.

A shallow embedding of `src/kvsrv` (single-process key/value server with
duplicate detection over plain RPC), of the handlers and the apply loop of
`src/shardkv` (the consumer of the committed-entry stream of the consensus
module), and of the coordinator and the worker loops of `src/mr`.

Conventions of the embedding.

* A Go `map[K]V` is a lookup function `K → Option V`; `none` is an absent key.
  Writing `m[k] = v` is `GoMap.set`, reading `m[k]` without the `ok` flag is
  `GoMap.index`, which yields Go's zero value for an absent key.
* Go `string` is `String`, `+` on strings is `++`.
* Go `int`, `int64` are `Int`.  The servers only compare these numbers; the
  Clerk increments its counter, which wraps at 64 bits (`wrapInt64`).
* A method with a pointer receiver and an out-parameter `reply` takes the
  receiver and the reply as they are on entry and returns both as they are
  when the method returns.
-/

/-! ## Go maps -/

/-- Go map as a lookup function. -/
abbrev GoMap (κ ν : Type) := κ → Option ν

namespace GoMap

variable {κ ν : Type}

/-- Result of `make(map[K]V)`. -/
def empty : GoMap κ ν := fun _ => none

/-- Assignment `m[k] = v`. -/
def set [DecidableEq κ] (m : GoMap κ ν) (k : κ) (v : ν) : GoMap κ ν :=
  fun j => if j = k then some v else m j

/-- Read `m[k]`, giving the zero value `zero` when `k` is absent. -/
def index (m : GoMap κ ν) (k : κ) (zero : ν) : ν :=
  match m k with
  | some v => v
  | none => zero

end GoMap

/-- Two's complement wrap-around of a 64-bit signed integer. -/
def wrapInt64 (n : Int) : Int := (n + 2 ^ 63) % 2 ^ 64 - 2 ^ 63

/-! ## kvsrv -/

namespace kvsrv

/-- Arguments of Put and Append (`kvsrv/common.go`). -/
structure PutAppendArgs where
  Key : String
  Value : String
  ClientID : Int
  SequenceNum : Int

/-- Reply of Put and Append. -/
structure PutAppendReply where
  Value : String

/-- Arguments of Get. -/
structure GetArgs where
  Key : String

/-- Reply of Get. -/
structure GetReply where
  Value : String

/-- Server state (`kvsrv/server.go`); the mutex is held for the whole of every
handler, so each handler is one atomic transition. -/
structure KVServer where
  data : GoMap String String
  lastSequence : GoMap Int Int
  lastReply : GoMap Int String

/-- Result of `StartKVServer`. -/
def StartKVServer : KVServer :=
  { data := GoMap.empty, lastSequence := GoMap.empty, lastReply := GoMap.empty }

/-- Handler `KVServer.Get`. -/
def KVServer.Get (kv : KVServer) (args : GetArgs) (_reply : GetReply) :
    KVServer × GetReply :=
  let value :=
    match kv.data args.Key with
    | some v => v
    | none => ""
  (kv, { Value := value })

/-- Tail of `KVServer.Put` reached by a request that is not answered by the
duplicate check: store the value, reply with the empty string, record the
client's sequence number and reply. -/
def KVServer.Put_new (kv : KVServer) (args : PutAppendArgs) (_reply : PutAppendReply) :
    KVServer × PutAppendReply :=
  let data := kv.data.set args.Key args.Value
  let reply : PutAppendReply := { Value := "" }
  ({ data := data
     lastSequence := kv.lastSequence.set args.ClientID args.SequenceNum
     lastReply := kv.lastReply.set args.ClientID reply.Value }, reply)

/-- Handler `KVServer.Put`. -/
def KVServer.Put (kv : KVServer) (args : PutAppendArgs) (reply : PutAppendReply) :
    KVServer × PutAppendReply :=
  let clientID := args.ClientID
  let seqNum := args.SequenceNum
  match kv.lastSequence clientID with
  | some lastSeq =>
    if seqNum = lastSeq then
      (kv, { Value := kv.lastReply.index clientID "" })
    else if seqNum < lastSeq then
      (kv, reply)
    else
      kv.Put_new args reply
  | none => kv.Put_new args reply

/-- Tail of `KVServer.Append` reached by a request that is not answered by the
duplicate check. -/
def KVServer.Append_new (kv : KVServer) (args : PutAppendArgs) (_reply : PutAppendReply) :
    KVServer × PutAppendReply :=
  let oldValue := kv.data.index args.Key ""
  let data := kv.data.set args.Key (oldValue ++ args.Value)
  let reply : PutAppendReply := { Value := oldValue }
  ({ data := data
     lastSequence := kv.lastSequence.set args.ClientID args.SequenceNum
     lastReply := kv.lastReply.set args.ClientID reply.Value }, reply)

/-- Handler `KVServer.Append`. -/
def KVServer.Append (kv : KVServer) (args : PutAppendArgs) (reply : PutAppendReply) :
    KVServer × PutAppendReply :=
  let clientID := args.ClientID
  let seqNum := args.SequenceNum
  match kv.lastSequence clientID with
  | some lastSeq =>
    if seqNum = lastSeq then
      (kv, { Value := kv.lastReply.index clientID "" })
    else if seqNum < lastSeq then
      (kv, reply)
    else
      kv.Append_new args reply
  | none => kv.Append_new args reply

/-- Client state (`kvsrv/client.go`). -/
structure Clerk where
  clientID : Int
  sequenceNum : Int

/-- Fate of one `ck.server.Call`: the request never reaches the server, the
server runs the handler and the reply is lost, or the handler runs and the
reply comes back. -/
inductive Delivery where
  | lost
  | replyLost
  | delivered
  deriving DecidableEq, Repr

/-- One `ck.server.Call(handler, &args, &reply)` whose fate is `d`: the server
after the call, the caller's reply, and the `ok` flag. -/
def Call {α ρ : Type} (handler : KVServer → α → ρ → KVServer × ρ) (d : Delivery)
    (kv : KVServer) (args : α) (reply : ρ) : KVServer × ρ × Bool :=
  match d with
  | Delivery.lost => (kv, reply, false)
  | Delivery.replyLost => ((handler kv args reply).1, reply, false)
  | Delivery.delivered =>
    let r := handler kv args reply
    (r.1, r.2, true)

/-- The `for` loop of `Clerk.Get` run against the fates `sched` of its
successive calls; `none` when the fates run out while the loop is still
retrying. -/
def Clerk.Get_loop (args : GetArgs) : List Delivery → KVServer → Option (KVServer × String)
  | [], _ => none
  | d :: rest, kv =>
    match Call KVServer.Get d kv args { Value := "" } with
    | (kv', reply, ok) =>
      if ok then some (kv', reply.Value) else Clerk.Get_loop args rest kv'

/-- Method `Clerk.Get`. -/
def Clerk.Get (_ck : Clerk) (kv : KVServer) (key : String) (sched : List Delivery) :
    Option (KVServer × String) :=
  let args : GetArgs := { Key := key }
  Clerk.Get_loop args sched kv

/-- The `for` loop of `Clerk.PutAppend` run against the fates `sched` of its
successive calls; `none` when the fates run out while the loop is still
retrying. -/
def Clerk.PutAppend_loop (args : PutAppendArgs) (op : String) :
    List Delivery → KVServer → Option (KVServer × String)
  | [], kv =>
    if op = "Put" then none
    else if op = "Append" then none
    else some (kv, "")
  | d :: rest, kv =>
    if op = "Put" then
      match Call KVServer.Put d kv args { Value := "" } with
      | (kv', reply, ok) =>
        if ok then some (kv', reply.Value) else Clerk.PutAppend_loop args op rest kv'
    else if op = "Append" then
      match Call KVServer.Append d kv args { Value := "" } with
      | (kv', reply, ok) =>
        if ok then some (kv', reply.Value) else Clerk.PutAppend_loop args op rest kv'
    else
      some (kv, "")

/-- Sequence number that the next `Clerk.PutAppend` of `ck` attaches to its
request (`ck.sequenceNum++`). -/
def Clerk.nextSeq (ck : Clerk) : Int := wrapInt64 (ck.sequenceNum + 1)

/-- Method `Clerk.PutAppend`: the clerk and the server afterwards and the
returned string. -/
def Clerk.PutAppend (ck : Clerk) (kv : KVServer) (key value op : String)
    (sched : List Delivery) : Option (Clerk × KVServer × String) :=
  let ck' : Clerk := { ck with sequenceNum := ck.nextSeq }
  let args : PutAppendArgs :=
    { Key := key, Value := value, ClientID := ck'.clientID, SequenceNum := ck'.sequenceNum }
  match Clerk.PutAppend_loop args op sched kv with
  | some (kv', v) => some (ck', kv', v)
  | none => none

/-- A request arriving at the server, with the handler it is addressed to. -/
inductive Request where
  | get (args : GetArgs)
  | put (args : PutAppendArgs)
  | append (args : PutAppendArgs)

/-- The request was not issued by client `c`: Get carries no client id, Put
and Append carry the id of another client. -/
def Request.fromOther (c : Int) : Request → Prop
  | Request.get _ => True
  | Request.put args => args.ClientID ≠ c
  | Request.append args => args.ClientID ≠ c

/-- Server after serving one request (the caller hands in a fresh reply). -/
def KVServer.serve (kv : KVServer) : Request → KVServer
  | Request.get args => (kv.Get args { Value := "" }).1
  | Request.put args => (kv.Put args { Value := "" }).1
  | Request.append args => (kv.Append args { Value := "" }).1

/-- Server after serving a finite sequence of requests in order. -/
def KVServer.serveAll (kv : KVServer) (reqs : List Request) : KVServer :=
  reqs.foldl KVServer.serve kv

/-- Replies of `n` successive calls of `KVServer.Get` with the same
arguments, oldest first. -/
def KVServer.Get_repeat (kv : KVServer) (args : GetArgs) : Nat → List String
  | 0 => []
  | n + 1 =>
    let r := kv.Get args { Value := "" }
    r.2.Value :: KVServer.Get_repeat r.1 args n

end kvsrv

/-! ## shardkv -/

namespace shardkv

/-- Type `Err` of `shardkv/common.go`. -/
abbrev Err := String

/-- Constant `OK`. -/
def OK : Err := "OK"
/-- Constant `ErrNoKey`. -/
def ErrNoKey : Err := "ErrNoKey"
/-- Constant `ErrWrongGroup`. -/
def ErrWrongGroup : Err := "ErrWrongGroup"
/-- Constant `ErrWrongLeader`. -/
def ErrWrongLeader : Err := "ErrWrongLeader"

/-- Command placed in the consensus log (`shardkv/server.go`). -/
structure Op where
  Operation : String
  Key : String
  Value : String
  ClientID : Int
  RequestID : Int
  deriving DecidableEq

/-- Result handed to the waiting handler. -/
structure OpResult where
  Err : Err
  Value : String
  deriving DecidableEq

/-- Zero value of `OpResult` (`var result OpResult`). -/
def OpResult.zero : OpResult := { Err := "", Value := "" }

/-- The fields of `ShardKV` that the apply loop reads and writes.  A slot of
`resultCh` is a channel of capacity 1, given by the values sent to it and not
yet received. -/
structure ShardKV where
  data : GoMap String String
  clientRequests : GoMap Int Int
  resultCh : GoMap Int (List OpResult)

/-- State set up by `StartServer`. -/
def StartServer : ShardKV :=
  { data := GoMap.empty, clientRequests := GoMap.empty, resultCh := GoMap.empty }

/-- Duplicate check of `applier`:
`lastReq, ok := kv.clientRequests[op.ClientID]; !ok || op.RequestID > lastReq`. -/
def isNew (kv : ShardKV) (op : Op) : Bool :=
  match kv.clientRequests op.ClientID with
  | some lastReq => decide (op.RequestID > lastReq)
  | none => true

/-- Body of `applier` for one committed command `op`, from the duplicate check
to the prepared result: the state afterwards and the result. -/
def applier_apply (kv : ShardKV) (op : Op) : ShardKV × OpResult :=
  let kv1 : ShardKV :=
    if isNew kv op then
      let data :=
        if op.Operation = "Put" then kv.data.set op.Key op.Value
        else if op.Operation = "Append" then
          kv.data.set op.Key (kv.data.index op.Key "" ++ op.Value)
        else if op.Operation = "Get" then kv.data
        else kv.data
      { kv with data := data, clientRequests := kv.clientRequests.set op.ClientID op.RequestID }
    else kv
  let result : OpResult :=
    if op.Operation = "Get" then
      match kv1.data op.Key with
      | some value => { OpResult.zero with Value := value, Err := OK }
      | none => { OpResult.zero with Value := "", Err := ErrNoKey }
    else
      { OpResult.zero with Err := OK }
  (kv1, result)

/-- State after `applier` has applied the committed commands `ops` in order. -/
def applier_run (kv : ShardKV) (ops : List Op) : ShardKV :=
  ops.foldl (fun s op => (applier_apply s op).1) kv

/-- Every command of the list is new at the moment it is applied. -/
def newWhenApplied : ShardKV → List Op → Bool
  | _, [] => true
  | kv, op :: rest => isNew kv op && newWhenApplied (applier_apply kv op).1 rest

/-- Per-operation update of the table in the words of the specification: Put
overwrites `data[Key]` with `Value`; Append sets `data[Key]` to the old value,
or the empty string if absent, concatenated with `Value`. -/
def specUpdate (data : GoMap String String) (op : Op) : GoMap String String :=
  if op.Operation = "Put" then
    fun k => if k = op.Key then some op.Value else data k
  else if op.Operation = "Append" then
    fun k =>
      if k = op.Key then
        match data op.Key with
        | some old => some (old ++ op.Value)
        | none => some ("" ++ op.Value)
      else data k
  else data

end shardkv

/-! ## shardkv: handlers, registry of pending slots, delivery -/

namespace GoMap

variable {κ ν : Type}

/-- Deletion `delete(m, k)`. -/
def delete [DecidableEq κ] (m : GoMap κ ν) (k : κ) : GoMap κ ν :=
  fun j => if j = k then none else m j

end GoMap

namespace shardkv

/-- Arguments of Get (`shardkv/common.go`). -/
structure GetArgs where
  Key : String
  ClientID : Int
  RequestID : Int

/-- Reply of Get. -/
structure GetReply where
  Err : Err
  Value : String
  deriving DecidableEq

/-- Arguments of PutAppend. -/
structure PutAppendArgs where
  Key : String
  Value : String
  Op : String
  ClientID : Int
  RequestID : Int

/-- Reply of PutAppend. -/
structure PutAppendReply where
  Err : Err
  deriving DecidableEq

/-- Modelled from the spec: the consensus module (`6.5840/raft`) is not among
the sources.  What `kv.rf.Start(op)` returned to the handler: the log index,
the term, and whether this replica believes it is the leader. -/
structure StartResult where
  index : Int
  term : Int
  isLeader : Bool
  deriving DecidableEq

/-- Dynamic value of the field `Command` (an `interface{}`) of a message of
the committed-entry stream: an `Op`, or a value of any other type. -/
inductive Command where
  | op (o : Op)
  | other
  deriving DecidableEq

/-- Modelled from the spec: `raft.ApplyMsg` is not among the sources; these
are the fields that `applier` reads. -/
structure ApplyMsg where
  CommandValid : Bool
  Command : Command
  CommandIndex : Int
  deriving DecidableEq

/-- Command built by the handler `Get` and handed to `Start`. -/
def Get_op (args : GetArgs) : Op :=
  { Operation := "Get", Key := args.Key, Value := "", ClientID := args.ClientID,
    RequestID := args.RequestID }

/-- Command built by the handler `PutAppend` and handed to `Start`. -/
def PutAppend_op (args : PutAppendArgs) : Op :=
  { Operation := args.Op, Key := args.Key, Value := args.Value, ClientID := args.ClientID,
    RequestID := args.RequestID }

/-- Method `getResultChan`: creates an empty channel of capacity 1 under
`index` when there is none.  The returned channel is the registry entry under
`index` of the returned state. -/
def ShardKV.getResultChan (kv : ShardKV) (index : Int) : ShardKV :=
  match kv.resultCh index with
  | some _ => kv
  | none => { kv with resultCh := kv.resultCh.set index [] }

/-- Statement `delete(kv.resultCh, index)`. -/
def ShardKV.deleteResultChan (kv : ShardKV) (index : Int) : ShardKV :=
  { kv with resultCh := kv.resultCh.delete index }

/-- Send `ch <- result` on a channel of capacity 1 holding `buf`: the new
content, or `none` when the buffer is full and the send cannot proceed. -/
def chanSend (buf : List OpResult) (result : OpResult) : Option (List OpResult) :=
  if buf.length < 1 then some (buf ++ [result]) else none

/-- How the locked body of `applier` ends for one message. -/
inductive StepResult where
  /-- The body ran to `kv.mu.Unlock()`. -/
  | done (kv : ShardKV)
  /-- The body is stuck in `ch <- result` on a full slot, the mutation made. -/
  | blocked (kv : ShardKV) (result : OpResult)
  /-- The type assertion `msg.Command.(Op)` panicked. -/
  | panicked

/-- One iteration of the loop of `applier` for the message `msg`. -/
def applier_step (kv : ShardKV) (msg : ApplyMsg) : StepResult :=
  if msg.CommandValid then
    match msg.Command with
    | Command.other => StepResult.panicked
    | Command.op op =>
      match applier_apply kv op with
      | (kv1, result) =>
        match kv1.resultCh msg.CommandIndex with
        | some ch =>
          match chanSend ch result with
          | some ch1 =>
            StepResult.done { kv1 with resultCh := kv1.resultCh.set msg.CommandIndex ch1 }
          | none => StepResult.blocked kv1 result
        | none => StepResult.done kv1
  else
    StepResult.done kv

/-- The loop of `applier` over the messages `msgs`, up to the first iteration
that does not run to its end. -/
def applier_msgs : ShardKV → List ApplyMsg → StepResult
  | kv, [] => StepResult.done kv
  | kv, msg :: rest =>
    match applier_step kv msg with
    | StepResult.done kv1 => applier_msgs kv1 rest
    | r => r

/-- How the `select` of a handler ends: a result arrived on its channel, or
the 500 ms timer fired first. -/
inductive WaitOutcome where
  | fulfilled (result : OpResult)
  | timeout
  deriving DecidableEq

/-- Everything outside a handler invocation that it depends on: what `Start`
returned, how its `select` ended, and what the other goroutines did to the
store at the three points where the handler does not hold `kv.mu`. -/
structure HandlerEnv where
  start : StartResult
  afterStart : ShardKV → ShardKV
  whileWaiting : ShardKV → ShardKV
  outcome : WaitOutcome
  beforeCleanup : ShardKV → ShardKV

/-- Handler `ShardKV.Get`: the store and the reply when it returns. -/
def ShardKV.Get (kv : ShardKV) (_args : GetArgs) (reply : GetReply) (env : HandlerEnv) :
    ShardKV × GetReply :=
  let index := env.start.index
  let isLeader := env.start.isLeader
  if !isLeader then
    (kv, { reply with Err := ErrWrongLeader })
  else
    let kv1 := (env.afterStart kv).getResultChan index
    let kv2 := env.whileWaiting kv1
    let reply1 : GetReply :=
      match env.outcome with
      | WaitOutcome.fulfilled result => { reply with Err := result.Err, Value := result.Value }
      | WaitOutcome.timeout => { reply with Err := ErrWrongLeader }
    let kv3 := env.beforeCleanup kv2
    (kv3.deleteResultChan index, reply1)

/-- Handler `ShardKV.PutAppend`: the store and the reply when it returns. -/
def ShardKV.PutAppend (kv : ShardKV) (_args : PutAppendArgs) (reply : PutAppendReply)
    (env : HandlerEnv) : ShardKV × PutAppendReply :=
  let index := env.start.index
  let isLeader := env.start.isLeader
  if !isLeader then
    (kv, { reply with Err := ErrWrongLeader })
  else
    let kv1 := (env.afterStart kv).getResultChan index
    let kv2 := env.whileWaiting kv1
    let reply1 : PutAppendReply :=
      match env.outcome with
      | WaitOutcome.fulfilled result => { reply with Err := result.Err }
      | WaitOutcome.timeout => { reply with Err := ErrWrongLeader }
    let kv3 := env.beforeCleanup kv2
    (kv3.deleteResultChan index, reply1)

end shardkv

namespace shardkv

/-- Store in which an iteration of `applier` left off, if it did not panic. -/
def StepResult.state : StepResult → Option ShardKV
  | StepResult.done kv => some kv
  | StepResult.blocked kv _ => some kv
  | StepResult.panicked => none

end shardkv

namespace shardkv

/-- What the goroutines of a replica do to the registry, one critical section
or channel operation at a time. -/
inductive RegistryEvent where
  /-- A handler registers its slot: `kv.getResultChan(index)` under `kv.mu`. -/
  | register (index : Int)
  /-- A handler removes its entry: `delete(kv.resultCh, index)` under `kv.mu`. -/
  | delete (index : Int)
  /-- The `select` of a handler takes the oldest value out of the slot. -/
  | receive (index : Int)
  /-- The apply loop handles the next message of the committed-entry stream. -/
  | apply (msg : ApplyMsg)

/-- Effect of one event on the store. -/
def registry_event (kv : ShardKV) : RegistryEvent → StepResult
  | RegistryEvent.register index => StepResult.done (kv.getResultChan index)
  | RegistryEvent.delete index => StepResult.done (kv.deleteResultChan index)
  | RegistryEvent.receive index =>
    match kv.resultCh index with
    | some (_ :: rest) => StepResult.done { kv with resultCh := kv.resultCh.set index rest }
    | _ => StepResult.done kv
  | RegistryEvent.apply msg => applier_step kv msg

/-- The events `events` in order, up to the first one that does not run to
its end. -/
def registry_run : ShardKV → List RegistryEvent → StepResult
  | kv, [] => StepResult.done kv
  | kv, e :: rest =>
    match registry_event kv e with
    | StepResult.done kv1 => registry_run kv1 rest
    | r => r

/-- Log index that an event makes the apply loop apply, if any. -/
def RegistryEvent.appliedIndex : RegistryEvent → Option Int
  | RegistryEvent.apply msg => if msg.CommandValid then some msg.CommandIndex else none
  | _ => none

/-- Log indices applied by the events, in order. -/
def appliedIndices (events : List RegistryEvent) : List Int :=
  events.filterMap RegistryEvent.appliedIndex

/-- Index of the slot into which the event sends a result, if it sends one. -/
def registry_written (kv : ShardKV) : RegistryEvent → List Int
  | RegistryEvent.apply msg =>
    if msg.CommandValid then
      match msg.Command, kv.resultCh msg.CommandIndex with
      | Command.op _, some _ => [msg.CommandIndex]
      | _, _ => []
    else []
  | _ => []

/-- Indices of the slots written during `registry_run`, one for each send
that was performed, in order. -/
def registry_writes : ShardKV → List RegistryEvent → List Int
  | _, [] => []
  | kv, e :: rest =>
    match registry_event kv e with
    | StepResult.done kv1 => registry_written kv e ++ registry_writes kv1 rest
    | _ => []

end shardkv

/-! ## shardkv: one handler and the apply loop, statement by statement -/

namespace shardkv

/-- The goroutines that take `kv.mu`. -/
inductive Thread where
  | handler
  | applier
  deriving DecidableEq

/-- Where a handler invocation (Get or PutAppend, which have the same
statements) stands: the statement it executes next. -/
inductive HandlerPC where
  /-- Before `kv.rf.Start(op)`. -/
  | start
  /-- `Start` returned this index and leadership; before `kv.mu.Lock()`. -/
  | lockRegister (index : Int)
  /-- Holding `kv.mu`; before `kv.getResultChan(index)`. -/
  | register (index : Int)
  /-- Holding `kv.mu`; before `kv.mu.Unlock()`. -/
  | unlockRegister (index : Int)
  /-- In the `select`. -/
  | select (index : Int)
  /-- After the `select`; before the second `kv.mu.Lock()`. -/
  | lockDelete (index : Int)
  /-- Holding `kv.mu`; before `delete(kv.resultCh, index)`. -/
  | delete (index : Int)
  /-- Holding `kv.mu`; before the last `kv.mu.Unlock()`. -/
  | unlockDelete (index : Int)
  | returned
  deriving DecidableEq

/-- Where the goroutine `applier` stands. -/
inductive ApplierPC where
  /-- Waiting for the next message of `kv.applyCh`. -/
  | receive
  /-- Got a message with `CommandValid`; before `kv.mu.Lock()`. -/
  | lock (msg : ApplyMsg)
  /-- Holding `kv.mu`; before the body, from the type assertion to the send. -/
  | body (msg : ApplyMsg)
  /-- Holding `kv.mu`; before `kv.mu.Unlock()`. -/
  | unlock
  /-- The type assertion panicked. -/
  | panicked
  deriving DecidableEq

/-- A replica with one handler invocation in flight and its apply loop. -/
structure System where
  kv : ShardKV
  mu : Option Thread
  handlerIsGet : Bool
  handler : HandlerPC
  reply : GetReply
  applier : ApplierPC

/-- What the scheduler lets happen next, with what the outside supplies: the
answer of `Start`, whether the timer of the `select` fires before a receive,
the next message of the committed-entry stream. -/
inductive Action where
  | handlerStart (r : StartResult)
  | handlerStep
  | handlerSelect (timerFirst : Bool)
  | applierReceive (msg : ApplyMsg)
  | applierStep

/-- The handler holds `kv.mu`. -/
def HandlerPC.holdsLock : HandlerPC → Bool
  | HandlerPC.register _ => true
  | HandlerPC.unlockRegister _ => true
  | HandlerPC.delete _ => true
  | HandlerPC.unlockDelete _ => true
  | _ => false

/-- The apply loop holds `kv.mu`. -/
def ApplierPC.holdsLock : ApplierPC → Bool
  | ApplierPC.body _ => true
  | ApplierPC.unlock => true
  | ApplierPC.panicked => true
  | _ => false

/-- The handler has proposed and obtained log index `i` and has not yet
registered the slot for it. -/
def HandlerPC.proposedNotRegistered : HandlerPC → Int → Bool
  | HandlerPC.lockRegister j, i => decide (j = i)
  | HandlerPC.register j, i => decide (j = i)
  | _, _ => false

/-- The apply loop is about to run the apply step for log index `i`. -/
def ApplierPC.applying : ApplierPC → Int → Bool
  | ApplierPC.body msg, i => decide (msg.CommandIndex = i)
  | _, _ => false

/-- One statement of one goroutine; `none` when the statement cannot be
executed now (the lock is held by the other goroutine, a send or receive
would block, or it is not that goroutine's next statement). -/
def System.step (s : System) : Action → Option System
  | Action.handlerStart r =>
    match s.handler with
    | HandlerPC.start =>
      if !r.isLeader then
        some { s with reply := { s.reply with Err := ErrWrongLeader },
                      handler := HandlerPC.returned }
      else
        some { s with handler := HandlerPC.lockRegister r.index }
    | _ => none
  | Action.handlerStep =>
    match s.handler with
    | HandlerPC.lockRegister i =>
      if s.mu = none then
        some { s with mu := some Thread.handler, handler := HandlerPC.register i }
      else none
    | HandlerPC.register i =>
      some { s with kv := s.kv.getResultChan i, handler := HandlerPC.unlockRegister i }
    | HandlerPC.unlockRegister i =>
      some { s with mu := none, handler := HandlerPC.select i }
    | HandlerPC.lockDelete i =>
      if s.mu = none then
        some { s with mu := some Thread.handler, handler := HandlerPC.delete i }
      else none
    | HandlerPC.delete i =>
      some { s with kv := s.kv.deleteResultChan i, handler := HandlerPC.unlockDelete i }
    | HandlerPC.unlockDelete _ =>
      some { s with mu := none, handler := HandlerPC.returned }
    | _ => none
  | Action.handlerSelect timerFirst =>
    match s.handler with
    | HandlerPC.select i =>
      if timerFirst then
        some { s with reply := { s.reply with Err := ErrWrongLeader },
                      handler := HandlerPC.lockDelete i }
      else
        match s.kv.resultCh i with
        | some (result :: rest) =>
          some { s with
            kv := { s.kv with resultCh := s.kv.resultCh.set i rest }
            reply :=
              if s.handlerIsGet then { Err := result.Err, Value := result.Value }
              else { s.reply with Err := result.Err }
            handler := HandlerPC.lockDelete i }
        | _ => none
    | _ => none
  | Action.applierReceive msg =>
    match s.applier with
    | ApplierPC.receive =>
      if msg.CommandValid then some { s with applier := ApplierPC.lock msg }
      else some s
    | _ => none
  | Action.applierStep =>
    match s.applier with
    | ApplierPC.lock msg =>
      if s.mu = none then
        some { s with mu := some Thread.applier, applier := ApplierPC.body msg }
      else none
    | ApplierPC.body msg =>
      match applier_step s.kv msg with
      | StepResult.done kv1 => some { s with kv := kv1, applier := ApplierPC.unlock }
      | StepResult.blocked _ _ => none
      | StepResult.panicked => some { s with applier := ApplierPC.panicked }
    | ApplierPC.unlock =>
      some { s with mu := none, applier := ApplierPC.receive }
    | _ => none

/-- The statements chosen by a schedule, in order; `none` when one of them
cannot be executed. -/
def System.run : System → List Action → Option System
  | s, [] => some s
  | s, a :: rest =>
    match s.step a with
    | some s1 => s1.run rest
    | none => none

/-- A replica right after `StartServer`, with a handler invocation about to
call `Start` and the apply loop waiting for its first message. -/
def System.init (handlerIsGet : Bool) : System :=
  { kv := StartServer, mu := none, handlerIsGet := handlerIsGet, handler := HandlerPC.start,
    reply := { Err := "", Value := "" }, applier := ApplierPC.receive }

end shardkv

namespace shardkv

/-- A goroutine stands inside a critical section exactly when it is the
holder of `kv.mu`. -/
def System.lockInvariant (s : System) : Prop :=
  (s.handler.holdsLock = true ↔ s.mu = some Thread.handler) ∧
  (s.applier.holdsLock = true ↔ s.mu = some Thread.applier)

end shardkv

/-! ## mr: the MapReduce coordinator

Slices are lists; indexing a slice with an `int` outside its bounds panics,
which the operations below report as `none`.  The mutex `c.mu` is held for the
whole of every method, so each method is one atomic transition. -/

namespace mr

/-- Type `TaskStatus` of `mr/coordinator.go`. -/
inductive TaskStatus where
  | Idle
  | InProgress
  | Completed
  deriving DecidableEq, Repr

/-- Type `TaskType` of `mr/rpc.go`. -/
inductive TaskType where
  | MapTask
  | ReduceTask
  | WaitTask
  | ExitTask
  deriving DecidableEq, Repr

/-- Reply of `RequestTask`. -/
structure RequestTaskReply where
  TaskType : TaskType
  TaskNumber : Int
  NMap : Int
  NReduce : Int
  Filename : String
  deriving DecidableEq

/-- Arguments of `ReportTask`. -/
structure ReportTaskArgs where
  TaskType : TaskType
  TaskNumber : Int
  deriving DecidableEq

/-- State of the coordinator. -/
structure Coordinator where
  mapTasks : List String
  mapTaskStatus : List TaskStatus
  nMap : Int
  nReduce : Int
  reduceTaskStatus : List TaskStatus
  mapDone : Bool
  reduceDone : Bool
  deriving DecidableEq

/-- Read `s[i]` of a slice with an `int` index; `none` is the index-out-of-range
panic. -/
def sliceGet {α : Type} (s : List α) (i : Int) : Option α :=
  if 0 ≤ i then s[i.toNat]? else none

/-- The loop `for i, status := range statuses { if status == Idle { ... return } }`
of `RequestTask`: the index at which the loop body returns, if it does. -/
def firstIdle : List TaskStatus → Option Nat
  | [] => none
  | status :: rest =>
    if status = TaskStatus.Idle then some 0
    else
      match firstIdle rest with
      | some i => some (i + 1)
      | none => none

/-- The loop of `checkMapDone` and `checkReduceDone`: `false` when it returns
early at a status other than `Completed`. -/
def allCompleted : List TaskStatus → Bool
  | [] => true
  | status :: rest => if status ≠ TaskStatus.Completed then false else allCompleted rest

/-- Function `MakeCoordinator`; `none` is the panic of `make` for a negative
length.  Starting the RPC server has no effect on the state. -/
def MakeCoordinator (files : List String) (nReduce : Int) : Option Coordinator :=
  if nReduce < 0 then none
  else
    some { mapTasks := files
           nMap := (files.length : Int)
           nReduce := nReduce
           mapTaskStatus := List.replicate files.length TaskStatus.Idle
           reduceTaskStatus := List.replicate nReduce.toNat TaskStatus.Idle
           mapDone := false
           reduceDone := false }

/-- Method `RequestTask`: the state and the reply when it returns.  The
goroutine `monitorTask` that it starts for an assigned task acts later, as a
transition of its own. -/
def Coordinator.RequestTask (c : Coordinator) (reply : RequestTaskReply) :
    Option (Coordinator × RequestTaskReply) :=
  if !c.mapDone then
    match firstIdle c.mapTaskStatus with
    | some i =>
      match c.mapTasks[i]? with
      | some filename =>
        some ({ c with mapTaskStatus := c.mapTaskStatus.set i TaskStatus.InProgress },
          { reply with TaskType := TaskType.MapTask, TaskNumber := (i : Int),
                       NReduce := c.nReduce, Filename := filename })
      | none => none
    | none => some (c, { reply with TaskType := TaskType.WaitTask })
  else if !c.reduceDone then
    match firstIdle c.reduceTaskStatus with
    | some i =>
      some ({ c with reduceTaskStatus := c.reduceTaskStatus.set i TaskStatus.InProgress },
        { reply with TaskType := TaskType.ReduceTask, TaskNumber := (i : Int),
                     NMap := c.nMap })
    | none => some (c, { reply with TaskType := TaskType.WaitTask })
  else
    some (c, { reply with TaskType := TaskType.ExitTask })

/-- Method `checkMapDone`. -/
def Coordinator.checkMapDone (c : Coordinator) : Coordinator :=
  if allCompleted c.mapTaskStatus then { c with mapDone := true } else c

/-- Method `checkReduceDone`. -/
def Coordinator.checkReduceDone (c : Coordinator) : Coordinator :=
  if allCompleted c.reduceTaskStatus then { c with reduceDone := true } else c

/-- Method `ReportTask`. -/
def Coordinator.ReportTask (c : Coordinator) (args : ReportTaskArgs) : Option Coordinator :=
  if args.TaskType = TaskType.MapTask then
    match sliceGet c.mapTaskStatus args.TaskNumber with
    | some status =>
      let c1 : Coordinator :=
        if status ≠ TaskStatus.Completed then
          { c with mapTaskStatus := c.mapTaskStatus.set args.TaskNumber.toNat TaskStatus.Completed }
        else c
      some c1.checkMapDone
    | none => none
  else if args.TaskType = TaskType.ReduceTask then
    match sliceGet c.reduceTaskStatus args.TaskNumber with
    | some status =>
      let c1 : Coordinator :=
        if status ≠ TaskStatus.Completed then
          { c with
            reduceTaskStatus := c.reduceTaskStatus.set args.TaskNumber.toNat TaskStatus.Completed }
        else c
      some c1.checkReduceDone
    | none => none
  else
    some c

/-- Method `monitorTask`, from the moment its sleep of 10 seconds is over. -/
def Coordinator.monitorTask (c : Coordinator) (taskType : TaskType) (taskNumber : Int) :
    Option Coordinator :=
  if taskType = TaskType.MapTask then
    match sliceGet c.mapTaskStatus taskNumber with
    | some status =>
      if status = TaskStatus.InProgress then
        some { c with mapTaskStatus := c.mapTaskStatus.set taskNumber.toNat TaskStatus.Idle }
      else some c
    | none => none
  else if taskType = TaskType.ReduceTask then
    match sliceGet c.reduceTaskStatus taskNumber with
    | some status =>
      if status = TaskStatus.InProgress then
        some { c with reduceTaskStatus := c.reduceTaskStatus.set taskNumber.toNat TaskStatus.Idle }
      else some c
    | none => none
  else
    some c

/-- Method `Done`. -/
def Coordinator.Done (c : Coordinator) : Bool := c.mapDone && c.reduceDone

/-- What happens to the coordinator: a worker requests a task, a worker reports
a task, the timeout of a monitor expires. -/
inductive Event where
  | request (reply : RequestTaskReply)
  | report (args : ReportTaskArgs)
  | monitor (taskType : TaskType) (taskNumber : Int)

/-- State after one event; `none` when the method panics. -/
def Coordinator.handle (c : Coordinator) : Event → Option Coordinator
  | Event.request reply =>
    match c.RequestTask reply with
    | some (c1, _) => some c1
    | none => none
  | Event.report args => c.ReportTask args
  | Event.monitor taskType taskNumber => c.monitorTask taskType taskNumber

/-- State after a sequence of events. -/
def Coordinator.run : Coordinator → List Event → Option Coordinator
  | c, [] => some c
  | c, e :: rest =>
    match c.handle e with
    | some c1 => c1.run rest
    | none => none

/-- Index `i` holds the first `Idle` entry of the slice. -/
def lowestIdle (statuses : List TaskStatus) (i : Nat) : Prop :=
  statuses[i]? = some TaskStatus.Idle ∧ ∀ j, j < i → statuses[j]? ≠ some TaskStatus.Idle

end mr

namespace mr

/-- What every reachable state of the coordinator satisfies: once `mapDone` is
set every map task is `Completed`, and there is a status for each input file
and conversely. -/
def Coordinator.wellFormed (c : Coordinator) : Prop :=
  (c.mapDone = true → ∀ s ∈ c.mapTaskStatus, s = TaskStatus.Completed) ∧
  c.mapTasks.length = c.mapTaskStatus.length

end mr

/-! ## mr: completion of the job -/

namespace mr

/-- A phase (map or reduce), given by the statuses of its tasks and its flag
`mapDone` or `reduceDone`: the flag is set only when every task is
`Completed`, and it is set when every task of a non-empty phase is
`Completed`. -/
def phaseOk (statuses : List TaskStatus) (done : Bool) : Prop :=
  (done = true → ∀ s ∈ statuses, s = TaskStatus.Completed) ∧
  ((∀ s ∈ statuses, s = TaskStatus.Completed) → statuses ≠ [] → done = true)

/-- What every state of a coordinator with `nm` map tasks and `nr` reduce
tasks satisfies. -/
def Coordinator.doneInvariant (nm nr : Nat) (c : Coordinator) : Prop :=
  c.mapTaskStatus.length = nm ∧ c.reduceTaskStatus.length = nr ∧
  phaseOk c.mapTaskStatus c.mapDone ∧ phaseOk c.reduceTaskStatus c.reduceDone

end mr

/-! ## mr: the worker -/

namespace mr

/-- Type `KeyValue` of `mr/worker.go`. -/
structure KeyValue where
  Key : String
  Value : String
  deriving DecidableEq

/-- Bytes `[]byte(key)` of a string, as numbers below 256. -/
def stringBytes (key : String) : List Nat :=
  (key.data.flatMap String.utf8EncodeChar).map UInt8.toNat

/-- Hash of `hash/fnv`, `New32a` followed by `Write(bytes)` and `Sum32()`:
32-bit FNV-1a, starting from the offset basis 2166136261 and, for each byte,
xor-ing the byte in and multiplying by the prime 16777619 modulo `2^32`. -/
def fnv32a (bytes : List Nat) : Nat :=
  bytes.foldl (fun h b => ((h ^^^ b) * 16777619) % 2 ^ 32) 2166136261

/-- Function `ihash`. -/
def ihash (key : String) : Int :=
  Int.ofNat (fnv32a (stringBytes key) &&& 0x7fffffff)

/-- The expression `ihash(kv.Key) % nReduce` of `doMapTask`; `none` is the
panic of an integer division by zero.  The operator `%` of Go truncates
towards zero. -/
def reduceTaskNumber (key : String) (nReduce : Int) : Option Int :=
  if nReduce = 0 then none else some ((ihash key).tmod nReduce)

/-- The loop of `doMapTask` that writes the pairs of `kva` to the encoders:
`encoders` holds what has been written to each of them so far; `none` is a
panic (division by zero or index out of range). -/
def doMapTask_encode (nReduce : Int) :
    List KeyValue → List (List KeyValue) → Option (List (List KeyValue))
  | [], encoders => some encoders
  | kv :: rest, encoders =>
    match reduceTaskNumber kv.Key nReduce with
    | some r =>
      match sliceGet encoders r with
      | some written => doMapTask_encode nReduce rest (encoders.set r.toNat (written ++ [kv]))
      | none => none
    | none => none

/-- The partitioning part of `doMapTask`: `nReduce` encoders are created and
the pairs of `kva` written to them; `none` is a panic (`make` with a negative
length included). -/
def doMapTask_partition (kva : List KeyValue) (nReduce : Int) :
    Option (List (List KeyValue)) :=
  if nReduce < 0 then none
  else doMapTask_encode nReduce kva (List.replicate nReduce.toNat [])

/-- One call of the reduce function made by the grouping loop, with the
output line written for it. -/
structure ReduceCall where
  key : String
  values : List String
  line : String
  deriving DecidableEq

/-- The loop `for j < len(intermediate) && intermediate[j].Key ==
intermediate[i].Key { j++ }` from the value `j`: the value of `j` when the
loop exits, `none` when `fuel` iterations do not suffice. -/
def reduce_scan (intermediate : List KeyValue) (i : Nat) : Nat → Nat → Option Nat
  | 0, _ => none
  | fuel + 1, j =>
    match intermediate[j]?, intermediate[i]? with
    | some kvj, some kvi =>
      if kvj.Key = kvi.Key then reduce_scan intermediate i fuel (j + 1) else some j
    | _, _ => some j

/-- The loop `for k := i; k < j; k++ { values = append(values,
intermediate[k].Value) }` from the value `k`. -/
def reduce_values (intermediate : List KeyValue) (j : Nat) :
    Nat → Nat → List String → Option (List String)
  | 0, _, _ => none
  | fuel + 1, k, values =>
    if k < j then
      match intermediate[k]? with
      | some kv => reduce_values intermediate j fuel (k + 1) (values ++ [kv.Value])
      | none => none
    else some values

/-- The grouping loop of `doReduceTask` (and of `main` in `mrsequential.go`)
from the value `i`: the calls of `reducef` it makes, in order, each with the
line `"%v %v\n"` written for it; `none` when `fuel` iterations do not
suffice. -/
def reduce_loop (reducef : String → List String → String) (intermediate : List KeyValue) :
    Nat → Nat → Option (List ReduceCall)
  | 0, _ => none
  | fuel + 1, i =>
    if i < intermediate.length then
      match reduce_scan intermediate i fuel (i + 1) with
      | some j =>
        match reduce_values intermediate j fuel i [], intermediate[i]? with
        | some values, some kvi =>
          let output := reducef kvi.Key values
          match reduce_loop reducef intermediate fuel j with
          | some calls =>
            some ({ key := kvi.Key, values := values,
                    line := kvi.Key ++ " " ++ output ++ "\n" } :: calls)
          | none => none
        | _, _ => none
      | none => none
    else some []

end mr

namespace shardkv

/-- The values among which the session entry of client `id` is the largest
after `ops` have been applied: the entry stored before, if there is one, and
the RequestIDs of the commands of `id` in `ops`. -/
def sessionValues (kv : ShardKV) (ops : List Op) (id : Int) : List Int :=
  (kv.clientRequests id).toList ++
    (ops.filter (fun op => decide (op.ClientID = id))).map (fun op => op.RequestID)

end shardkv

namespace mr

/-- The calls `calls` group the pairs of `input` by key: the keys of the calls
are strictly increasing, they are the keys that occur in `input`, each call
carries the values of the pairs with its key in their order in `input` and the
line written for it, and the numbers of values add up to the length of
`input`. -/
def reduceGrouped (reducef : String → List String → String) (input : List KeyValue)
    (calls : List ReduceCall) : Prop :=
  (calls.map (fun c => c.key)).Pairwise (fun k1 k2 => k1 < k2) ∧
  (∀ k, k ∈ calls.map (fun c => c.key) ↔ k ∈ input.map (fun kv => kv.Key)) ∧
  (∀ c ∈ calls,
    c.values = (input.filter (fun kv => decide (kv.Key = c.key))).map (fun kv => kv.Value) ∧
    c.line = c.key ++ " " ++ reducef c.key c.values ++ "\n") ∧
  (calls.map (fun c => c.values.length)).sum = input.length

end mr

namespace shardkv

/-- An entry of the committed-entry stream that the apply loop has applied:
its `CommandIndex`, the `Op` it carries, and the store it was applied to. -/
structure AppliedEntry where
  index : Int
  op : Op
  store : ShardKV

/-- The `result` that the apply step computed for the entry, which it sends
to the slot under the entry's index. -/
def AppliedEntry.result (e : AppliedEntry) : OpResult :=
  (applier_apply e.store e.op).2

/-- The entry applied by the statement that `a` selects in state `s`: the
locked body of `applier` for a valid message carrying an `Op`, when it runs
to the unlock. -/
def System.appliedBy (s : System) : Action → List AppliedEntry
  | Action.applierStep =>
    match s.applier with
    | ApplierPC.body msg =>
      match msg.CommandValid, msg.Command, applier_step s.kv msg with
      | true, Command.op op, StepResult.done _ => [⟨msg.CommandIndex, op, s.kv⟩]
      | _, _, _ => []
    | _ => []
  | _ => []

/-- The entries applied along a schedule, oldest first. -/
def System.applied : System → List Action → List AppliedEntry
  | _, [] => []
  | s, a :: rest =>
    match s.step a with
    | some s1 => s.appliedBy a ++ s1.applied rest
    | none => []

/-- Every value held by a slot of the registry is the result of an entry of
`log` with the slot's index. -/
def slotsFromLog (kv : ShardKV) (log : List AppliedEntry) : Prop :=
  ∀ j buf r, kv.resultCh j = some buf → r ∈ buf →
    ∃ e ∈ log, e.index = j ∧ r = e.result

/-- Log index that the handler obtained from `Start`, while it is between
`Start` and its return. -/
def HandlerPC.index : HandlerPC → Option Int
  | HandlerPC.start => none
  | HandlerPC.lockRegister i => some i
  | HandlerPC.register i => some i
  | HandlerPC.unlockRegister i => some i
  | HandlerPC.select i => some i
  | HandlerPC.lockDelete i => some i
  | HandlerPC.delete i => some i
  | HandlerPC.unlockDelete i => some i
  | HandlerPC.returned => none

/-- The handler is past its `select`. -/
def HandlerPC.pastSelect : HandlerPC → Bool
  | HandlerPC.lockDelete _ => true
  | HandlerPC.delete _ => true
  | HandlerPC.unlockDelete _ => true
  | HandlerPC.returned => true
  | _ => false

end shardkv

/-! ## Lemmas on Go maps -/

namespace GoMap

variable {κ ν : Type} [DecidableEq κ]

theorem set_same (m : GoMap κ ν) (k : κ) (v : ν) : m.set k v k = some v := by
  simp [set]

theorem set_other (m : GoMap κ ν) (k j : κ) (v : ν) (h : j ≠ k) : m.set k v j = m j := by
  simp [set, h]

theorem set_set (m : GoMap κ ν) (k : κ) (v w : ν) : (m.set k v).set k w = m.set k w := by
  funext j
  by_cases h : j = k <;> simp [set, h]

end GoMap

/-! ## kvsrv: the handlers -/

namespace kvsrv

/-- A request whose sequence number exceeds the stored one (or whose client is
unknown) runs the tail of `Put`. -/
theorem Put_of_new (kv : KVServer) (args : PutAppendArgs) (reply : PutAppendReply)
    (hnew : ∀ l, kv.lastSequence args.ClientID = some l → l < args.SequenceNum) :
    kv.Put args reply = kv.Put_new args reply := by
  cases hl : kv.lastSequence args.ClientID with
  | none => simp only [KVServer.Put, hl]
  | some l =>
    have h := hnew l hl
    have h1 : ¬ args.SequenceNum = l := by omega
    have h2 : ¬ args.SequenceNum < l := by omega
    simp only [KVServer.Put, hl, h1, h2, if_false]

/-- A request whose sequence number exceeds the stored one (or whose client is
unknown) runs the tail of `Append`. -/
theorem Append_of_new (kv : KVServer) (args : PutAppendArgs) (reply : PutAppendReply)
    (hnew : ∀ l, kv.lastSequence args.ClientID = some l → l < args.SequenceNum) :
    kv.Append args reply = kv.Append_new args reply := by
  cases hl : kv.lastSequence args.ClientID with
  | none => simp only [KVServer.Append, hl]
  | some l =>
    have h := hnew l hl
    have h1 : ¬ args.SequenceNum = l := by omega
    have h2 : ¬ args.SequenceNum < l := by omega
    simp only [KVServer.Append, hl, h1, h2, if_false]

/-- A request carrying the stored sequence number is answered by `Put` from
`lastReply`, with the server untouched. -/
theorem Put_of_dup (kv : KVServer) (args : PutAppendArgs) (reply : PutAppendReply)
    (r : String) (hs : kv.lastSequence args.ClientID = some args.SequenceNum)
    (hr : kv.lastReply args.ClientID = some r) :
    kv.Put args reply = (kv, { Value := r }) := by
  simp [KVServer.Put, hs, GoMap.index, hr]

/-- A request carrying the stored sequence number is answered by `Append` from
`lastReply`, with the server untouched. -/
theorem Append_of_dup (kv : KVServer) (args : PutAppendArgs) (reply : PutAppendReply)
    (r : String) (hs : kv.lastSequence args.ClientID = some args.SequenceNum)
    (hr : kv.lastReply args.ClientID = some r) :
    kv.Append args reply = (kv, { Value := r }) := by
  simp [KVServer.Append, hs, GoMap.index, hr]

/-- `Put` never touches the session entries of a client other than the
sender. -/
theorem Put_session_other (kv : KVServer) (args : PutAppendArgs) (reply : PutAppendReply)
    (c : Int) (hc : args.ClientID ≠ c) :
    (kv.Put args reply).1.lastSequence c = kv.lastSequence c ∧
    (kv.Put args reply).1.lastReply c = kv.lastReply c := by
  have hc2 : c ≠ args.ClientID := fun h => hc h.symm
  cases hl : kv.lastSequence args.ClientID with
  | none => simp [KVServer.Put, hl, KVServer.Put_new, GoMap.set, hc2]
  | some l =>
    by_cases h1 : args.SequenceNum = l
    · simp [KVServer.Put, hl, h1]
    · by_cases h2 : args.SequenceNum < l
      · simp [KVServer.Put, hl, h1, h2]
      · simp [KVServer.Put, hl, h1, h2, KVServer.Put_new, GoMap.set, hc2]

/-- `Append` never touches the session entries of a client other than the
sender. -/
theorem Append_session_other (kv : KVServer) (args : PutAppendArgs) (reply : PutAppendReply)
    (c : Int) (hc : args.ClientID ≠ c) :
    (kv.Append args reply).1.lastSequence c = kv.lastSequence c ∧
    (kv.Append args reply).1.lastReply c = kv.lastReply c := by
  have hc2 : c ≠ args.ClientID := fun h => hc h.symm
  cases hl : kv.lastSequence args.ClientID with
  | none => simp [KVServer.Append, hl, KVServer.Append_new, GoMap.set, hc2]
  | some l =>
    by_cases h1 : args.SequenceNum = l
    · simp [KVServer.Append, hl, h1]
    · by_cases h2 : args.SequenceNum < l
      · simp [KVServer.Append, hl, h1, h2]
      · simp [KVServer.Append, hl, h1, h2, KVServer.Append_new, GoMap.set, hc2]

/-- Requests of other clients leave the session entries of `c` as they are. -/
theorem serveAll_session_other (c : Int) (reqs : List Request)
    (hothers : ∀ q ∈ reqs, q.fromOther c) (kv : KVServer) :
    (kv.serveAll reqs).lastSequence c = kv.lastSequence c ∧
    (kv.serveAll reqs).lastReply c = kv.lastReply c := by
  induction reqs generalizing kv with
  | nil => exact ⟨rfl, rfl⟩
  | cons q rest ih =>
    have hq : q.fromOther c := hothers q (List.mem_cons_self q rest)
    have hrest : ∀ p ∈ rest, p.fromOther c := fun p hp => hothers p (List.mem_cons_of_mem q hp)
    have hstep : (kv.serve q).lastSequence c = kv.lastSequence c ∧
        (kv.serve q).lastReply c = kv.lastReply c := by
      cases q with
      | get args => exact ⟨rfl, rfl⟩
      | put args => exact Put_session_other kv args _ c hq
      | append args => exact Append_session_other kv args _ c hq
    have h := ih hrest (kv.serve q)
    simp only [KVServer.serveAll, List.foldl_cons] at h ⊢
    exact ⟨h.1.trans hstep.1, h.2.trans hstep.2⟩

/-- Once the request of `args` has been executed (the server stores its
sequence number and reply `r`), the retry loop ends at the first delivered
attempt with reply `r` and never changes the server. -/
theorem PutAppend_loop_executed (args : PutAppendArgs) (r : String) (kv : KVServer)
    (hs : kv.lastSequence args.ClientID = some args.SequenceNum)
    (hr : kv.lastReply args.ClientID = some r) (pre : List Delivery) :
    Clerk.PutAppend_loop args "Append" (pre ++ [Delivery.delivered]) kv = some (kv, r) := by
  have hdup := Append_of_dup kv args { Value := "" } r hs hr
  induction pre with
  | nil => simp [Clerk.PutAppend_loop, Call, hdup]
  | cons d rest ih =>
    cases d <;> simp [Clerk.PutAppend_loop, Call, hdup, ih]

/-- While the request of `args` is new to the server, the retry loop ends with
the server as one execution of `Append` leaves it and returns the reply of
that execution. -/
theorem PutAppend_loop_new (args : PutAppendArgs) (kv : KVServer)
    (hnew : ∀ l, kv.lastSequence args.ClientID = some l → l < args.SequenceNum)
    (pre : List Delivery) :
    Clerk.PutAppend_loop args "Append" (pre ++ [Delivery.delivered]) kv =
      some ((kv.Append args { Value := "" }).1, kv.data.index args.Key "") := by
  have hexec := Append_of_new kv args { Value := "" } hnew
  have hs : (kv.Append args { Value := "" }).1.lastSequence args.ClientID =
      some args.SequenceNum := by
    rw [hexec]; simp [KVServer.Append_new, GoMap.set]
  have hr : (kv.Append args { Value := "" }).1.lastReply args.ClientID =
      some (kv.data.index args.Key "") := by
    rw [hexec]; simp [KVServer.Append_new, GoMap.set]
  have hv : (kv.Append args { Value := "" }).2.Value = kv.data.index args.Key "" := by
    rw [hexec]; rfl
  induction pre with
  | nil => simp [Clerk.PutAppend_loop, Call, hv]
  | cons d rest ih =>
    cases d with
    | lost => simpa [Clerk.PutAppend_loop, Call] using ih
    | replyLost =>
      simpa [Clerk.PutAppend_loop, Call] using
        PutAppend_loop_executed args _ _ hs hr rest
    | delivered => simp [Clerk.PutAppend_loop, Call, hv]

/-- C1. At-most-once under retries: when the Clerk's next sequence number is
larger than the one stored for its client id (or the client is unknown), then
for every retry schedule of `PutAppend(key, value, "Append")` whose attempts
are lost, executed with the reply lost, or delivered, the last one being
delivered, the call returns, the server ends exactly as one execution of
`Append` leaves it, and the caller receives the value the key held before the
first execution (the empty string for an absent key). -/
theorem at_most_once_under_retries (kv : KVServer) (ck : Clerk) (key value : String)
    (pre : List Delivery)
    (hnew : ∀ l, kv.lastSequence ck.clientID = some l → l < ck.nextSeq) :
    Clerk.PutAppend ck kv key value "Append" (pre ++ [Delivery.delivered]) =
      some ({ clientID := ck.clientID, sequenceNum := ck.nextSeq },
        (kv.Append { Key := key, Value := value, ClientID := ck.clientID,
                     SequenceNum := ck.nextSeq } { Value := "" }).1,
        kv.data.index key "") := by
  simp only [Clerk.PutAppend]
  rw [PutAppend_loop_new _ kv hnew pre]

/-- Witness of C1: a client known to the server with sequence number 1 appends
under the schedule lost, reply lost, reply lost, delivered. -/
theorem at_most_once_under_retries_witness :
    Clerk.PutAppend { clientID := 7, sequenceNum := 1 }
        (KVServer.Put StartKVServer ⟨"x", "1", 7, 1⟩ ⟨""⟩).1 "x" "a" "Append"
        ([Delivery.lost, Delivery.replyLost, Delivery.replyLost] ++ [Delivery.delivered]) =
      some ({ clientID := 7, sequenceNum := Clerk.nextSeq { clientID := 7, sequenceNum := 1 } },
        ((KVServer.Put StartKVServer ⟨"x", "1", 7, 1⟩ ⟨""⟩).1.Append
          { Key := "x", Value := "a", ClientID := 7,
            SequenceNum := Clerk.nextSeq { clientID := 7, sequenceNum := 1 } }
          { Value := "" }).1,
        (KVServer.Put StartKVServer ⟨"x", "1", 7, 1⟩ ⟨""⟩).1.data.index "x" "") :=
  at_most_once_under_retries _ { clientID := 7, sequenceNum := 1 } "x" "a" _
    (by
      intro l hl
      have h1 : l = 1 := by
        simpa [KVServer.Put, StartKVServer, GoMap.empty, KVServer.Put_new, GoMap.set] using hl.symm
      subst h1
      decide)

/-- C3. Duplicate echo: after `Append` with `(c, s)` ran as a new request and
replied `r`, and after any finite sequence of Get, Put and Append requests of
clients other than `c`, an Append or a Put carrying the same `(c, s)` replies
exactly `r` and leaves `data`, `lastSequence` and `lastReply` unchanged. -/
theorem duplicate_echo (kv : KVServer) (args : PutAppendArgs) (reply : PutAppendReply)
    (hnew : ∀ l, kv.lastSequence args.ClientID = some l → l < args.SequenceNum)
    (reqs : List Request) (hothers : ∀ q ∈ reqs, q.fromOther args.ClientID)
    (dup : PutAppendArgs) (hc : dup.ClientID = args.ClientID)
    (hs : dup.SequenceNum = args.SequenceNum) (reply2 : PutAppendReply) :
    ((kv.Append args reply).1.serveAll reqs).Append dup reply2 =
        ((kv.Append args reply).1.serveAll reqs, { Value := (kv.Append args reply).2.Value }) ∧
    ((kv.Append args reply).1.serveAll reqs).Put dup reply2 =
        ((kv.Append args reply).1.serveAll reqs, { Value := (kv.Append args reply).2.Value }) := by
  have hexec := Append_of_new kv args reply hnew
  have hkeep := serveAll_session_other args.ClientID reqs hothers (kv.Append args reply).1
  have hseq : ((kv.Append args reply).1.serveAll reqs).lastSequence dup.ClientID =
      some dup.SequenceNum := by
    rw [hc, hs, hkeep.1, hexec]; simp [KVServer.Append_new, GoMap.set]
  have hrep : ((kv.Append args reply).1.serveAll reqs).lastReply dup.ClientID =
      some (kv.Append args reply).2.Value := by
    rw [hc, hkeep.2, hexec]; simp [KVServer.Append_new, GoMap.set]
  exact ⟨Append_of_dup _ dup reply2 _ hseq hrep, Put_of_dup _ dup reply2 _ hseq hrep⟩

/-- Witness of C3: client 7 appends to `x`, client 8 then puts, appends and
someone reads, and client 7 repeats its request. -/
theorem duplicate_echo_witness :
    (((KVServer.Put StartKVServer ⟨"x", "1", 7, 1⟩ ⟨""⟩).1.Append ⟨"x", "a", 7, 2⟩ ⟨""⟩).1.serveAll
        [Request.put ⟨"x", "9", 8, 1⟩, Request.append ⟨"y", "b", 8, 2⟩,
          Request.get ⟨"x"⟩]).Append ⟨"x", "a", 7, 2⟩ ⟨""⟩ =
      (((KVServer.Put StartKVServer ⟨"x", "1", 7, 1⟩ ⟨""⟩).1.Append ⟨"x", "a", 7, 2⟩ ⟨""⟩).1.serveAll
        [Request.put ⟨"x", "9", 8, 1⟩, Request.append ⟨"y", "b", 8, 2⟩, Request.get ⟨"x"⟩],
        { Value := ((KVServer.Put StartKVServer ⟨"x", "1", 7, 1⟩ ⟨""⟩).1.Append
            ⟨"x", "a", 7, 2⟩ ⟨""⟩).2.Value }) ∧
    ((KVServer.Put StartKVServer ⟨"x", "1", 7, 1⟩ ⟨""⟩).1.Append ⟨"x", "a", 7, 2⟩ ⟨""⟩).2.Value
      = "1" :=
  ⟨(duplicate_echo (KVServer.Put StartKVServer ⟨"x", "1", 7, 1⟩ ⟨""⟩).1 ⟨"x", "a", 7, 2⟩ ⟨""⟩
      (by
        intro l hl
        have h1 : l = 1 := by
          simpa [KVServer.Put, StartKVServer, GoMap.empty, KVServer.Put_new, GoMap.set]
            using hl.symm
        subst h1
        decide)
      [Request.put ⟨"x", "9", 8, 1⟩, Request.append ⟨"y", "b", 8, 2⟩, Request.get ⟨"x"⟩]
      (by
        intro q hq
        simp only [List.mem_cons, List.mem_singleton, List.not_mem_nil, or_false] at hq
        rcases hq with rfl | rfl | rfl <;> simp [Request.fromOther])
      ⟨"x", "a", 7, 2⟩ rfl rfl ⟨""⟩).1, by decide⟩

/-- C4. Stale request is a silent no-op: a Put or an Append whose
sequence number is strictly smaller than the one stored for its client leaves
`data`, `lastSequence` and `lastReply` unchanged and returns the reply as it
was on entry. -/
theorem stale_request_is_noop (kv : KVServer) (args : PutAppendArgs) (reply : PutAppendReply)
    (lastSeq : Int) (hl : kv.lastSequence args.ClientID = some lastSeq)
    (hlt : args.SequenceNum < lastSeq) :
    kv.Put args reply = (kv, reply) ∧ kv.Append args reply = (kv, reply) := by
  have h1 : ¬ args.SequenceNum = lastSeq := by omega
  constructor
  · simp only [KVServer.Put, hl, h1, hlt, if_false, if_true]
  · simp only [KVServer.Append, hl, h1, hlt, if_false, if_true]

/-- Witness of C4: the server has seen sequence number 5 of client 7 and
receives its request number 3; a reply holding "keep" comes back as it was. -/
theorem stale_request_is_noop_witness :
    (KVServer.Put StartKVServer ⟨"x", "1", 7, 5⟩ ⟨""⟩).1.lastSequence 7 = some 5 ∧
    (3 : Int) < 5 ∧
    (KVServer.Put StartKVServer ⟨"x", "1", 7, 5⟩ ⟨""⟩).1.Put ⟨"x", "2", 7, 3⟩ ⟨"keep"⟩ =
      ((KVServer.Put StartKVServer ⟨"x", "1", 7, 5⟩ ⟨""⟩).1, ⟨"keep"⟩) ∧
    (KVServer.Put StartKVServer ⟨"x", "1", 7, 5⟩ ⟨""⟩).1.Append ⟨"x", "2", 7, 3⟩ ⟨"keep"⟩ =
      ((KVServer.Put StartKVServer ⟨"x", "1", 7, 5⟩ ⟨""⟩).1, ⟨"keep"⟩) :=
  ⟨by decide, by decide,
    stale_request_is_noop (KVServer.Put StartKVServer ⟨"x", "1", 7, 5⟩ ⟨""⟩).1
      ⟨"x", "2", 7, 3⟩ ⟨"keep"⟩ 5 (by decide) (by decide)⟩

/-- C6. New Append: when the client is unknown or the sequence number is
strictly greater than the stored one, the reply is the value the key held
before the call (the empty string for an absent key), afterwards `data[Key]`
is that prior value followed by `args.Value`, every other key is unchanged,
`lastSequence[ClientID]` is the sequence number and `lastReply[ClientID]` is
the returned prior value.  Scenario: with `x = "1"`, Append(x, "a") with
sequence number 2 returns "1", Append(x, "b") with sequence number 3 returns
"1a", and `x` ends as "1ab". -/
theorem new_append (kv : KVServer) (args : PutAppendArgs) (reply : PutAppendReply)
    (hnew : ∀ l, kv.lastSequence args.ClientID = some l → l < args.SequenceNum) :
    ((kv.Append args reply).2.Value =
        match kv.data args.Key with
        | some v => v
        | none => "") ∧
    (kv.Append args reply).1.data args.Key =
      some ((kv.Append args reply).2.Value ++ args.Value) ∧
    (∀ k, k ≠ args.Key → (kv.Append args reply).1.data k = kv.data k) ∧
    (kv.Append args reply).1.lastSequence args.ClientID = some args.SequenceNum ∧
    (kv.Append args reply).1.lastReply args.ClientID = some (kv.Append args reply).2.Value ∧
    ((KVServer.Put StartKVServer ⟨"x", "1", 7, 1⟩ ⟨""⟩).1.data "x" = some "1" ∧
      ((KVServer.Put StartKVServer ⟨"x", "1", 7, 1⟩ ⟨""⟩).1.Append
        ⟨"x", "a", 7, 2⟩ ⟨""⟩).2.Value = "1" ∧
      (((KVServer.Put StartKVServer ⟨"x", "1", 7, 1⟩ ⟨""⟩).1.Append
        ⟨"x", "a", 7, 2⟩ ⟨""⟩).1.Append ⟨"x", "b", 7, 3⟩ ⟨""⟩).2.Value = "1a" ∧
      (((KVServer.Put StartKVServer ⟨"x", "1", 7, 1⟩ ⟨""⟩).1.Append
        ⟨"x", "a", 7, 2⟩ ⟨""⟩).1.Append ⟨"x", "b", 7, 3⟩ ⟨""⟩).1.data "x" = some "1ab") := by
  rw [Append_of_new kv args reply hnew]
  refine ⟨?_, ?_, ?_, ?_, ?_, ?_⟩
  · cases h : kv.data args.Key <;> simp [KVServer.Append_new, GoMap.index, h]
  · simp [KVServer.Append_new, GoMap.set]
  · intro k hk
    simp [KVServer.Append_new, GoMap.set, hk]
  · simp [KVServer.Append_new, GoMap.set]
  · simp [KVServer.Append_new, GoMap.set]
  · decide

/-- Witness of C6: client 7, known with sequence number 1, appends "a" to
`x = "1"` with sequence number 2. -/
theorem new_append_witness :
    ((KVServer.Put StartKVServer ⟨"x", "1", 7, 1⟩ ⟨""⟩).1.Append
        ⟨"x", "a", 7, 2⟩ ⟨""⟩).1.data "x" =
      some (((KVServer.Put StartKVServer ⟨"x", "1", 7, 1⟩ ⟨""⟩).1.Append
        ⟨"x", "a", 7, 2⟩ ⟨""⟩).2.Value ++ "a") :=
  (new_append (KVServer.Put StartKVServer ⟨"x", "1", 7, 1⟩ ⟨""⟩).1 ⟨"x", "a", 7, 2⟩ ⟨""⟩
    (by
      intro l hl
      have h1 : l = 1 := by
        simpa [KVServer.Put, StartKVServer, GoMap.empty, KVServer.Put_new, GoMap.set]
          using hl.symm
      subst h1
      decide)).2.1

/-- C7. New Put and its retry: when the client is unknown or the sequence
number is strictly greater than the stored one, afterwards `data[Key]` is
`args.Value`, every other key is unchanged, the reply is the empty string and
`lastSequence[ClientID]` is the sequence number; the identical Put sent again
right away is answered with the empty string and changes nothing, so
`data[Key]` is still `args.Value`.  Scenario: Put("x", "1") twice leaves
`x = "1"`. -/
theorem new_put_and_retry (kv : KVServer) (args : PutAppendArgs)
    (reply retryReply : PutAppendReply)
    (hnew : ∀ l, kv.lastSequence args.ClientID = some l → l < args.SequenceNum) :
    (kv.Put args reply).1.data args.Key = some args.Value ∧
    (∀ k, k ≠ args.Key → (kv.Put args reply).1.data k = kv.data k) ∧
    (kv.Put args reply).2.Value = "" ∧
    (kv.Put args reply).1.lastSequence args.ClientID = some args.SequenceNum ∧
    (kv.Put args reply).1.Put args retryReply = ((kv.Put args reply).1, { Value := "" }) ∧
    ((kv.Put args reply).1.Put args retryReply).1.data args.Key = some args.Value ∧
    ((StartKVServer.Put ⟨"x", "1", 7, 1⟩ ⟨""⟩).1.Put ⟨"x", "1", 7, 1⟩ ⟨""⟩).1.data "x" =
      some "1" := by
  have hdata : (kv.Put args reply).1.data args.Key = some args.Value := by
    rw [Put_of_new kv args reply hnew]; simp [KVServer.Put_new, GoMap.set]
  have hseq : (kv.Put args reply).1.lastSequence args.ClientID = some args.SequenceNum := by
    rw [Put_of_new kv args reply hnew]; simp [KVServer.Put_new, GoMap.set]
  have hrep : (kv.Put args reply).1.lastReply args.ClientID = some "" := by
    rw [Put_of_new kv args reply hnew]; simp [KVServer.Put_new, GoMap.set]
  have hretry := Put_of_dup (kv.Put args reply).1 args retryReply "" hseq hrep
  refine ⟨hdata, ?_, ?_, hseq, hretry, ?_, ?_⟩
  · intro k hk
    rw [Put_of_new kv args reply hnew]; simp [KVServer.Put_new, GoMap.set, hk]
  · rw [Put_of_new kv args reply hnew]; rfl
  · rw [hretry]; exact hdata
  · decide

/-- Witness of C7: client 7, unknown to a fresh server, puts `x = "1"` and
sends the same request again. -/
theorem new_put_and_retry_witness :
    ((StartKVServer.Put ⟨"x", "1", 7, 1⟩ ⟨""⟩).1.Put ⟨"x", "1", 7, 1⟩ ⟨""⟩).1.data "x" =
      some "1" ∧
    (StartKVServer.Put ⟨"x", "1", 7, 1⟩ ⟨""⟩).2.Value = "" :=
  ⟨(new_put_and_retry StartKVServer ⟨"x", "1", 7, 1⟩ ⟨""⟩ ⟨""⟩
      (by intro l hl; simp [StartKVServer, GoMap.empty] at hl)).2.2.2.2.2.1,
    (new_put_and_retry StartKVServer ⟨"x", "1", 7, 1⟩ ⟨""⟩ ⟨""⟩
      (by intro l hl; simp [StartKVServer, GoMap.empty] at hl)).2.2.1⟩

/-- The retry loop of `Clerk.Get` ends at the first delivered attempt with the
value of the key and never changes the server. -/
theorem Get_loop_delivered (args : GetArgs) (kv : KVServer) (pre : List Delivery) :
    Clerk.Get_loop args (pre ++ [Delivery.delivered]) kv =
      some (kv, match kv.data args.Key with
        | some v => v
        | none => "") := by
  induction pre with
  | nil => simp [Clerk.Get_loop, Call, KVServer.Get]
  | cons d rest ih =>
    cases d <;> simp [Clerk.Get_loop, Call, KVServer.Get, ih]

/-- C8. Get is a pure read: `KVServer.Get` replies `data[key]` when the key is
present and the empty string when it is absent, and leaves `data`,
`lastSequence` and `lastReply` unchanged; any number of successive Gets reply
the same value, and `Clerk.Get` returns that value under every retry schedule
that ends with a delivered attempt, with the server unchanged. -/
theorem get_is_pure_read (kv : KVServer) (args : GetArgs) (reply : GetReply) (n : Nat)
    (ck : Clerk) (pre : List Delivery) :
    ((kv.Get args reply).2.Value =
        match kv.data args.Key with
        | some v => v
        | none => "") ∧
    (kv.Get args reply).1 = kv ∧
    kv.Get_repeat args n = List.replicate n (kv.Get args reply).2.Value ∧
    Clerk.Get ck kv args.Key (pre ++ [Delivery.delivered]) =
      some (kv, (kv.Get args reply).2.Value) := by
  refine ⟨rfl, rfl, ?_, ?_⟩
  · induction n with
    | zero => rfl
    | succ m ih =>
      simp only [KVServer.Get_repeat, List.replicate_succ]
      exact congrArg _ ih
  · exact Get_loop_delivered _ kv pre

end kvsrv

/-! ## shardkv: the apply loop -/

namespace shardkv

/-- A command that is not new leaves the whole state as it is. -/
theorem applier_apply_of_not_new (kv : ShardKV) (op : Op) (h : isNew kv op = false) :
    (applier_apply kv op).1 = kv := by
  simp [applier_apply, h]

/-- Table after a new command, by operation tag. -/
theorem applier_apply_data_of_new (kv : ShardKV) (op : Op) (h : isNew kv op = true) :
    (applier_apply kv op).1.data =
      if op.Operation = "Put" then kv.data.set op.Key op.Value
      else if op.Operation = "Append" then
        kv.data.set op.Key (kv.data.index op.Key "" ++ op.Value)
      else kv.data := by
  simp only [applier_apply, h, if_true]
  split_ifs <;> rfl

/-- A new command records its request id for its client. -/
theorem applier_apply_session_of_new (kv : ShardKV) (op : Op) (h : isNew kv op = true) :
    (applier_apply kv op).1.clientRequests = kv.clientRequests.set op.ClientID op.RequestID := by
  simp [applier_apply, h]

/-- Right after a command has been applied, the same command is not new. -/
theorem isNew_after_apply (kv : ShardKV) (op : Op) :
    isNew (applier_apply kv op).1 op = false := by
  cases h : isNew kv op with
  | true =>
    simp [isNew, applier_apply_session_of_new kv op h, GoMap.set]
  | false =>
    rw [applier_apply_of_not_new kv op h]; exact h

/-- The prepared result is a function of the command and of the table after
the mutation step. -/
theorem applier_apply_result (kv : ShardKV) (op : Op) :
    (applier_apply kv op).2 =
      if op.Operation = "Get" then
        match (applier_apply kv op).1.data op.Key with
        | some value => { Err := OK, Value := value }
        | none => { Err := ErrNoKey, Value := "" }
      else { Err := OK, Value := "" } := by
  simp only [applier_apply, OpResult.zero]

/-- C2. Idempotence of the apply loop: applying the same command twice in
succession leaves the same state (`data`, `clientRequests`, and the untouched
`resultCh`) as applying it once, and the result computed for the second
application equals the one computed for the first. -/
theorem applier_apply_idempotent (kv : ShardKV) (op : Op) :
    (applier_apply (applier_apply kv op).1 op).1 = (applier_apply kv op).1 ∧
    (applier_apply (applier_apply kv op).1 op).1.data = (applier_apply kv op).1.data ∧
    (applier_apply (applier_apply kv op).1 op).1.clientRequests =
      (applier_apply kv op).1.clientRequests ∧
    (applier_apply (applier_apply kv op).1 op).2 = (applier_apply kv op).2 := by
  have hsame : (applier_apply (applier_apply kv op).1 op).1 = (applier_apply kv op).1 :=
    applier_apply_of_not_new _ op (isNew_after_apply kv op)
  refine ⟨hsame, by rw [hsame], by rw [hsame], ?_⟩
  rw [applier_apply_result (applier_apply kv op).1 op, applier_apply_result kv op, hsame]

/-- C5. Staleness rejection: a committed command (Put, Append, or any other)
whose RequestID is less than or equal to `clientRequests[ClientID]` leaves the
whole data table and every entry of `clientRequests` unchanged. -/
theorem stale_command_rejected (kv : ShardKV) (op : Op) (lastReq : Int)
    (hl : kv.clientRequests op.ClientID = some lastReq) (hle : op.RequestID ≤ lastReq) :
    (applier_apply kv op).1.data = kv.data ∧
    (applier_apply kv op).1.clientRequests = kv.clientRequests := by
  have hnot : isNew kv op = false := by
    simp only [isNew, hl]
    exact decide_eq_false (by omega)
  rw [applier_apply_of_not_new kv op hnot]
  exact ⟨rfl, rfl⟩

/-- Witness of C5: client 3 is recorded with request 4 and its Append with
request id 4 arrives again. -/
theorem stale_command_rejected_witness :
    (applier_apply StartServer ⟨"Put", "x", "1", 3, 4⟩).1.clientRequests 3 = some 4 ∧
    (4 : Int) ≤ 4 ∧
    (applier_apply (applier_apply StartServer ⟨"Put", "x", "1", 3, 4⟩).1
        ⟨"Append", "x", "2", 3, 4⟩).1.data =
      (applier_apply StartServer ⟨"Put", "x", "1", 3, 4⟩).1.data ∧
    (applier_apply (applier_apply StartServer ⟨"Put", "x", "1", 3, 4⟩).1
        ⟨"Append", "x", "2", 3, 4⟩).1.clientRequests =
      (applier_apply StartServer ⟨"Put", "x", "1", 3, 4⟩).1.clientRequests :=
  ⟨by decide, by decide,
    stale_command_rejected (applier_apply StartServer ⟨"Put", "x", "1", 3, 4⟩).1
      ⟨"Append", "x", "2", 3, 4⟩ 4 (by decide) (by decide)⟩

/-- C9. Get result in the apply loop: a committed Get command, whatever its
ClientID and RequestID, leaves the data table unchanged and produces
`OpResult{Value = data[Key], Err = OK}` when the key is present and
`OpResult{Value = "", Err = ErrNoKey}` when it is absent; Get("missing") on the
table of a fresh server yields ("", ErrNoKey). -/
theorem get_command_result (kv : ShardKV) (key value : String) (clientID requestID : Int) :
    (applier_apply kv ⟨"Get", key, value, clientID, requestID⟩).1.data = kv.data ∧
    ((applier_apply kv ⟨"Get", key, value, clientID, requestID⟩).2 =
      match kv.data key with
      | some v => { Value := v, Err := OK }
      | none => { Value := "", Err := ErrNoKey }) ∧
    (applier_apply StartServer ⟨"Get", "missing", value, clientID, requestID⟩).2 = { Value := "", Err := "ErrNoKey" } := by
  have hdata : ∀ s : ShardKV, (applier_apply s ⟨"Get", key, value, clientID, requestID⟩).1.data = s.data := by
    intro s
    cases h : isNew s ⟨"Get", key, value, clientID, requestID⟩ with
    | true => rw [applier_apply_data_of_new _ _ h]; simp
    | false => rw [applier_apply_of_not_new _ _ h]
  refine ⟨hdata kv, ?_, ?_⟩
  · rw [applier_apply_result, hdata kv]; simp
  · simp [applier_apply, isNew, StartServer, GoMap.empty, OpResult.zero, ErrNoKey]

/-- Table after a new Put or Append, in the words of the specification. -/
theorem applier_apply_data_eq_specUpdate (kv : ShardKV) (op : Op) (h : isNew kv op = true)
    (hop : op.Operation = "Put" ∨ op.Operation = "Append") :
    (applier_apply kv op).1.data = specUpdate kv.data op := by
  rw [applier_apply_data_of_new kv op h]
  unfold specUpdate
  rcases hop with hput | happ
  · simp only [hput, if_true]; rfl
  · have hput : ¬ op.Operation = "Put" := by rw [happ]; decide
    simp only [hput, happ, if_true, if_false]
    funext k
    by_cases hk : k = op.Key
    · cases hd : kv.data op.Key <;> simp [GoMap.set, GoMap.index, hk, hd]
    · simp [GoMap.set, hk]

/-- C10. Ordering: for a finite list of committed Put/Append commands each of
which is new when it is applied, the data table after the apply loop has
processed the list in order is the left fold over the list of the
per-operation update (Put overwrites, Append concatenates to the old value or
to the empty string); and there are two such commands on one key for which the
two delivery orders give different final values. -/
theorem applier_run_is_left_fold (kv : ShardKV) (ops : List Op)
    (hops : ∀ op ∈ ops, op.Operation = "Put" ∨ op.Operation = "Append")
    (hnew : newWhenApplied kv ops = true) :
    (applier_run kv ops).data = ops.foldl specUpdate kv.data ∧
    ∃ (s : ShardKV) (a b : Op),
      (a.Operation = "Put" ∨ a.Operation = "Append") ∧
      (b.Operation = "Put" ∨ b.Operation = "Append") ∧
      a.Key = b.Key ∧
      newWhenApplied s [a, b] = true ∧ newWhenApplied s [b, a] = true ∧
      (applier_run s [a, b]).data a.Key ≠ (applier_run s [b, a]).data a.Key := by
  constructor
  · induction ops generalizing kv with
    | nil => rfl
    | cons op rest ih =>
      simp only [newWhenApplied, Bool.and_eq_true] at hnew
      have hstep := applier_apply_data_eq_specUpdate kv op hnew.1
        (hops op (List.mem_cons_self op rest))
      have hrest := ih (applier_apply kv op).1
        (fun o ho => hops o (List.mem_cons_of_mem op ho)) hnew.2
      simp only [applier_run, List.foldl_cons] at hrest ⊢
      rw [hrest, hstep]
  · exact ⟨StartServer, ⟨"Put", "x", "1", 3, 1⟩, ⟨"Append", "x", "2", 4, 1⟩,
      Or.inl rfl, Or.inr rfl, rfl, by decide, by decide, by decide⟩

/-- Witness of C10: on a fresh server, client 3 puts `x = "1"`, client 4
appends "2" to `x`, and client 3 appends "3" with its next request id. -/
theorem applier_run_is_left_fold_witness :
    (applier_run StartServer
        [⟨"Put", "x", "1", 3, 1⟩, ⟨"Append", "x", "2", 4, 1⟩, ⟨"Append", "x", "3", 3, 2⟩]).data =
      [⟨"Put", "x", "1", 3, 1⟩, ⟨"Append", "x", "2", 4, 1⟩, ⟨"Append", "x", "3", 3, 2⟩].foldl
        specUpdate StartServer.data ∧
    (applier_run StartServer
        [⟨"Put", "x", "1", 3, 1⟩, ⟨"Append", "x", "2", 4, 1⟩,
          ⟨"Append", "x", "3", 3, 2⟩]).data "x" = some "123" :=
  ⟨(applier_run_is_left_fold StartServer
      [⟨"Put", "x", "1", 3, 1⟩, ⟨"Append", "x", "2", 4, 1⟩, ⟨"Append", "x", "3", 3, 2⟩]
      (by
        intro op hop
        simp only [List.mem_cons, List.mem_singleton, List.not_mem_nil, or_false] at hop
        rcases hop with rfl | rfl | rfl <;> simp)
      (by decide)).1, by decide⟩

end shardkv

/-! ## shardkv: handlers and delivery -/

namespace shardkv

theorem getResultChan_data (kv : ShardKV) (i : Int) :
    (kv.getResultChan i).data = kv.data ∧
    (kv.getResultChan i).clientRequests = kv.clientRequests := by
  unfold ShardKV.getResultChan
  cases kv.resultCh i <;> exact ⟨rfl, rfl⟩

theorem getResultChan_other (kv : ShardKV) (i j : Int) (h : j ≠ i) :
    (kv.getResultChan i).resultCh j = kv.resultCh j := by
  unfold ShardKV.getResultChan
  cases kv.resultCh i with
  | none => simp [GoMap.set, h]
  | some b => rfl

theorem getResultChan_same (kv : ShardKV) (i : Int) :
    (kv.getResultChan i).resultCh i = some ((kv.resultCh i).getD []) := by
  unfold ShardKV.getResultChan
  cases h : kv.resultCh i with
  | none => simp [GoMap.set]
  | some b => simp [h]

/-- The mutation step of `applier` never touches the registry. -/
theorem applier_apply_resultCh (kv : ShardKV) (op : Op) :
    (applier_apply kv op).1.resultCh = kv.resultCh := by
  unfold applier_apply
  cases isNew kv op <;> rfl

/-- The table, the sessions and the result of the mutation step do not depend
on the registry. -/
theorem applier_apply_registry_irrelevant (kv : ShardKV) (reg : GoMap Int (List OpResult))
    (op : Op) :
    (applier_apply { kv with resultCh := reg } op).1.data = (applier_apply kv op).1.data ∧
    (applier_apply { kv with resultCh := reg } op).1.clientRequests =
      (applier_apply kv op).1.clientRequests ∧
    (applier_apply { kv with resultCh := reg } op).2 = (applier_apply kv op).2 := by
  have hn : isNew { kv with resultCh := reg } op = isNew kv op := rfl
  unfold applier_apply
  rw [hn]
  cases isNew kv op <;> exact ⟨rfl, rfl, rfl⟩

/-- An iteration for a valid message carrying an `Op`, by the slot found under
its index. -/
theorem applier_step_op (kv : ShardKV) (op : Op) (i : Int) :
    applier_step kv ⟨true, Command.op op, i⟩ =
      match kv.resultCh i with
      | some ch =>
        match chanSend ch (applier_apply kv op).2 with
        | some ch1 =>
          StepResult.done { (applier_apply kv op).1 with
            resultCh := (applier_apply kv op).1.resultCh.set i ch1 }
        | none => StepResult.blocked (applier_apply kv op).1 (applier_apply kv op).2
      | none => StepResult.done (applier_apply kv op).1 := by
  simp only [applier_step, if_true, applier_apply_resultCh]

/-- C11. No-leader fast fail: whenever `Start` reports `isLeader = false`, the
handlers Get and PutAppend return with `reply.Err = ErrWrongLeader` and leave
the registry `resultCh` (in particular no entry is created under the returned
index), the data table and `clientRequests` exactly as they were. -/
theorem no_leader_fast_fail (kv : ShardKV) (getArgs : GetArgs) (getReply : GetReply)
    (putArgs : PutAppendArgs) (putReply : PutAppendReply) (env : HandlerEnv)
    (hleader : env.start.isLeader = false) :
    (kv.Get getArgs getReply env).2.Err = ErrWrongLeader ∧
    (kv.Get getArgs getReply env).1 = kv ∧
    (kv.Get getArgs getReply env).1.resultCh env.start.index = kv.resultCh env.start.index ∧
    (kv.PutAppend putArgs putReply env).2.Err = ErrWrongLeader ∧
    (kv.PutAppend putArgs putReply env).1 = kv ∧
    (kv.PutAppend putArgs putReply env).1.resultCh env.start.index =
      kv.resultCh env.start.index := by
  have hget : kv.Get getArgs getReply env = (kv, { getReply with Err := ErrWrongLeader }) := by
    simp only [ShardKV.Get, hleader, Bool.not_false, if_true]
  have hput : kv.PutAppend putArgs putReply env =
      (kv, { putReply with Err := ErrWrongLeader }) := by
    simp only [ShardKV.PutAppend, hleader, Bool.not_false, if_true]
  rw [hget, hput]
  exact ⟨rfl, rfl, rfl, rfl, rfl, rfl⟩

/-- Witness of C11: on a fresh replica `Start` answers index 3 and "not
leader", whatever the other goroutines would do. -/
theorem no_leader_fast_fail_witness :
    (StartServer.Get ⟨"x", 1, 1⟩ ⟨"", ""⟩
        ⟨⟨3, 1, false⟩, id, id, WaitOutcome.timeout, id⟩).2.Err = ErrWrongLeader ∧
    (StartServer.PutAppend ⟨"x", "1", "Put", 1, 1⟩ ⟨""⟩
        ⟨⟨3, 1, false⟩, id, id, WaitOutcome.timeout, id⟩).1.resultCh 3 = none :=
  ⟨(no_leader_fast_fail StartServer ⟨"x", 1, 1⟩ ⟨"", ""⟩ ⟨"x", "1", "Put", 1, 1⟩ ⟨""⟩
      ⟨⟨3, 1, false⟩, id, id, WaitOutcome.timeout, id⟩ rfl).1,
    ((no_leader_fast_fail StartServer ⟨"x", 1, 1⟩ ⟨"", ""⟩ ⟨"x", "1", "Put", 1, 1⟩ ⟨""⟩
      ⟨⟨3, 1, false⟩, id, id, WaitOutcome.timeout, id⟩ rfl).2.2.2.2.2).trans rfl⟩

/-- C12. Handler completion and cleanup: when `Start` reports leadership and
returns index `i`, then whatever the other goroutines do in the meantime, when
Get or PutAppend returns the registry has no entry for `i`; if the slot was
fulfilled the reply carries the delivered `Err` (and, for Get, the delivered
`Value`); if the timer fired first the reply is `ErrWrongLeader`; and the
handler's own statements (registration and deletion) leave the data table and
`clientRequests` as they found them. -/
theorem handler_completion_cleanup (kv : ShardKV) (getArgs : GetArgs) (getReply : GetReply)
    (putArgs : PutAppendArgs) (putReply : PutAppendReply) (env : HandlerEnv)
    (hleader : env.start.isLeader = true) :
    (kv.Get getArgs getReply env).1.resultCh env.start.index = none ∧
    (kv.PutAppend putArgs putReply env).1.resultCh env.start.index = none ∧
    (∀ r, env.outcome = WaitOutcome.fulfilled r →
      (kv.Get getArgs getReply env).2.Err = r.Err ∧
      (kv.Get getArgs getReply env).2.Value = r.Value ∧
      (kv.PutAppend putArgs putReply env).2.Err = r.Err) ∧
    (env.outcome = WaitOutcome.timeout →
      (kv.Get getArgs getReply env).2.Err = ErrWrongLeader ∧
      (kv.PutAppend putArgs putReply env).2.Err = ErrWrongLeader) ∧
    ((env.afterStart kv).getResultChan env.start.index).data = (env.afterStart kv).data ∧
    ((env.afterStart kv).getResultChan env.start.index).clientRequests =
      (env.afterStart kv).clientRequests ∧
    (kv.Get getArgs getReply env).1.data =
      (env.beforeCleanup (env.whileWaiting
        ((env.afterStart kv).getResultChan env.start.index))).data ∧
    (kv.Get getArgs getReply env).1.clientRequests =
      (env.beforeCleanup (env.whileWaiting
        ((env.afterStart kv).getResultChan env.start.index))).clientRequests ∧
    (kv.PutAppend putArgs putReply env).1.data =
      (env.beforeCleanup (env.whileWaiting
        ((env.afterStart kv).getResultChan env.start.index))).data ∧
    (kv.PutAppend putArgs putReply env).1.clientRequests =
      (env.beforeCleanup (env.whileWaiting
        ((env.afterStart kv).getResultChan env.start.index))).clientRequests := by
  have hd := getResultChan_data (env.afterStart kv) env.start.index
  refine ⟨?_, ?_, ?_, ?_, hd.1, hd.2, ?_, ?_, ?_, ?_⟩
  · simp [ShardKV.Get, hleader, ShardKV.deleteResultChan, GoMap.delete]
  · simp [ShardKV.PutAppend, hleader, ShardKV.deleteResultChan, GoMap.delete]
  · intro r hr
    simp [ShardKV.Get, ShardKV.PutAppend, hleader, hr]
  · intro ht
    simp [ShardKV.Get, ShardKV.PutAppend, hleader, ht]
  · simp [ShardKV.Get, hleader, ShardKV.deleteResultChan]
  · simp [ShardKV.Get, hleader, ShardKV.deleteResultChan]
  · simp [ShardKV.PutAppend, hleader, ShardKV.deleteResultChan]
  · simp [ShardKV.PutAppend, hleader, ShardKV.deleteResultChan]

/-- Witness of C12: a leader answers index 3; while the handler waits the
apply loop applies the proposed Put at index 3, and the handler receives the
result found in its slot. -/
theorem handler_completion_cleanup_witness :
    (StartServer.PutAppend ⟨"x", "1", "Put", 1, 1⟩ ⟨""⟩
        ⟨⟨3, 1, true⟩, id,
          fun s => ((applier_step s ⟨true, Command.op ⟨"Put", "x", "1", 1, 1⟩, 3⟩).state).getD s,
          WaitOutcome.fulfilled ⟨"OK", ""⟩, id⟩).1.resultCh 3 = none ∧
    (StartServer.PutAppend ⟨"x", "1", "Put", 1, 1⟩ ⟨""⟩
        ⟨⟨3, 1, true⟩, id,
          fun s => ((applier_step s ⟨true, Command.op ⟨"Put", "x", "1", 1, 1⟩, 3⟩).state).getD s,
          WaitOutcome.fulfilled ⟨"OK", ""⟩, id⟩).1.data "x" = some "1" :=
  ⟨(handler_completion_cleanup StartServer ⟨"x", 1, 1⟩ ⟨"", ""⟩ ⟨"x", "1", "Put", 1, 1⟩ ⟨""⟩
      ⟨⟨3, 1, true⟩, id,
        fun s => ((applier_step s ⟨true, Command.op ⟨"Put", "x", "1", 1, 1⟩, 3⟩).state).getD s,
        WaitOutcome.fulfilled ⟨"OK", ""⟩, id⟩ rfl).2.1, by decide⟩

end shardkv

namespace shardkv

/-- Counterexample to C13: a handler registered index 3, timed out and deleted
its entry; the entry committed at index 3 does not carry an `Op`, and applying
it panics in the type assertion although the registry has no entry for 3. -/
theorem orphaned_slot_entry_without_op :
    ((StartServer.getResultChan 3).deleteResultChan 3).resultCh 3 = none ∧
    applier_step ((StartServer.getResultChan 3).deleteResultChan 3)
        ⟨true, Command.other, 3⟩ = StepResult.panicked :=
  ⟨by decide, rfl⟩

/-- C13 (amended). Orphaned slot safety: when the registry has no entry for
index `i`, applying a committed entry with `CommandIndex = i` whose `Command`
is an `Op` runs to its end (no panic, no blocked send), delivers nothing and
leaves the whole registry unchanged, so it stays without an entry for `i`; and
`data` and `clientRequests` are updated exactly as they are when a slot is
present, whatever the registry holds. -/
theorem orphaned_slot_safety (kv : ShardKV) (op : Op) (i : Int)
    (hnone : kv.resultCh i = none) :
    applier_step kv ⟨true, Command.op op, i⟩ = StepResult.done (applier_apply kv op).1 ∧
    (applier_apply kv op).1.resultCh = kv.resultCh ∧
    (applier_apply kv op).1.resultCh i = none ∧
    ∀ reg : GoMap Int (List OpResult), ∃ kv2,
      (applier_step { kv with resultCh := reg } ⟨true, Command.op op, i⟩).state = some kv2 ∧
      kv2.data = (applier_apply kv op).1.data ∧
      kv2.clientRequests = (applier_apply kv op).1.clientRequests := by
  refine ⟨?_, applier_apply_resultCh kv op, ?_, ?_⟩
  · rw [applier_step_op, hnone]
  · rw [applier_apply_resultCh, hnone]
  · intro reg
    have hirr := applier_apply_registry_irrelevant kv reg op
    rw [applier_step_op]
    cases hreg : ({ kv with resultCh := reg } : ShardKV).resultCh i with
    | none => exact ⟨_, rfl, hirr.1, hirr.2.1⟩
    | some ch =>
      dsimp only
      cases hsend : chanSend ch (applier_apply { kv with resultCh := reg } op).2 with
      | none => exact ⟨_, rfl, hirr.1, hirr.2.1⟩
      | some ch1 => exact ⟨_, rfl, hirr.1, hirr.2.1⟩

/-- Witness of C13 (amended): a handler registered index 3, timed out and
deleted its entry; the Put committed at index 3 is then applied. -/
theorem orphaned_slot_safety_witness :
    ((StartServer.getResultChan 3).deleteResultChan 3).resultCh 3 = none ∧
    (applier_step ((StartServer.getResultChan 3).deleteResultChan 3)
        ⟨true, Command.op ⟨"Put", "x", "1", 1, 1⟩, 3⟩).state.map (fun s => s.data "x") =
      some (some "1") ∧
    applier_step ((StartServer.getResultChan 3).deleteResultChan 3)
        ⟨true, Command.op ⟨"Put", "x", "1", 1, 1⟩, 3⟩ =
      StepResult.done (applier_apply ((StartServer.getResultChan 3).deleteResultChan 3)
        ⟨"Put", "x", "1", 1, 1⟩).1 :=
  ⟨by decide, by decide,
    (orphaned_slot_safety ((StartServer.getResultChan 3).deleteResultChan 3)
      ⟨"Put", "x", "1", 1, 1⟩ 3 (by decide)).1⟩

/-- An iteration of `applier` leaves every slot under another index as it
was. -/
theorem applier_step_other_slot (kv : ShardKV) (msg : ApplyMsg) (j : Int)
    (hj : j ≠ msg.CommandIndex) (kv2 : ShardKV)
    (hstep : (applier_step kv msg).state = some kv2) : kv2.resultCh j = kv.resultCh j := by
  obtain ⟨valid, cmd, i⟩ := msg
  cases valid with
  | false =>
    have hskip : applier_step kv ⟨false, cmd, i⟩ = StepResult.done kv := by
      simp [applier_step]
    rw [hskip] at hstep
    simp only [StepResult.state, Option.some.injEq] at hstep
    rw [← hstep]
  | true =>
    cases cmd with
    | other => simp [applier_step, StepResult.state] at hstep
    | op o =>
      rw [applier_step_op] at hstep
      cases hreg : kv.resultCh i with
      | none =>
        simp only [hreg, StepResult.state, Option.some.injEq] at hstep
        rw [← hstep, applier_apply_resultCh]
      | some ch =>
        cases hsend : chanSend ch (applier_apply kv o).2 with
        | none =>
          simp only [hreg, hsend, StepResult.state, Option.some.injEq] at hstep
          rw [← hstep, applier_apply_resultCh]
        | some ch1 =>
          simp only [hreg, hsend, StepResult.state, Option.some.injEq] at hstep
          rw [← hstep]
          simp only [GoMap.set, applier_apply_resultCh]
          rw [if_neg hj]

/-- C14. Delivery goes only to the entry's own index: the apply step for a
committed entry with `CommandIndex = i` leaves the content of every slot
registered under an index `j ≠ i` unchanged, and an empty slot under `i`
receives the result of the entry's command.  Scenario: with slots registered
at 5 and 6 and entries applied in the order 5 then 6, slot 5 holds the result
of the command at index 5 and slot 6 the result of the command at index 6. -/
theorem delivery_only_to_own_index (kv : ShardKV) (msg : ApplyMsg) (j : Int)
    (hj : j ≠ msg.CommandIndex) :
    (∀ kv2, (applier_step kv msg).state = some kv2 → kv2.resultCh j = kv.resultCh j) ∧
    (∀ op, msg.CommandValid = true → msg.Command = Command.op op →
      kv.resultCh msg.CommandIndex = some [] →
      ∃ kv2, applier_step kv msg = StepResult.done kv2 ∧
        kv2.resultCh msg.CommandIndex = some [(applier_apply kv op).2]) ∧
    ((applier_msgs ((StartServer.getResultChan 5).getResultChan 6)
        [⟨true, Command.op ⟨"Put", "x", "1", 1, 1⟩, 5⟩,
          ⟨true, Command.op ⟨"Get", "x", "", 2, 1⟩, 6⟩]).state.map
        (fun s => (s.resultCh 5, s.resultCh 6)) =
      some (some [(applier_apply StartServer ⟨"Put", "x", "1", 1, 1⟩).2],
        some [(applier_apply (applier_apply StartServer ⟨"Put", "x", "1", 1, 1⟩).1
          ⟨"Get", "x", "", 2, 1⟩).2]) ∧
      (applier_apply StartServer ⟨"Put", "x", "1", 1, 1⟩).2 = ⟨"OK", ""⟩ ∧
      (applier_apply (applier_apply StartServer ⟨"Put", "x", "1", 1, 1⟩).1
          ⟨"Get", "x", "", 2, 1⟩).2 = ⟨"OK", "1"⟩) := by
  refine ⟨fun kv2 h => applier_step_other_slot kv msg j hj kv2 h, ?_, by decide⟩
  intro op hvalid hcmd hslot
  obtain ⟨valid, cmd, i⟩ := msg
  simp only at hvalid hcmd hslot
  subst hvalid hcmd
  refine ⟨{ (applier_apply kv op).1 with
    resultCh := (applier_apply kv op).1.resultCh.set i [(applier_apply kv op).2] }, ?_, ?_⟩
  · rw [applier_step_op, hslot]
    simp only [chanSend, List.length_nil, Nat.lt_one_iff, if_true, List.nil_append]
  · simp [GoMap.set]

/-- Witness of C14: slots are registered at 5 and 6, slot 6 already holds a
result, and the entry at index 5 is applied. -/
theorem delivery_only_to_own_index_witness :
    (6 : Int) ≠ 5 ∧
    ∀ kv2, (applier_step ((StartServer.getResultChan 5).getResultChan 6)
        ⟨true, Command.op ⟨"Put", "x", "1", 1, 1⟩, 5⟩).state = some kv2 →
      kv2.resultCh 6 = ((StartServer.getResultChan 5).getResultChan 6).resultCh 6 :=
  ⟨by decide,
    (delivery_only_to_own_index ((StartServer.getResultChan 5).getResultChan 6)
      ⟨true, Command.op ⟨"Put", "x", "1", 1, 1⟩, 5⟩ 6 (by decide)).1⟩

/-- Counterexample to C17: a valid message whose `Command` is not an `Op`
makes the type assertion of the apply step panic. -/
theorem applier_panics_on_non_op :
    applier_step StartServer ⟨true, Command.other, 1⟩ = StepResult.panicked := rfl

/-- C17 (amended). For every store state, a message with `CommandValid = false`
is skipped without any change, and a message with `CommandValid = true` whose
`Command` is an `Op` never makes the apply step panic; the step runs through
whenever the slot under the entry's index is absent or empty. -/
theorem applier_step_no_panic_on_op (kv : ShardKV) (msg : ApplyMsg)
    (hop : msg.CommandValid = true → ∃ o, msg.Command = Command.op o) :
    applier_step kv msg ≠ StepResult.panicked ∧
    (msg.CommandValid = false → applier_step kv msg = StepResult.done kv) ∧
    (kv.resultCh msg.CommandIndex = none ∨ kv.resultCh msg.CommandIndex = some [] →
      ∃ kv2, applier_step kv msg = StepResult.done kv2) := by
  obtain ⟨valid, cmd, i⟩ := msg
  cases valid with
  | false =>
    refine ⟨?_, fun _ => ?_, fun _ => ⟨kv, ?_⟩⟩ <;> simp [applier_step]
  | true =>
    obtain ⟨o, ho⟩ := hop rfl
    simp only at ho
    subst ho
    refine ⟨?_, fun h => by simp at h, ?_⟩
    · rw [applier_step_op]
      cases kv.resultCh i with
      | none => simp
      | some ch =>
        dsimp only
        cases hsend : chanSend ch (applier_apply kv o).2 <;> simp
    · intro hslot
      rw [applier_step_op]
      rcases hslot with h | h
      · simp only at h
        rw [h]; exact ⟨_, rfl⟩
      · simp only at h
        rw [h]
        simp only [chanSend, List.length_nil, Nat.lt_one_iff, if_true]
        exact ⟨_, rfl⟩

/-- Witness of C17 (amended): a committed Put on a fresh replica. -/
theorem applier_step_no_panic_on_op_witness :
    applier_step StartServer ⟨true, Command.op ⟨"Put", "x", "1", 1, 1⟩, 1⟩ ≠
      StepResult.panicked :=
  (applier_step_no_panic_on_op StartServer ⟨true, Command.op ⟨"Put", "x", "1", 1, 1⟩, 1⟩
    (fun _ => ⟨_, rfl⟩)).1

end shardkv

namespace shardkv

/-- A run of the apply loop that gets through `pre ++ m :: post` gets through
`pre`, then `m`, then `post`. -/
theorem applier_msgs_split (pre : List ApplyMsg) (m : ApplyMsg) (post : List ApplyMsg)
    (kv kvf : ShardKV) (hrun : applier_msgs kv (pre ++ m :: post) = StepResult.done kvf) :
    ∃ kvp kvm, applier_msgs kv pre = StepResult.done kvp ∧
      applier_step kvp m = StepResult.done kvm ∧
      applier_msgs kvm post = StepResult.done kvf := by
  induction pre generalizing kv with
  | nil =>
    simp only [List.nil_append, applier_msgs] at hrun
    cases hstep : applier_step kv m with
    | done kvm =>
      rw [hstep] at hrun
      exact ⟨kv, kvm, rfl, hstep, hrun⟩
    | blocked s r => rw [hstep] at hrun; cases hrun
    | panicked => rw [hstep] at hrun; cases hrun
  | cons a rest ih =>
    simp only [List.cons_append, applier_msgs] at hrun
    cases hstep : applier_step kv a with
    | done kv1 =>
      rw [hstep] at hrun
      obtain ⟨kvp, kvm, h1, h2, h3⟩ := ih kv1 hrun
      refine ⟨kvp, kvm, ?_, h2, h3⟩
      simp only [applier_msgs, hstep]
      exact h1
    | blocked s r => rw [hstep] at hrun; cases hrun
    | panicked => rw [hstep] at hrun; cases hrun

/-- A run of the apply loop over entries at other indices leaves the slot
under `i` as it was. -/
theorem applier_msgs_other_slot (msgs : List ApplyMsg) (i : Int)
    (hother : ∀ m ∈ msgs, m.CommandIndex ≠ i) (kv kvf : ShardKV)
    (hrun : applier_msgs kv msgs = StepResult.done kvf) : kvf.resultCh i = kv.resultCh i := by
  induction msgs generalizing kv with
  | nil =>
    simp only [applier_msgs, StepResult.done.injEq] at hrun
    rw [hrun]
  | cons a rest ih =>
    simp only [applier_msgs] at hrun
    cases hstep : applier_step kv a with
    | done kv1 =>
      rw [hstep] at hrun
      have h1 := ih (fun m hm => hother m (List.mem_cons_of_mem a hm)) kv1 hrun
      have h2 := applier_step_other_slot kv a i
        (fun h => hother a (List.mem_cons_self a rest) h.symm) kv1 (by rw [hstep]; rfl)
      rw [h1, h2]
    | blocked s r => rw [hstep] at hrun; cases hrun
    | panicked => rw [hstep] at hrun; cases hrun

end shardkv

namespace shardkv

/-- Every slot under an index outside `P` is absent or empty. -/
theorem registry_event_keeps_empty (P : Int → Prop) (kv kv1 : ShardKV) (e : RegistryEvent)
    (hinv : ∀ i, ¬ P i → kv.resultCh i = none ∨ kv.resultCh i = some [])
    (hstep : registry_event kv e = StepResult.done kv1) :
    ∀ i, ¬ (P i ∨ e.appliedIndex = some i) →
      kv1.resultCh i = none ∨ kv1.resultCh i = some [] := by
  intro i hi
  have hP : ¬ P i := fun h => hi (Or.inl h)
  cases e with
  | register j =>
    simp only [registry_event, StepResult.done.injEq] at hstep
    rw [← hstep]
    by_cases hij : i = j
    · subst hij
      rw [getResultChan_same]
      rcases hinv i hP with h | h <;> rw [h] <;> exact Or.inr rfl
    · rw [getResultChan_other kv j i hij]; exact hinv i hP
  | delete j =>
    simp only [registry_event, StepResult.done.injEq] at hstep
    rw [← hstep]
    by_cases hij : i = j
    · left; simp [ShardKV.deleteResultChan, GoMap.delete, hij]
    · simp only [ShardKV.deleteResultChan, GoMap.delete, if_neg hij]; exact hinv i hP
  | receive j =>
    simp only [registry_event] at hstep
    cases hslot : kv.resultCh j with
    | none =>
      simp only [hslot, StepResult.done.injEq] at hstep
      rw [← hstep]; exact hinv i hP
    | some ch =>
      cases ch with
      | nil =>
        simp only [hslot, StepResult.done.injEq] at hstep
        rw [← hstep]; exact hinv i hP
      | cons r rest =>
        simp only [hslot, StepResult.done.injEq] at hstep
        rw [← hstep]
        by_cases hij : i = j
        · subst hij
          rcases hinv i hP with h | h <;> rw [hslot] at h <;> cases h
        · simp only [GoMap.set, if_neg hij]; exact hinv i hP
  | apply msg =>
    simp only [registry_event] at hstep
    by_cases hvalid : msg.CommandValid = true
    · have hne : i ≠ msg.CommandIndex := by
        intro h
        exact hi (Or.inr (by simp [RegistryEvent.appliedIndex, hvalid, h]))
      rw [applier_step_other_slot kv msg i hne kv1 (by rw [hstep]; rfl)]
      exact hinv i hP
    · have hskip : applier_step kv msg = StepResult.done kv := by
        simp [applier_step, hvalid]
      rw [hskip, StepResult.done.injEq] at hstep
      rw [← hstep]; exact hinv i hP

/-- Along a run, slots under indices that are neither in `P` nor applied during
the run stay absent or empty. -/
theorem registry_run_keeps_empty (events : List RegistryEvent) (P : Int → Prop)
    (kv kv1 : ShardKV)
    (hinv : ∀ i, ¬ P i → kv.resultCh i = none ∨ kv.resultCh i = some [])
    (hrun : registry_run kv events = StepResult.done kv1) :
    ∀ i, ¬ (P i ∨ i ∈ appliedIndices events) →
      kv1.resultCh i = none ∨ kv1.resultCh i = some [] := by
  induction events generalizing P kv with
  | nil =>
    simp only [registry_run, StepResult.done.injEq] at hrun
    intro i hi
    rw [← hrun]; exact hinv i (fun h => hi (Or.inl h))
  | cons e rest ih =>
    simp only [registry_run] at hrun
    cases hstep : registry_event kv e with
    | done kv2 =>
      rw [hstep] at hrun
      intro i hi
      refine ih (fun j => P j ∨ e.appliedIndex = some j) kv2
        (registry_event_keeps_empty P kv kv2 e hinv hstep) hrun i ?_
      intro h
      apply hi
      rcases h with (h | h) | h
      · exact Or.inl h
      · right
        simp only [appliedIndices, List.filterMap_cons, h]
        exact List.mem_cons_self _ _
      · right
        simp only [appliedIndices, List.filterMap_cons]
        cases e.appliedIndex with
        | none => exact h
        | some j => exact List.mem_cons_of_mem _ h
    | blocked s r => rw [hstep] at hrun; cases hrun
    | panicked => rw [hstep] at hrun; cases hrun

/-- An apply step that finds an absent or empty slot is not blocked. -/
theorem applier_step_not_blocked (kv : ShardKV) (msg : ApplyMsg)
    (hslot : msg.CommandValid = true →
      kv.resultCh msg.CommandIndex = none ∨ kv.resultCh msg.CommandIndex = some [])
    (kvb : ShardKV) (r : OpResult) : applier_step kv msg ≠ StepResult.blocked kvb r := by
  obtain ⟨valid, cmd, i⟩ := msg
  cases valid with
  | false => simp [applier_step]
  | true =>
    cases cmd with
    | other => simp [applier_step]
    | op o =>
      rw [applier_step_op]
      rcases hslot rfl with h | h
      · simp only at h
        rw [h]; simp
      · simp only at h
        rw [h]; simp [chanSend]

/-- With each log index applied at most once, a run never blocks. -/
theorem registry_run_not_blocked (events : List RegistryEvent) (P : Int → Prop)
    (kv : ShardKV)
    (hinv : ∀ i, ¬ P i → kv.resultCh i = none ∨ kv.resultCh i = some [])
    (hfresh : ∀ i ∈ appliedIndices events, ¬ P i)
    (hstream : (appliedIndices events).Nodup) (kvb : ShardKV) (r : OpResult) :
    registry_run kv events ≠ StepResult.blocked kvb r := by
  induction events generalizing P kv with
  | nil => simp [registry_run]
  | cons e rest ih =>
    simp only [registry_run]
    have hsplit : appliedIndices (e :: rest) =
        (match e.appliedIndex with
          | some j => j :: appliedIndices rest
          | none => appliedIndices rest) := by
      simp only [appliedIndices, List.filterMap_cons]
      cases e.appliedIndex <;> rfl
    cases hstep : registry_event kv e with
    | done kv2 =>
      dsimp only
      refine ih (fun j => P j ∨ e.appliedIndex = some j) kv2
        (registry_event_keeps_empty P kv kv2 e hinv hstep) ?_ ?_
      · intro i hi hPi
        rcases hPi with h | h
        · refine hfresh i ?_ h
          rw [hsplit]
          cases e.appliedIndex with
          | none => exact hi
          | some j => exact List.mem_cons_of_mem _ hi
        · rw [hsplit, h] at hstream
          exact (List.nodup_cons.mp hstream).1 hi
      · rw [hsplit] at hstream
        cases hidx : e.appliedIndex with
        | none => rw [hidx] at hstream; exact hstream
        | some j => rw [hidx] at hstream; exact (List.nodup_cons.mp hstream).2
    | panicked => simp
    | blocked s q =>
      exfalso
      cases e with
      | register j => simp [registry_event] at hstep
      | delete j => simp [registry_event] at hstep
      | receive j =>
        simp only [registry_event] at hstep
        split at hstep <;> cases hstep
      | apply msg =>
        simp only [registry_event] at hstep
        refine applier_step_not_blocked kv msg ?_ s q hstep
        intro hvalid
        refine hinv _ (hfresh _ ?_)
        rw [hsplit]
        simp [RegistryEvent.appliedIndex, hvalid]

/-- The slots written during a run are among the applied indices, in the same
order. -/
theorem registry_writes_sublist (events : List RegistryEvent) (kv : ShardKV) :
    (registry_writes kv events).Sublist (appliedIndices events) := by
  induction events generalizing kv with
  | nil => exact List.Sublist.refl _
  | cons e rest ih =>
    simp only [registry_writes]
    cases hstep : registry_event kv e with
    | blocked s r => exact List.nil_sublist _
    | panicked => exact List.nil_sublist _
    | done kv1 =>
      dsimp only
      have hrest := ih kv1
      cases e with
      | register j => simpa [registry_written, appliedIndices] using hrest
      | delete j => simpa [registry_written, appliedIndices] using hrest
      | receive j => simpa [registry_written, appliedIndices] using hrest
      | apply msg =>
        by_cases hvalid : msg.CommandValid = true
        · have happ : appliedIndices (RegistryEvent.apply msg :: rest) =
              msg.CommandIndex :: appliedIndices rest := by
            simp [appliedIndices, RegistryEvent.appliedIndex, hvalid]
          rw [happ]
          simp only [registry_written, hvalid, if_true]
          split
          · exact List.Sublist.cons₂ _ hrest
          · exact List.Sublist.cons _ hrest
        · have happ : appliedIndices (RegistryEvent.apply msg :: rest) =
              appliedIndices rest := by
            simp [appliedIndices, RegistryEvent.appliedIndex, hvalid]
          rw [happ]
          simpa [registry_written, hvalid] using hrest

end shardkv

namespace shardkv

/-- C16. Non-blocking delivery: in every state reached from `StartServer` by
handler registrations, handler deletions, handler receives and apply steps
over a commit stream that delivers each log index at most once, an apply step
that finds a slot under its entry's index finds it empty, so its send does not
block; no run ever blocks, and no slot index is written twice. -/
theorem delivery_never_blocks (events : List RegistryEvent)
    (hstream : (appliedIndices events).Nodup) :
    (∀ pre msg post kv, events = pre ++ RegistryEvent.apply msg :: post →
      msg.CommandValid = true → registry_run StartServer pre = StepResult.done kv →
      (kv.resultCh msg.CommandIndex = none ∨ kv.resultCh msg.CommandIndex = some []) ∧
      ∀ kvb r, applier_step kv msg ≠ StepResult.blocked kvb r) ∧
    (∀ kvb r, registry_run StartServer events ≠ StepResult.blocked kvb r) ∧
    (registry_writes StartServer events).Nodup := by
  have hstart : ∀ i : Int, ¬ False →
      StartServer.resultCh i = none ∨ StartServer.resultCh i = some [] :=
    fun _ _ => Or.inl rfl
  refine ⟨?_, ?_, ?_⟩
  · intro pre msg post kv hev hvalid hrun
    have hidx : msg.CommandIndex ∉ appliedIndices pre := by
      rw [hev] at hstream
      simp only [appliedIndices, List.filterMap_append, List.filterMap_cons,
        RegistryEvent.appliedIndex, hvalid, if_true] at hstream
      intro hmem
      have hdis := (List.nodup_append.mp hstream).2.2
      exact hdis hmem (List.mem_cons_self _ _)
    have hempty := registry_run_keeps_empty pre (fun _ => False) StartServer kv hstart hrun
      msg.CommandIndex (by simpa using hidx)
    exact ⟨hempty, fun kvb r => applier_step_not_blocked kv msg (fun _ => hempty) kvb r⟩
  · intro kvb r
    exact registry_run_not_blocked events (fun _ => False) StartServer hstart
      (fun _ _ h => h) hstream kvb r
  · exact (registry_writes_sublist events StartServer).nodup hstream

/-- Witness of C16: a handler registers index 5, the entry at 5 is applied and
received, the handler deletes its entry; another handler registers 5 again and
6, and the entry at index 6 is applied. -/
theorem delivery_never_blocks_witness :
    (appliedIndices [RegistryEvent.register 5,
      RegistryEvent.apply ⟨true, Command.op ⟨"Put", "x", "1", 1, 1⟩, 5⟩,
      RegistryEvent.receive 5, RegistryEvent.delete 5, RegistryEvent.register 5,
      RegistryEvent.register 6,
      RegistryEvent.apply ⟨true, Command.op ⟨"Get", "x", "", 2, 1⟩, 6⟩]).Nodup ∧
    (registry_writes StartServer [RegistryEvent.register 5,
      RegistryEvent.apply ⟨true, Command.op ⟨"Put", "x", "1", 1, 1⟩, 5⟩,
      RegistryEvent.receive 5, RegistryEvent.delete 5, RegistryEvent.register 5,
      RegistryEvent.register 6,
      RegistryEvent.apply ⟨true, Command.op ⟨"Get", "x", "", 2, 1⟩, 6⟩]).Nodup ∧
    registry_writes StartServer [RegistryEvent.register 5,
      RegistryEvent.apply ⟨true, Command.op ⟨"Put", "x", "1", 1, 1⟩, 5⟩,
      RegistryEvent.receive 5, RegistryEvent.delete 5, RegistryEvent.register 5,
      RegistryEvent.register 6,
      RegistryEvent.apply ⟨true, Command.op ⟨"Get", "x", "", 2, 1⟩, 6⟩] = [5, 6] :=
  ⟨by decide,
    (delivery_never_blocks [RegistryEvent.register 5,
      RegistryEvent.apply ⟨true, Command.op ⟨"Put", "x", "1", 1, 1⟩, 5⟩,
      RegistryEvent.receive 5, RegistryEvent.delete 5, RegistryEvent.register 5,
      RegistryEvent.register 6,
      RegistryEvent.apply ⟨true, Command.op ⟨"Get", "x", "", 2, 1⟩, 6⟩] (by decide)).2.2,
    by decide⟩

end shardkv

/-! ## shardkv: interleavings of a handler with the apply loop -/

namespace shardkv

theorem step_lockInvariant (s s1 : System) (a : Action) (hinv : s.lockInvariant)
    (hstep : s.step a = some s1) : s1.lockInvariant := by
  obtain ⟨kv, mu, isGet, hpc, reply, apc⟩ := s
  obtain ⟨hh, ha⟩ := hinv
  simp only at hh ha
  cases a with
  | handlerStart r =>
    cases hpc <;> simp only [System.step] at hstep <;> (try split at hstep) <;>
      (try cases hstep) <;>
      simp_all [System.lockInvariant, HandlerPC.holdsLock]
  | handlerStep =>
    cases hpc <;> simp only [System.step] at hstep <;> (try split at hstep) <;>
      (try cases hstep) <;>
      simp_all [System.lockInvariant, HandlerPC.holdsLock]
  | handlerSelect timerFirst =>
    cases hpc <;> simp only [System.step] at hstep <;> (try split at hstep) <;>
      (try split at hstep) <;> (try cases hstep) <;>
      simp_all [System.lockInvariant, HandlerPC.holdsLock]
  | applierReceive msg =>
    cases apc <;> simp only [System.step] at hstep <;> (try split at hstep) <;>
      (try cases hstep) <;>
      simp_all [System.lockInvariant, ApplierPC.holdsLock]
  | applierStep =>
    cases apc <;> simp only [System.step] at hstep <;> (try split at hstep) <;>
      (try cases hstep) <;>
      simp_all [System.lockInvariant, ApplierPC.holdsLock]

theorem run_lockInvariant (acts : List Action) (s s1 : System) (hinv : s.lockInvariant)
    (hrun : s.run acts = some s1) : s1.lockInvariant := by
  induction acts generalizing s with
  | nil =>
    simp only [System.run, Option.some.injEq] at hrun
    rw [← hrun]; exact hinv
  | cons a rest ih =>
    simp only [System.run] at hrun
    cases hstep : s.step a with
    | none => rw [hstep] at hrun; cases hrun
    | some s2 =>
      rw [hstep] at hrun
      exact ih s2 (step_lockInvariant s s2 a hinv hstep) hrun

/-- Counterexample to C18: the handler proposes and obtains index 5; before it
takes `kv.mu` the entry at index 5 is delivered and the apply loop, finding the
lock free, runs its apply step for index 5 (no slot yet, nothing delivered);
the handler then registers an empty slot under 5, finds nothing to receive and
returns `ErrWrongLeader` when its timer fires, although its Put was applied. -/
theorem apply_between_proposal_and_registration :
    ((System.init false).run
        [Action.handlerStart ⟨5, 1, true⟩,
          Action.applierReceive ⟨true, Command.op ⟨"Put", "x", "1", 1, 1⟩, 5⟩,
          Action.applierStep]).map
        (fun s => (s.handler.proposedNotRegistered 5, s.applier.applying 5, s.kv.resultCh 5)) =
      some (true, true, none) ∧
    ((System.init false).run
        [Action.handlerStart ⟨5, 1, true⟩,
          Action.applierReceive ⟨true, Command.op ⟨"Put", "x", "1", 1, 1⟩, 5⟩,
          Action.applierStep, Action.applierStep]).map
        (fun s => (s.handler, s.applier, s.kv.data "x", s.kv.resultCh 5)) =
      some (HandlerPC.lockRegister 5, ApplierPC.unlock, some "1", none) ∧
    ((System.init false).run
        [Action.handlerStart ⟨5, 1, true⟩,
          Action.applierReceive ⟨true, Command.op ⟨"Put", "x", "1", 1, 1⟩, 5⟩,
          Action.applierStep, Action.applierStep, Action.applierStep,
          Action.handlerStep, Action.handlerStep, Action.handlerStep]).map
        (fun s => (s.handler, s.kv.resultCh 5)) =
      some (HandlerPC.select 5, some []) ∧
    ((System.init false).run
        [Action.handlerStart ⟨5, 1, true⟩,
          Action.applierReceive ⟨true, Command.op ⟨"Put", "x", "1", 1, 1⟩, 5⟩,
          Action.applierStep, Action.applierStep, Action.applierStep,
          Action.handlerStep, Action.handlerStep, Action.handlerStep,
          Action.handlerSelect false]).isNone = true ∧
    ((System.init false).run
        [Action.handlerStart ⟨5, 1, true⟩,
          Action.applierReceive ⟨true, Command.op ⟨"Put", "x", "1", 1, 1⟩, 5⟩,
          Action.applierStep, Action.applierStep, Action.applierStep,
          Action.handlerStep, Action.handlerStep, Action.handlerStep,
          Action.handlerSelect true, Action.handlerStep, Action.handlerStep,
          Action.handlerStep]).map
        (fun s => (s.handler, s.reply.Err, s.kv.data "x")) =
      some (HandlerPC.returned, "ErrWrongLeader", some "1") :=
  ⟨by decide, by decide, by decide, by decide, by decide⟩

/-- C18 (amended). Registration of the slot is atomic with respect to the
apply loop, the proposal is not: in every interleaving of the statements of a
handler with those of the apply loop, the two never hold `kv.mu` together, so
the apply step never runs while the handler is at `getResultChan` or at the
unlock that follows it; the lock is free between `Start` and `kv.mu.Lock()`. -/
theorem registration_excludes_apply (handlerIsGet : Bool) (acts : List Action) (s : System)
    (hrun : (System.init handlerIsGet).run acts = some s) :
    ¬ (s.handler.holdsLock = true ∧ s.applier.holdsLock = true) ∧
    (∀ i msg, (s.handler = HandlerPC.register i ∨ s.handler = HandlerPC.unlockRegister i) →
      s.applier ≠ ApplierPC.body msg) ∧
    (∀ i, s.handler = HandlerPC.lockRegister i → s.mu ≠ some Thread.handler) := by
  have hinit : (System.init handlerIsGet).lockInvariant := by
    simp [System.lockInvariant, System.init, HandlerPC.holdsLock, ApplierPC.holdsLock]
  have hinv := run_lockInvariant acts _ s hinit hrun
  have hexcl : ¬ (s.handler.holdsLock = true ∧ s.applier.holdsLock = true) := by
    rintro ⟨h1, h2⟩
    have m1 := hinv.1.mp h1
    have m2 := hinv.2.mp h2
    rw [m1] at m2; cases m2
  refine ⟨hexcl, ?_, ?_⟩
  · intro i msg hpc happ
    apply hexcl
    constructor
    · rcases hpc with h | h <;> rw [h] <;> rfl
    · rw [happ]; rfl
  · intro i hpc hmu
    have h := hinv.1.mpr hmu
    rw [hpc] at h
    cases h

/-- Witness of C18 (amended): the handler has taken `kv.mu` to register index
5 while the entry at index 5 waits in the apply loop, which cannot proceed. -/
theorem registration_excludes_apply_witness :
    ((System.init true).run
        [Action.handlerStart ⟨5, 1, true⟩,
          Action.applierReceive ⟨true, Command.op ⟨"Put", "x", "1", 1, 1⟩, 5⟩,
          Action.handlerStep]).map (fun s => (s.handler, s.applier, s.mu)) =
      some (HandlerPC.register 5,
        ApplierPC.lock ⟨true, Command.op ⟨"Put", "x", "1", 1, 1⟩, 5⟩, some Thread.handler) ∧
    ((System.init true).run
        [Action.handlerStart ⟨5, 1, true⟩,
          Action.applierReceive ⟨true, Command.op ⟨"Put", "x", "1", 1, 1⟩, 5⟩,
          Action.handlerStep, Action.applierStep]).isNone = true ∧
    ¬ ((((System.init true).run
        [Action.handlerStart ⟨5, 1, true⟩,
          Action.applierReceive ⟨true, Command.op ⟨"Put", "x", "1", 1, 1⟩, 5⟩,
          Action.handlerStep]).getD (System.init true)).handler.holdsLock = true ∧
      (((System.init true).run
        [Action.handlerStart ⟨5, 1, true⟩,
          Action.applierReceive ⟨true, Command.op ⟨"Put", "x", "1", 1, 1⟩, 5⟩,
          Action.handlerStep]).getD (System.init true)).applier.holdsLock = true) :=
  ⟨by decide, by decide,
    (registration_excludes_apply true
      [Action.handlerStart ⟨5, 1, true⟩,
        Action.applierReceive ⟨true, Command.op ⟨"Put", "x", "1", 1, 1⟩, 5⟩,
        Action.handlerStep]
      (((System.init true).run
        [Action.handlerStart ⟨5, 1, true⟩,
          Action.applierReceive ⟨true, Command.op ⟨"Put", "x", "1", 1, 1⟩, 5⟩,
          Action.handlerStep]).getD (System.init true)) (by rfl)).1⟩

end shardkv

/-! ## shardkv: what a fulfilled slot hands to the handler -/

namespace shardkv

/-- Values found in a slot after an iteration of `applier` were there before
or are the result of the entry just applied, in the slot under its index. -/
theorem applier_step_slot_values (kv kv1 : ShardKV) (msg : ApplyMsg)
    (hstep : applier_step kv msg = StepResult.done kv1) (j : Int) (buf : List OpResult)
    (r : OpResult) (hbuf : kv1.resultCh j = some buf) (hr : r ∈ buf) :
    (∃ buf0, kv.resultCh j = some buf0 ∧ r ∈ buf0) ∨
    (msg.CommandValid = true ∧ j = msg.CommandIndex ∧
      ∃ op, msg.Command = Command.op op ∧ r = (applier_apply kv op).2) := by
  obtain ⟨valid, cmd, i⟩ := msg
  cases valid with
  | false =>
    simp only [applier_step, Bool.false_eq_true, if_false, StepResult.done.injEq] at hstep
    subst hstep
    exact Or.inl ⟨buf, hbuf, hr⟩
  | true =>
    cases cmd with
    | other => simp [applier_step] at hstep
    | op o =>
      rw [applier_step_op] at hstep
      cases hreg : kv.resultCh i with
      | none =>
        simp only [hreg, StepResult.done.injEq] at hstep
        subst hstep
        rw [applier_apply_resultCh] at hbuf
        exact Or.inl ⟨buf, hbuf, hr⟩
      | some ch =>
        cases hsend : chanSend ch (applier_apply kv o).2 with
        | none => simp only [hreg, hsend] at hstep; cases hstep
        | some ch1 =>
          simp only [hreg, hsend, StepResult.done.injEq] at hstep
          subst hstep
          simp only [GoMap.set, applier_apply_resultCh] at hbuf
          by_cases hj : j = i
          · rw [if_pos hj, Option.some.injEq] at hbuf
            subst hbuf
            unfold chanSend at hsend
            split at hsend
            · simp only [Option.some.injEq] at hsend
              subst hsend
              rcases List.mem_append.mp hr with h | h
              · exact Or.inl ⟨ch, by rw [hj, hreg], h⟩
              · exact Or.inr ⟨rfl, hj, o, rfl, List.mem_singleton.mp h⟩
            · cases hsend
          · rw [if_neg hj] at hbuf
            exact Or.inl ⟨buf, hbuf, hr⟩

/-- Growing the log keeps `slotsFromLog`, and so does passing to a registry
whose slots hold only values that were held before. -/
theorem slotsFromLog_mono (kv kv1 : ShardKV) (log more : List AppliedEntry)
    (hinv : slotsFromLog kv log)
    (hsub : ∀ j buf r, kv1.resultCh j = some buf → r ∈ buf →
      ∃ buf0, kv.resultCh j = some buf0 ∧ r ∈ buf0) :
    slotsFromLog kv1 (log ++ more) := by
  intro j buf r hbuf hr
  obtain ⟨buf0, h0, hr0⟩ := hsub j buf r hbuf hr
  obtain ⟨e, he, hidx, hres⟩ := hinv j buf0 r h0 hr0
  exact ⟨e, List.mem_append_left more he, hidx, hres⟩

/-- Registering a slot adds no value to the registry. -/
theorem getResultChan_slot_values (kv : ShardKV) (i j : Int) (buf : List OpResult)
    (r : OpResult) (hbuf : (kv.getResultChan i).resultCh j = some buf) (hr : r ∈ buf) :
    ∃ buf0, kv.resultCh j = some buf0 ∧ r ∈ buf0 := by
  unfold ShardKV.getResultChan at hbuf
  cases hreg : kv.resultCh i with
  | some b =>
    simp only [hreg] at hbuf
    exact ⟨buf, hbuf, hr⟩
  | none =>
    simp only [hreg, GoMap.set] at hbuf
    by_cases hj : j = i
    · rw [if_pos hj, Option.some.injEq] at hbuf
      subst hbuf
      cases hr
    · rw [if_neg hj] at hbuf
      exact ⟨buf, hbuf, hr⟩

/-- Removing an entry adds no value to the registry. -/
theorem deleteResultChan_slot_values (kv : ShardKV) (i j : Int) (buf : List OpResult)
    (r : OpResult) (hbuf : (kv.deleteResultChan i).resultCh j = some buf) (hr : r ∈ buf) :
    ∃ buf0, kv.resultCh j = some buf0 ∧ r ∈ buf0 := by
  simp only [ShardKV.deleteResultChan, GoMap.delete] at hbuf
  by_cases hj : j = i
  · rw [if_pos hj] at hbuf; cases hbuf
  · rw [if_neg hj] at hbuf
    exact ⟨buf, hbuf, hr⟩

/-- One statement keeps `slotsFromLog`, the log growing by the entry that the
statement applies. -/
theorem step_slotsFromLog (s s1 : System) (a : Action) (log : List AppliedEntry)
    (hinv : slotsFromLog s.kv log) (hstep : s.step a = some s1) :
    slotsFromLog s1.kv (log ++ s.appliedBy a) := by
  obtain ⟨kv, mu, isGet, hpc, reply, apc⟩ := s
  simp only at hinv
  cases a with
  | handlerStart r =>
    apply slotsFromLog_mono kv _ log _ hinv
    cases hpc <;> simp only [System.step] at hstep <;> (try split at hstep) <;>
      (try cases hstep) <;> exact fun j buf r hbuf hr => ⟨buf, hbuf, hr⟩
  | handlerStep =>
    apply slotsFromLog_mono kv _ log _ hinv
    cases hpc <;> simp only [System.step] at hstep <;> (try split at hstep) <;>
      (try cases hstep) <;>
      first
        | exact fun j buf r hbuf hr => ⟨buf, hbuf, hr⟩
        | exact fun j buf r hbuf hr => getResultChan_slot_values kv _ j buf r hbuf hr
        | exact fun j buf r hbuf hr => deleteResultChan_slot_values kv _ j buf r hbuf hr
  | handlerSelect timerFirst =>
    apply slotsFromLog_mono kv _ log _ hinv
    cases hpc <;> simp only [System.step] at hstep <;> (try cases hstep)
    rename_i i
    split at hstep
    · cases hstep
      exact fun j buf r hbuf hr => ⟨buf, hbuf, hr⟩
    · split at hstep
      · rename_i result rest hslot
        cases hstep
        intro j buf r hbuf hr
        simp only [GoMap.set] at hbuf
        by_cases hj : j = i
        · rw [if_pos hj, Option.some.injEq] at hbuf
          subst hbuf
          exact ⟨result :: rest, by rw [hj]; exact hslot, List.mem_cons_of_mem result hr⟩
        · rw [if_neg hj] at hbuf
          exact ⟨buf, hbuf, hr⟩
      · cases hstep
  | applierReceive msg =>
    apply slotsFromLog_mono kv _ log _ hinv
    cases apc <;> simp only [System.step] at hstep <;> (try split at hstep) <;>
      (try cases hstep) <;> exact fun j buf r hbuf hr => ⟨buf, hbuf, hr⟩
  | applierStep =>
    cases apc with
    | receive => simp only [System.step] at hstep; cases hstep
    | panicked => simp only [System.step] at hstep; cases hstep
    | lock msg =>
      simp only [System.step] at hstep
      split at hstep
      · cases hstep
        exact slotsFromLog_mono kv _ log _ hinv (fun j buf r hbuf hr => ⟨buf, hbuf, hr⟩)
      · cases hstep
    | unlock =>
      simp only [System.step] at hstep
      cases hstep
      exact slotsFromLog_mono kv _ log _ hinv (fun j buf r hbuf hr => ⟨buf, hbuf, hr⟩)
    | body msg =>
      simp only [System.step] at hstep
      cases hres : applier_step kv msg with
      | blocked kv1 r => rw [hres] at hstep; cases hstep
      | panicked =>
        rw [hres] at hstep
        cases hstep
        exact slotsFromLog_mono kv _ log _ hinv (fun j buf r hbuf hr => ⟨buf, hbuf, hr⟩)
      | done kv1 =>
        rw [hres] at hstep
        cases hstep
        intro j buf r hbuf hr
        simp only at hbuf
        rcases applier_step_slot_values kv kv1 msg hres j buf r hbuf hr with h | h
        · obtain ⟨buf0, h0, hr0⟩ := h
          obtain ⟨e, he, hidx, hval⟩ := hinv j buf0 r h0 hr0
          exact ⟨e, List.mem_append_left _ he, hidx, hval⟩
        · obtain ⟨hvalid, hj, op, hcmd, hval⟩ := h
          refine ⟨⟨msg.CommandIndex, op, kv⟩, List.mem_append_right _ ?_, hj.symm, hval⟩
          simp [System.appliedBy, hvalid, hcmd, hres]

/-- A schedule keeps `slotsFromLog`, the log growing by the entries applied
along it. -/
theorem run_slotsFromLog (acts : List Action) (s s1 : System) (log : List AppliedEntry)
    (hinv : slotsFromLog s.kv log) (hrun : s.run acts = some s1) :
    slotsFromLog s1.kv (log ++ s.applied acts) := by
  induction acts generalizing s log with
  | nil =>
    simp only [System.run, Option.some.injEq] at hrun
    subst hrun
    simpa [System.applied] using hinv
  | cons a rest ih =>
    simp only [System.run] at hrun
    cases hstep : s.step a with
    | none => rw [hstep] at hrun; cases hrun
    | some s2 =>
      rw [hstep] at hrun
      have h := ih s2 (log ++ s.appliedBy a) (step_slotsFromLog s s2 a log hinv hstep) hrun
      simpa [System.applied, hstep, List.append_assoc] using h

/-- The index a handler works under is the one a leader's `Start` returned. -/
theorem step_handler_index (s s1 : System) (a : Action) (i : Int)
    (hstep : s.step a = some s1) (hidx : s1.handler.index = some i) :
    s.handler.index = some i ∨ ∃ term, a = Action.handlerStart ⟨i, term, true⟩ := by
  obtain ⟨kv, mu, isGet, hpc, reply, apc⟩ := s
  cases a with
  | handlerStart r =>
    obtain ⟨ri, rterm, rleader⟩ := r
    cases hpc <;> simp only [System.step] at hstep <;> (try cases hstep)
    cases rleader with
    | false =>
      simp only [Bool.not_false, if_true, Option.some.injEq] at hstep
      subst hstep
      simp [HandlerPC.index] at hidx
    | true =>
      simp only [Bool.not_true, Bool.false_eq_true, if_false, Option.some.injEq] at hstep
      subst hstep
      simp only [HandlerPC.index, Option.some.injEq] at hidx
      subst hidx
      exact Or.inr ⟨rterm, rfl⟩
  | handlerStep =>
    left
    cases hpc <;> simp only [System.step] at hstep <;> (try split at hstep) <;>
      (try cases hstep) <;> simp_all [HandlerPC.index]
  | handlerSelect timerFirst =>
    left
    cases hpc <;> simp only [System.step] at hstep <;> (try split at hstep) <;>
      (try split at hstep) <;> (try cases hstep) <;> simp_all [HandlerPC.index]
  | applierReceive msg =>
    left
    cases apc <;> simp only [System.step] at hstep <;> (try split at hstep) <;>
      (try cases hstep) <;> simp_all
  | applierStep =>
    left
    cases apc <;> simp only [System.step] at hstep <;> (try split at hstep) <;>
      (try cases hstep) <;> simp_all

/-- Along a schedule, the index a handler works under is the one that a
`Start` of the schedule, or of what came before, returned to a leader. -/
theorem run_handler_index (acts : List Action) (s s1 : System) (before : List Action)
    (hinv : ∀ i, s.handler.index = some i →
      ∃ term, Action.handlerStart ⟨i, term, true⟩ ∈ before)
    (hrun : s.run acts = some s1) (i : Int) (hidx : s1.handler.index = some i) :
    ∃ term, Action.handlerStart ⟨i, term, true⟩ ∈ before ++ acts := by
  induction acts generalizing s before with
  | nil =>
    simp only [System.run, Option.some.injEq] at hrun
    subst hrun
    simpa using hinv i hidx
  | cons a rest ih =>
    simp only [System.run] at hrun
    cases hstep : s.step a with
    | none => rw [hstep] at hrun; cases hrun
    | some s2 =>
      rw [hstep] at hrun
      have h := ih s2 (before ++ [a]) (fun j hj => by
        rcases step_handler_index s s2 a j hstep hj with h | ⟨term, h⟩
        · obtain ⟨term, hmem⟩ := hinv j h
          exact ⟨term, List.mem_append_left _ hmem⟩
        · exact ⟨term, by rw [h]; simp⟩) hrun
      simpa [List.append_assoc] using h

/-- Past the `select` no statement writes the reply. -/
theorem step_pastSelect (s s1 : System) (a : Action) (hpast : s.handler.pastSelect = true)
    (hstep : s.step a = some s1) : s1.handler.pastSelect = true ∧ s1.reply = s.reply := by
  obtain ⟨kv, mu, isGet, hpc, reply, apc⟩ := s
  cases a with
  | handlerStart r =>
    cases hpc <;> simp_all [HandlerPC.pastSelect, System.step]
  | handlerStep =>
    cases hpc <;> simp only [System.step] at hstep <;> (try split at hstep) <;>
      (try cases hstep) <;> simp_all [HandlerPC.pastSelect]
  | handlerSelect timerFirst =>
    cases hpc <;> simp_all [HandlerPC.pastSelect, System.step]
  | applierReceive msg =>
    cases apc <;> simp only [System.step] at hstep <;> (try split at hstep) <;>
      (try cases hstep) <;> simp_all
  | applierStep =>
    cases apc <;> simp only [System.step] at hstep <;> (try split at hstep) <;>
      (try cases hstep) <;> simp_all

/-- Past the `select` the reply stays what it is, whatever is scheduled. -/
theorem run_pastSelect (acts : List Action) (s s1 : System)
    (hpast : s.handler.pastSelect = true) (hrun : s.run acts = some s1) :
    s1.reply = s.reply := by
  induction acts generalizing s with
  | nil =>
    simp only [System.run, Option.some.injEq] at hrun
    rw [hrun]
  | cons a rest ih =>
    simp only [System.run] at hrun
    cases hstep : s.step a with
    | none => rw [hstep] at hrun; cases hrun
    | some s2 =>
      rw [hstep] at hrun
      obtain ⟨h1, h2⟩ := step_pastSelect s s2 a hpast hstep
      rw [ih s2 h1 hrun, h2]

/-- No statement changes which handler is running. -/
theorem step_handlerIsGet (s s1 : System) (a : Action) (hstep : s.step a = some s1) :
    s1.handlerIsGet = s.handlerIsGet := by
  obtain ⟨kv, mu, isGet, hpc, reply, apc⟩ := s
  cases a with
  | handlerStart r =>
    cases hpc <;> simp only [System.step] at hstep <;> (try split at hstep) <;>
      (try cases hstep) <;> rfl
  | handlerStep =>
    cases hpc <;> simp only [System.step] at hstep <;> (try split at hstep) <;>
      (try cases hstep) <;> rfl
  | handlerSelect timerFirst =>
    cases hpc <;> simp only [System.step] at hstep <;> (try split at hstep) <;>
      (try split at hstep) <;> (try cases hstep) <;> rfl
  | applierReceive msg =>
    cases apc <;> simp only [System.step] at hstep <;> (try split at hstep) <;>
      (try cases hstep) <;> rfl
  | applierStep =>
    cases apc <;> simp only [System.step] at hstep <;> (try split at hstep) <;>
      (try cases hstep) <;> rfl

theorem run_handlerIsGet (acts : List Action) (s s1 : System) (hrun : s.run acts = some s1) :
    s1.handlerIsGet = s.handlerIsGet := by
  induction acts generalizing s with
  | nil =>
    simp only [System.run, Option.some.injEq] at hrun
    rw [hrun]
  | cons a rest ih =>
    simp only [System.run] at hrun
    cases hstep : s.step a with
    | none => rw [hstep] at hrun; cases hrun
    | some s2 =>
      rw [hstep] at hrun
      rw [ih s2 hrun, step_handlerIsGet s s2 a hstep]

/-- Counterexample to C15: a PutAppend handler proposes Put("x", "1") and
`Start` returns index 5; it registers its slot; the entry committed at index 5
is a Get of another client on a missing key, and the apply loop applies it and
fulfils the slot; the `select` receives (the timer has not fired) and the
handler returns `ErrNoKey`, while applying the proposed command gives `OK`,
on the store of that moment as on any other; the Put was never applied. -/
theorem reply_of_other_command :
    ((System.init false).run
        [Action.handlerStart ⟨5, 1, true⟩, Action.handlerStep, Action.handlerStep,
          Action.handlerStep,
          Action.applierReceive ⟨true, Command.op ⟨"Get", "missing", "", 2, 1⟩, 5⟩,
          Action.applierStep, Action.applierStep, Action.applierStep]).map
        (fun s => (s.handler, s.kv.resultCh 5)) =
      some (HandlerPC.select 5, some [⟨"ErrNoKey", ""⟩]) ∧
    ((System.init false).run
        [Action.handlerStart ⟨5, 1, true⟩, Action.handlerStep, Action.handlerStep,
          Action.handlerStep,
          Action.applierReceive ⟨true, Command.op ⟨"Get", "missing", "", 2, 1⟩, 5⟩,
          Action.applierStep, Action.applierStep, Action.applierStep,
          Action.handlerSelect false,
          Action.handlerStep, Action.handlerStep, Action.handlerStep]).map
        (fun s => (s.handler, s.reply.Err, s.kv.data "x")) =
      some (HandlerPC.returned, "ErrNoKey", none) ∧
    (applier_apply StartServer (PutAppend_op ⟨"x", "1", "Put", 1, 1⟩)).2 = ⟨"OK", ""⟩ ∧
    (∀ kv : ShardKV, (applier_apply kv (PutAppend_op ⟨"x", "1", "Put", 1, 1⟩)).2.Err = "OK") :=
  ⟨by decide, by decide, by decide, fun kv => by
    unfold applier_apply
    cases isNew kv (PutAppend_op ⟨"x", "1", "Put", 1, 1⟩) <;> simp [PutAppend_op, OK]⟩

/-- C15 (amended). Result reaches the caller by index: for every handler
invocation that proposed a command, obtained log index `i` and had its slot
fulfilled (its `select` received from the slot before the timer fired), in
every interleaving of its statements with those of the apply loop and for
every committed-entry stream, the reply it returns is the result of applying
the command of an entry that the apply loop applied with `CommandIndex = i`
(`Err` for PutAppend, `Err` and `Value` for Get), computed on the store that
entry was applied to; it is the result of applying the proposed command when
that entry carries the proposed command. -/
theorem fulfilled_reply_is_result_at_index (handlerIsGet : Bool) (acts : List Action)
    (s s1 : System) (i : Int)
    (hrun : (System.init handlerIsGet).run acts = some s)
    (hpc : s.handler = HandlerPC.select i)
    (hfulfilled : s.step (Action.handlerSelect false) = some s1) :
    (∃ term, Action.handlerStart ⟨i, term, true⟩ ∈ acts) ∧
    (∃ e ∈ (System.init handlerIsGet).applied acts,
      e.index = i ∧
      s1.reply.Err = e.result.Err ∧
      (handlerIsGet = true → s1.reply.Value = e.result.Value) ∧
      ∀ c, e.op = c → s1.reply.Err = (applier_apply e.store c).2.Err) ∧
    ∀ rest s2, s1.run rest = some s2 → s2.reply = s1.reply := by
  have hinit : slotsFromLog (System.init handlerIsGet).kv [] := by
    intro j buf r hbuf
    simp [System.init, StartServer, GoMap.empty] at hbuf
  have hslots := run_slotsFromLog acts _ s [] hinit hrun
  have hstart := run_handler_index acts _ s []
    (fun j hj => by simp [System.init, HandlerPC.index] at hj) hrun i (by rw [hpc]; rfl)
  have hget : s.handlerIsGet = handlerIsGet := run_handlerIsGet acts _ s hrun
  obtain ⟨kv, mu, isGet, hp, reply, apc⟩ := s
  simp only at hpc hget hslots
  subst hpc hget
  simp only [System.step, Bool.false_eq_true, if_false] at hfulfilled
  split at hfulfilled
  · rename_i result rest hslot
    cases hfulfilled
    obtain ⟨e, he, hidx, hval⟩ := hslots i (result :: rest) result hslot
      (List.mem_cons_self result rest)
    refine ⟨by simpa using hstart, ⟨e, by simpa using he, hidx, ?_, ?_, ?_⟩, ?_⟩
    · cases isGet <;> simp [hval]
    · intro h; simp [h, hval]
    · intro c hc
      subst hc
      cases isGet <;> simp [hval, AppliedEntry.result]
    · intro rest2 s2 hrun2
      exact run_pastSelect rest2 _ s2 rfl hrun2
  · cases hfulfilled

/-- Witness of C15 (amended): the apply loop applies a Put of "x" at index 4;
a Get handler proposes Get("x"), `Start` returns index 5, and it registers its
slot; the entry at index 5, which carries the proposed Get, is applied and
fulfils the slot; the `select` receives and the reply is `OK` with "7". -/
theorem fulfilled_reply_is_result_at_index_witness :
    ((System.init true).run
        [Action.applierReceive ⟨true, Command.op ⟨"Put", "x", "7", 2, 1⟩, 4⟩,
          Action.applierStep, Action.applierStep, Action.applierStep,
          Action.handlerStart ⟨5, 1, true⟩, Action.handlerStep, Action.handlerStep,
          Action.handlerStep,
          Action.applierReceive ⟨true, Command.op (Get_op ⟨"x", 1, 1⟩), 5⟩,
          Action.applierStep, Action.applierStep, Action.applierStep,
          Action.handlerSelect false]).map (fun s => (s.handler, s.reply)) =
      some (HandlerPC.lockDelete 5, ⟨"OK", "7"⟩) ∧
    ∃ e ∈ (System.init true).applied
        [Action.applierReceive ⟨true, Command.op ⟨"Put", "x", "7", 2, 1⟩, 4⟩,
          Action.applierStep, Action.applierStep, Action.applierStep,
          Action.handlerStart ⟨5, 1, true⟩, Action.handlerStep, Action.handlerStep,
          Action.handlerStep,
          Action.applierReceive ⟨true, Command.op (Get_op ⟨"x", 1, 1⟩), 5⟩,
          Action.applierStep, Action.applierStep, Action.applierStep],
      e.index = 5 ∧ e.result.Err = "OK" ∧ e.result.Value = "7" :=
  ⟨by decide,
    match (fulfilled_reply_is_result_at_index true
      [Action.applierReceive ⟨true, Command.op ⟨"Put", "x", "7", 2, 1⟩, 4⟩,
        Action.applierStep, Action.applierStep, Action.applierStep,
        Action.handlerStart ⟨5, 1, true⟩, Action.handlerStep, Action.handlerStep,
        Action.handlerStep,
        Action.applierReceive ⟨true, Command.op (Get_op ⟨"x", 1, 1⟩), 5⟩,
        Action.applierStep, Action.applierStep, Action.applierStep]
      (((System.init true).run
        [Action.applierReceive ⟨true, Command.op ⟨"Put", "x", "7", 2, 1⟩, 4⟩,
          Action.applierStep, Action.applierStep, Action.applierStep,
          Action.handlerStart ⟨5, 1, true⟩, Action.handlerStep, Action.handlerStep,
          Action.handlerStep,
          Action.applierReceive ⟨true, Command.op (Get_op ⟨"x", 1, 1⟩), 5⟩,
          Action.applierStep, Action.applierStep, Action.applierStep]).getD (System.init true))
      (((System.init true).run
        [Action.applierReceive ⟨true, Command.op ⟨"Put", "x", "7", 2, 1⟩, 4⟩,
          Action.applierStep, Action.applierStep, Action.applierStep,
          Action.handlerStart ⟨5, 1, true⟩, Action.handlerStep, Action.handlerStep,
          Action.handlerStep,
          Action.applierReceive ⟨true, Command.op (Get_op ⟨"x", 1, 1⟩), 5⟩,
          Action.applierStep, Action.applierStep, Action.applierStep,
          Action.handlerSelect false]).getD (System.init true))
      5 (by rfl) (by rfl) (by rfl)).2.1 with
    | ⟨e, he, hidx, herr, hval, _⟩ =>
      ⟨e, he, hidx, herr.symm.trans (by rfl), (hval rfl).symm.trans (by rfl)⟩⟩

end shardkv

/-! ## mr: the coordinator -/

namespace mr

theorem allCompleted_iff (l : List TaskStatus) :
    allCompleted l = true ↔ ∀ s ∈ l, s = TaskStatus.Completed := by
  induction l with
  | nil => simp [allCompleted]
  | cons a rest ih =>
    by_cases ha : a = TaskStatus.Completed
    · simp [allCompleted, ha, ih]
    · simp [allCompleted, ha]

theorem sliceGet_mem {α : Type} (l : List α) (i : Int) (a : α) (h : sliceGet l i = some a) :
    a ∈ l := by
  unfold sliceGet at h
  split at h
  · exact List.getElem?_mem h
  · cases h

theorem firstIdle_none (l : List TaskStatus) :
    firstIdle l = none ↔ ∀ s ∈ l, s ≠ TaskStatus.Idle := by
  induction l with
  | nil => simp [firstIdle]
  | cons a rest ih =>
    by_cases ha : a = TaskStatus.Idle
    · simp [firstIdle, ha]
    · cases hr : firstIdle rest with
      | none =>
        simp only [firstIdle, ha, hr, if_false, List.mem_cons, true_iff]
        rintro s (hs | hs)
        · rw [hs]; exact ha
        · exact ih.mp hr s hs
      | some i =>
        have hne : ¬ ∀ s ∈ rest, s ≠ TaskStatus.Idle := fun h => by
          rw [ih.mpr h] at hr; cases hr
        simp only [firstIdle, ha, hr, if_false, List.mem_cons]
        constructor
        · intro h; cases h
        · intro h
          exact absurd (fun s hs => h s (Or.inr hs)) hne

theorem firstIdle_some (l : List TaskStatus) (i : Nat) :
    firstIdle l = some i ↔ lowestIdle l i := by
  induction l generalizing i with
  | nil => simp [firstIdle, lowestIdle]
  | cons a rest ih =>
    by_cases ha : a = TaskStatus.Idle
    · subst ha
      simp only [firstIdle, if_true, Option.some.injEq]
      constructor
      · intro h
        subst h
        exact ⟨by simp, fun j hj => absurd hj (Nat.not_lt_zero j)⟩
      · rintro ⟨_, hlow⟩
        cases i with
        | zero => rfl
        | succ k => exact absurd (by simp) (hlow 0 (Nat.succ_pos k))
    · cases i with
      | zero =>
        constructor
        · intro h
          simp only [firstIdle, ha, if_false] at h
          cases hr : firstIdle rest <;> rw [hr] at h <;> cases h
        · rintro ⟨h0, _⟩
          simp only [List.getElem?_cons_zero, Option.some.injEq] at h0
          exact absurd h0 ha
      | succ k =>
        constructor
        · intro h
          simp only [firstIdle, ha, if_false] at h
          cases hr : firstIdle rest with
          | none => rw [hr] at h; cases h
          | some m =>
            rw [hr] at h
            simp only [Option.some.injEq, Nat.add_right_cancel_iff] at h
            subst h
            obtain ⟨h1, h2⟩ := (ih m).mp hr
            refine ⟨by simpa using h1, fun j hj => ?_⟩
            cases j with
            | zero => simpa using ha
            | succ n => simpa using h2 n (Nat.lt_of_succ_lt_succ hj)
        · rintro ⟨h1, h2⟩
          have hk : lowestIdle rest k :=
            ⟨by simpa using h1, fun j hj => by simpa using h2 (j + 1) (Nat.succ_lt_succ hj)⟩
          simp [firstIdle, ha, (ih k).mpr hk]


theorem firstIdle_lt (l : List TaskStatus) (i : Nat) (h : firstIdle l = some i) :
    i < l.length := by
  have h1 := ((firstIdle_some l i).mp h).1
  by_contra hge
  rw [List.getElem?_eq_none (Nat.le_of_not_lt hge)] at h1
  cases h1

theorem MakeCoordinator_wellFormed (files : List String) (nReduce : Int) (c : Coordinator)
    (h : MakeCoordinator files nReduce = some c) : c.wellFormed := by
  unfold MakeCoordinator at h
  split at h
  · cases h
  · cases h
    exact ⟨fun h => (by cases h), by simp⟩

theorem RequestTask_wellFormed (c c1 : Coordinator) (reply r : RequestTaskReply)
    (hwf : c.wellFormed) (h : c.RequestTask reply = some (c1, r)) : c1.wellFormed := by
  obtain ⟨hdone, hlen⟩ := hwf
  unfold Coordinator.RequestTask at h
  split at h
  · rename_i hcond
    split at h
    · split at h
      · cases h
        refine ⟨fun hd => ?_, by simpa using hlen⟩
        simp only at hd
        rw [hd] at hcond
        cases hcond
      · cases h
    · cases h; exact ⟨hdone, hlen⟩
  · split at h
    · split at h
      · cases h; exact ⟨hdone, hlen⟩
      · cases h; exact ⟨hdone, hlen⟩
    · cases h; exact ⟨hdone, hlen⟩

theorem set_completed_all (l : List TaskStatus) (n : Nat)
    (h : ∀ s ∈ l, s = TaskStatus.Completed) :
    ∀ s ∈ l.set n TaskStatus.Completed, s = TaskStatus.Completed := by
  intro s hs
  rcases List.mem_or_eq_of_mem_set hs with h1 | h1
  · exact h s h1
  · exact h1

theorem checkMapDone_wellFormed (c : Coordinator)
    (hlen : c.mapTasks.length = c.mapTaskStatus.length)
    (hdone : c.mapDone = true → ∀ s ∈ c.mapTaskStatus, s = TaskStatus.Completed) :
    c.checkMapDone.wellFormed := by
  unfold Coordinator.checkMapDone
  by_cases hall : allCompleted c.mapTaskStatus = true
  · simp only [hall, if_true]
    exact ⟨fun _ => (allCompleted_iff _).mp hall, hlen⟩
  · simp only [hall, Bool.false_eq_true, if_false]
    exact ⟨hdone, hlen⟩

theorem checkReduceDone_map (c : Coordinator) :
    c.checkReduceDone.mapDone = c.mapDone ∧ c.checkReduceDone.mapTaskStatus = c.mapTaskStatus ∧
    c.checkReduceDone.mapTasks = c.mapTasks := by
  unfold Coordinator.checkReduceDone
  split <;> exact ⟨rfl, rfl, rfl⟩

theorem ReportTask_wellFormed (c c1 : Coordinator) (args : ReportTaskArgs)
    (hwf : c.wellFormed) (h : c.ReportTask args = some c1) : c1.wellFormed := by
  unfold Coordinator.ReportTask at h
  split at h
  · split at h
    · rename_i status hget
      simp only [Option.some.injEq] at h
      rw [← h]
      by_cases hst : status = TaskStatus.Completed
      · simp only [hst, ne_eq, not_true_eq_false, if_false]
        exact checkMapDone_wellFormed c hwf.2 hwf.1
      · simp only [ne_eq, hst, not_false_eq_true, if_true]
        refine checkMapDone_wellFormed _ (by simpa using hwf.2) ?_
        intro hd
        exact set_completed_all _ _ (hwf.1 hd)
    · cases h
  · split at h
    · split at h
      · simp only [Option.some.injEq] at h
        rw [← h]
        obtain ⟨h1, h2, h3⟩ := checkReduceDone_map
          (if _ ≠ TaskStatus.Completed then
            { c with reduceTaskStatus :=
                c.reduceTaskStatus.set args.TaskNumber.toNat TaskStatus.Completed }
          else c)
        unfold Coordinator.wellFormed
        rw [h1, h2, h3]
        split <;> exact hwf
      · cases h
    · cases h; exact hwf

theorem monitorTask_wellFormed (c c1 : Coordinator) (taskType : TaskType) (taskNumber : Int)
    (hwf : c.wellFormed) (h : c.monitorTask taskType taskNumber = some c1) :
    c1.wellFormed := by
  unfold Coordinator.monitorTask at h
  split at h
  · split at h
    · rename_i status hget
      split at h
      · rename_i hst
        cases h
        refine ⟨fun hd => ?_, by simpa using hwf.2⟩
        have hc := hwf.1 hd status (sliceGet_mem _ _ _ hget)
        rw [hst] at hc; cases hc
      · cases h; exact hwf
    · cases h
  · split at h
    · split at h
      · split at h
        · cases h; exact ⟨hwf.1, hwf.2⟩
        · cases h; exact hwf
      · cases h
    · cases h; exact hwf

theorem run_wellFormed (events : List Event) (c c1 : Coordinator) (hwf : c.wellFormed)
    (h : c.run events = some c1) : c1.wellFormed := by
  induction events generalizing c with
  | nil =>
    simp only [Coordinator.run, Option.some.injEq] at h
    rw [← h]; exact hwf
  | cons e rest ih =>
    simp only [Coordinator.run] at h
    cases hstep : c.handle e with
    | none => rw [hstep] at h; cases h
    | some c2 =>
      rw [hstep] at h
      refine ih c2 ?_ h
      cases e with
      | request reply =>
        simp only [Coordinator.handle] at hstep
        cases hreq : c.RequestTask reply with
        | none => rw [hreq] at hstep; cases hstep
        | some p =>
          obtain ⟨c3, r⟩ := p
          rw [hreq] at hstep
          cases hstep
          exact RequestTask_wellFormed c c2 reply r hwf hreq
      | report args => exact ReportTask_wellFormed c c2 args hwf hstep
      | monitor taskType taskNumber =>
        exact monitorTask_wellFormed c c2 taskType taskNumber hwf hstep


/-- C19. Reduce tasks are handed out only after every map task is complete:
in every state reached from `MakeCoordinator` by RequestTask calls, ReportTask
calls with in-range task numbers and `monitorTask` timeouts, `mapDone = true`
implies that every entry of `mapTaskStatus` is `Completed`; RequestTask
returns in every such state, and whenever it replies `ReduceTask` or
`ExitTask` every map task is `Completed`, before and after the call. -/
theorem reduce_only_after_all_maps (files : List String) (nReduce : Int)
    (events : List Event) (c0 c : Coordinator)
    (hmake : MakeCoordinator files nReduce = some c0) (hrun : c0.run events = some c) :
    (c.mapDone = true → ∀ s ∈ c.mapTaskStatus, s = TaskStatus.Completed) ∧
    ∀ reply, ∃ c1 r, c.RequestTask reply = some (c1, r) ∧
      (r.TaskType = TaskType.ReduceTask ∨ r.TaskType = TaskType.ExitTask →
        (∀ s ∈ c.mapTaskStatus, s = TaskStatus.Completed) ∧
        ∀ s ∈ c1.mapTaskStatus, s = TaskStatus.Completed) := by
  have hwf := run_wellFormed events c0 c (MakeCoordinator_wellFormed files nReduce c0 hmake) hrun
  refine ⟨hwf.1, fun reply => ?_⟩
  unfold Coordinator.RequestTask
  by_cases hm : c.mapDone = true
  · have hall := hwf.1 hm
    simp only [hm, Bool.not_true, Bool.false_eq_true, if_false]
    split
    · split
      · exact ⟨_, _, rfl, fun _ => ⟨hall, hall⟩⟩
      · exact ⟨_, _, rfl, fun _ => ⟨hall, hall⟩⟩
    · exact ⟨_, _, rfl, fun _ => ⟨hall, hall⟩⟩
  · have hm2 : c.mapDone = false := by simpa using hm
    simp only [hm2, Bool.not_false, if_true]
    cases hidle : firstIdle c.mapTaskStatus with
    | none =>
      refine ⟨_, _, rfl, fun h => ?_⟩
      rcases h with h | h <;> cases h
    | some i =>
      have hlt : i < c.mapTasks.length := by
        rw [hwf.2]; exact firstIdle_lt _ i hidle
      simp only [List.getElem?_eq_getElem hlt]
      refine ⟨_, _, rfl, fun h => ?_⟩
      rcases h with h | h <;> cases h

/-- Witness of C19: two input files; both map tasks are handed out, the first
one times out and is handed out again, both are reported, and the next request
is answered with a reduce task. -/
theorem reduce_only_after_all_maps_witness :
    ∃ c0 c, MakeCoordinator ["a", "b"] 2 = some c0 ∧
      c0.run [Event.request ⟨TaskType.MapTask, 0, 0, 0, ""⟩,
        Event.request ⟨TaskType.MapTask, 0, 0, 0, ""⟩, Event.monitor TaskType.MapTask 0,
        Event.request ⟨TaskType.MapTask, 0, 0, 0, ""⟩, Event.report ⟨TaskType.MapTask, 1⟩,
        Event.report ⟨TaskType.MapTask, 0⟩] = some c ∧
      c.mapDone = true ∧
      (c.RequestTask ⟨TaskType.MapTask, 0, 0, 0, ""⟩).map (fun p => p.2.TaskType) =
        some TaskType.ReduceTask ∧
      ∀ s ∈ c.mapTaskStatus, s = TaskStatus.Completed :=
  ⟨⟨["a", "b"], [TaskStatus.Idle, TaskStatus.Idle], 2, 2,
      [TaskStatus.Idle, TaskStatus.Idle], false, false⟩,
    ⟨["a", "b"], [TaskStatus.Completed, TaskStatus.Completed], 2, 2,
      [TaskStatus.Idle, TaskStatus.Idle], true, false⟩,
    by decide, by decide, rfl, by decide,
    (reduce_only_after_all_maps ["a", "b"] 2
      [Event.request ⟨TaskType.MapTask, 0, 0, 0, ""⟩,
        Event.request ⟨TaskType.MapTask, 0, 0, 0, ""⟩, Event.monitor TaskType.MapTask 0,
        Event.request ⟨TaskType.MapTask, 0, 0, 0, ""⟩, Event.report ⟨TaskType.MapTask, 1⟩,
        Event.report ⟨TaskType.MapTask, 0⟩]
      ⟨["a", "b"], [TaskStatus.Idle, TaskStatus.Idle], 2, 2,
        [TaskStatus.Idle, TaskStatus.Idle], false, false⟩
      ⟨["a", "b"], [TaskStatus.Completed, TaskStatus.Completed], 2, 2,
        [TaskStatus.Idle, TaskStatus.Idle], true, false⟩
      (by decide) (by decide)).1 rfl⟩

/-- C20. Task assignment: in the map phase RequestTask returns the
lowest-indexed `Idle` map task `i` with `Filename = mapTasks[i]` and
`NReduce = nReduce` and changes exactly that status to `InProgress`; in the
reduce phase it does the same for the lowest-indexed `Idle` reduce task, with
`NMap = nMap`; when the current phase has no `Idle` task it replies `WaitTask`,
and when both phases are done it replies `ExitTask`, in both cases leaving the
state unchanged.  The state has a file name for each map status, as every
state set up by `MakeCoordinator` has. -/
theorem request_task_assignment (c : Coordinator) (reply : RequestTaskReply)
    (hlen : c.mapTaskStatus.length ≤ c.mapTasks.length) :
    (c.mapDone = false → ∀ i, lowestIdle c.mapTaskStatus i →
      ∃ filename, c.mapTasks[i]? = some filename ∧
        c.RequestTask reply =
          some ({ c with mapTaskStatus := c.mapTaskStatus.set i TaskStatus.InProgress },
            { reply with TaskType := TaskType.MapTask, TaskNumber := (i : Int),
                         NReduce := c.nReduce, Filename := filename })) ∧
    (c.mapDone = false → (∀ s ∈ c.mapTaskStatus, s ≠ TaskStatus.Idle) →
      c.RequestTask reply = some (c, { reply with TaskType := TaskType.WaitTask })) ∧
    (c.mapDone = true → c.reduceDone = false → ∀ i, lowestIdle c.reduceTaskStatus i →
      c.RequestTask reply =
        some ({ c with reduceTaskStatus := c.reduceTaskStatus.set i TaskStatus.InProgress },
          { reply with TaskType := TaskType.ReduceTask, TaskNumber := (i : Int),
                       NMap := c.nMap })) ∧
    (c.mapDone = true → c.reduceDone = false →
      (∀ s ∈ c.reduceTaskStatus, s ≠ TaskStatus.Idle) →
      c.RequestTask reply = some (c, { reply with TaskType := TaskType.WaitTask })) ∧
    (c.mapDone = true → c.reduceDone = true →
      c.RequestTask reply = some (c, { reply with TaskType := TaskType.ExitTask })) := by
  refine ⟨?_, ?_, ?_, ?_, ?_⟩
  · intro hm i hi
    have hidle := (firstIdle_some _ i).mpr hi
    have hlt : i < c.mapTasks.length := Nat.lt_of_lt_of_le (firstIdle_lt _ i hidle) hlen
    refine ⟨c.mapTasks[i], List.getElem?_eq_getElem hlt, ?_⟩
    simp only [Coordinator.RequestTask, hm, Bool.not_false, if_true, hidle,
      List.getElem?_eq_getElem hlt]
  · intro hm hnone
    simp only [Coordinator.RequestTask, hm, Bool.not_false, if_true,
      (firstIdle_none _).mpr hnone]
  · intro hm hr i hi
    simp only [Coordinator.RequestTask, hm, hr, Bool.not_true, Bool.false_eq_true, if_false,
      Bool.not_false, if_true, (firstIdle_some _ i).mpr hi]
  · intro hm hr hnone
    simp only [Coordinator.RequestTask, hm, hr, Bool.not_true, Bool.false_eq_true, if_false,
      Bool.not_false, if_true, (firstIdle_none _).mpr hnone]
  · intro hm hr
    simp only [Coordinator.RequestTask, hm, hr, Bool.not_true, Bool.false_eq_true, if_false]

/-- Witness of C20: three input files, the first map task completed, the
second in progress, the third idle: the third is handed out. -/
theorem request_task_assignment_witness :
    (3 : Nat) ≤ 3 ∧
    Coordinator.RequestTask
        ⟨["a", "b", "c"], [TaskStatus.Completed, TaskStatus.InProgress, TaskStatus.Idle], 3, 2,
          [TaskStatus.Idle, TaskStatus.Idle], false, false⟩ ⟨TaskType.ExitTask, 7, 7, 7, "z"⟩ =
      some (⟨["a", "b", "c"],
          [TaskStatus.Completed, TaskStatus.InProgress, TaskStatus.InProgress], 3, 2,
          [TaskStatus.Idle, TaskStatus.Idle], false, false⟩,
        ⟨TaskType.MapTask, 2, 7, 2, "c"⟩) ∧
    ∃ filename, ["a", "b", "c"][2]? = some filename ∧
      Coordinator.RequestTask
          ⟨["a", "b", "c"], [TaskStatus.Completed, TaskStatus.InProgress, TaskStatus.Idle], 3, 2,
            [TaskStatus.Idle, TaskStatus.Idle], false, false⟩ ⟨TaskType.ExitTask, 7, 7, 7, "z"⟩ =
        some (⟨["a", "b", "c"],
            [TaskStatus.Completed, TaskStatus.InProgress, TaskStatus.Idle].set 2
              TaskStatus.InProgress, 3, 2,
            [TaskStatus.Idle, TaskStatus.Idle], false, false⟩,
          ⟨TaskType.MapTask, ((2 : Nat) : Int), 7, 2, filename⟩) :=
  ⟨by decide, by decide,
    (request_task_assignment
      ⟨["a", "b", "c"], [TaskStatus.Completed, TaskStatus.InProgress, TaskStatus.Idle], 3, 2,
        [TaskStatus.Idle, TaskStatus.Idle], false, false⟩ ⟨TaskType.ExitTask, 7, 7, 7, "z"⟩
      (by decide)).1 rfl 2
      ⟨by decide, fun j hj => by
        have hj2 : j = 0 ∨ j = 1 := by omega
        rcases hj2 with h | h <;> subst h <;> decide⟩⟩

end mr

/-! ## shardkv: sessions and operation tags -/

namespace shardkv

/-- Session entry of a client after one command. -/
theorem applier_apply_session (kv : ShardKV) (op : Op) (id : Int) :
    (applier_apply kv op).1.clientRequests id =
      if op.ClientID = id then
        match kv.clientRequests id with
        | none => some op.RequestID
        | some l => some (max l op.RequestID)
      else kv.clientRequests id := by
  by_cases hid : op.ClientID = id
  · subst hid
    simp only [if_true]
    cases hl : kv.clientRequests op.ClientID with
    | none =>
      have hnew : isNew kv op = true := by simp [isNew, hl]
      rw [applier_apply_session_of_new kv op hnew]
      simp [GoMap.set]
    | some l =>
      by_cases hgt : op.RequestID > l
      · have hnew : isNew kv op = true := by simp [isNew, hl, hgt]
        rw [applier_apply_session_of_new kv op hnew]
        simp only [GoMap.set, if_true]
        rw [max_eq_right (le_of_lt hgt)]
      · have hold : isNew kv op = false := by simp [isNew, hl, hgt]
        rw [applier_apply_of_not_new kv op hold, hl]
        simp only [Option.some.injEq]
        rw [max_eq_left (not_lt.mp hgt)]
  · simp only [hid, if_false]
    cases hnew : isNew kv op with
    | true =>
      rw [applier_apply_session_of_new kv op hnew]
      simp only [GoMap.set]
      rw [if_neg (fun h => hid h.symm)]
    | false => rw [applier_apply_of_not_new kv op hnew]

/-- The session entry after a run is the greatest of `sessionValues`, and
there is none exactly when there are no such values. -/
theorem applier_run_session (ops : List Op) (kv : ShardKV) (id : Int) :
    (sessionValues kv ops id = [] → (applier_run kv ops).clientRequests id = none) ∧
    (sessionValues kv ops id ≠ [] →
      ∃ m, (applier_run kv ops).clientRequests id = some m ∧
        m ∈ sessionValues kv ops id ∧ ∀ x ∈ sessionValues kv ops id, x ≤ m) := by
  induction ops generalizing kv with
  | nil =>
    cases h : kv.clientRequests id with
    | none => simp [sessionValues, applier_run, h]
    | some v => simp [sessionValues, applier_run, h]
  | cons op rest ih =>
    have hrun : applier_run kv (op :: rest) = applier_run (applier_apply kv op).1 rest := rfl
    have hstep := applier_apply_session kv op id
    obtain ⟨ih1, ih2⟩ := ih (applier_apply kv op).1
    rw [hrun]
    by_cases hid : op.ClientID = id
    · simp only [hid, if_true] at hstep
      have hne : sessionValues (applier_apply kv op).1 rest id ≠ [] := by
        cases hl : kv.clientRequests id <;> rw [hl] at hstep <;>
          simp [sessionValues, hstep]
      obtain ⟨m, hm, hmem, hub⟩ := ih2 hne
      constructor
      · intro hnil
        simp [sessionValues, hid] at hnil
      · intro _
        refine ⟨m, hm, ?_, ?_⟩
        · cases hl : kv.clientRequests id with
          | none =>
            rw [hl] at hstep
            simp only [sessionValues, hstep, Option.toList_some, List.singleton_append,
              List.mem_cons] at hmem
            simp only [sessionValues, hl, Option.toList_none, List.nil_append, List.filter_cons,
              hid, decide_True, if_true, List.map_cons, List.mem_cons]
            exact hmem
          | some l =>
            rw [hl] at hstep
            simp only [sessionValues, hstep, Option.toList_some, List.singleton_append,
              List.mem_cons] at hmem
            simp only [sessionValues, hl, Option.toList_some, List.singleton_append,
              List.filter_cons, hid, decide_True, if_true, List.map_cons, List.mem_cons]
            rcases hmem with h | h
            · rcases max_choice l op.RequestID with hc | hc
              · left; rw [h, hc]
              · right; left; rw [h, hc]
            · right; right; exact h
        · intro x hx
          cases hl : kv.clientRequests id with
          | none =>
            rw [hl] at hstep
            simp only [sessionValues, hl, Option.toList_none, List.nil_append, List.filter_cons,
              hid, decide_True, if_true, List.map_cons, List.mem_cons] at hx
            apply hub
            simp only [sessionValues, hstep, Option.toList_some, List.singleton_append,
              List.mem_cons]
            exact hx
          | some l =>
            rw [hl] at hstep
            simp only [sessionValues, hl, Option.toList_some, List.singleton_append,
              List.filter_cons, hid, decide_True, if_true, List.map_cons, List.mem_cons] at hx
            have hmax : max l op.RequestID ≤ m := by
              apply hub
              simp [sessionValues, hstep]
            rcases hx with h | h | h
            · rw [h]; exact le_trans (le_max_left _ _) hmax
            · rw [h]; exact le_trans (le_max_right _ _) hmax
            · apply hub
              simp only [sessionValues, hstep, Option.toList_some, List.singleton_append,
                List.mem_cons]
              exact Or.inr h
    · simp only [hid, if_false] at hstep
      have hvals : sessionValues kv (op :: rest) id =
          sessionValues (applier_apply kv op).1 rest id := by
        simp [sessionValues, hstep, hid]
      rw [hvals]
      exact ⟨ih1, ih2⟩

/-- C24. Session sequence numbers never go backwards: for every store state,
every finite sequence of committed commands applied by the apply loop and
every client id, an entry of `clientRequests` that is present before is
present after with a value at least as large, and the entry after is the
maximum of the value stored before (if any) and the RequestIDs of that
client's commands in the sequence; it is absent only if there are none. -/
theorem session_never_goes_back (kv : ShardKV) (ops : List Op) (id : Int) :
    (match kv.clientRequests id with
      | some v => ∃ w, (applier_run kv ops).clientRequests id = some w ∧ v ≤ w
      | none => True) ∧
    ((applier_run kv ops).clientRequests id : WithBot Int) =
      (sessionValues kv ops id).maximum ∧
    ((applier_run kv ops).clientRequests id = none ↔ sessionValues kv ops id = []) := by
  obtain ⟨h1, h2⟩ := applier_run_session ops kv id
  refine ⟨?_, ?_, ?_⟩
  · cases hv : kv.clientRequests id with
    | none => trivial
    | some v =>
      have hne : sessionValues kv ops id ≠ [] := by simp [sessionValues, hv]
      obtain ⟨m, hm, _, hub⟩ := h2 hne
      exact ⟨m, hm, hub v (by simp [sessionValues, hv])⟩
  · by_cases hnil : sessionValues kv ops id = []
    · rw [h1 hnil, hnil]; rfl
    · obtain ⟨m, hm, hmem, hub⟩ := h2 hnil
      rw [hm]
      exact (List.maximum_eq_coe_iff.mpr ⟨hmem, hub⟩).symm
  · constructor
    · intro hnone
      by_contra hne
      obtain ⟨m, hm, _, _⟩ := h2 hne
      rw [hm] at hnone; cases hnone
    · exact h1

/-- C25. Unknown operation tag: a committed command whose `Operation` is none
of "Get", "Put", "Append" and whose RequestID is new for its client leaves the
data table unchanged, sets `clientRequests[ClientID]` to the RequestID and
yields the result `Err = OK` (with an empty value); the handler PutAppend
copies `args.Op` into the command as it is. -/
theorem unknown_operation_tag (kv : ShardKV) (op : Op) (args : PutAppendArgs)
    (hget : op.Operation ≠ "Get") (hput : op.Operation ≠ "Put")
    (happend : op.Operation ≠ "Append") (hnew : isNew kv op = true) :
    (applier_apply kv op).1.data = kv.data ∧
    (applier_apply kv op).1.clientRequests op.ClientID = some op.RequestID ∧
    (∀ id, id ≠ op.ClientID →
      (applier_apply kv op).1.clientRequests id = kv.clientRequests id) ∧
    (applier_apply kv op).2 = { Err := OK, Value := "" } ∧
    (PutAppend_op args).Operation = args.Op := by
  refine ⟨?_, ?_, ?_, ?_, rfl⟩
  · rw [applier_apply_data_of_new kv op hnew]
    simp only [hput, happend, if_false]
  · rw [applier_apply_session_of_new kv op hnew]
    simp [GoMap.set]
  · intro id hid
    rw [applier_apply_session_of_new kv op hnew]
    simp [GoMap.set, hid]
  · rw [applier_apply_result]
    simp only [hget, if_false]

/-- Witness of C25: a client sends PutAppend with the tag "Delete"; the command
is committed on a replica that holds `x = "1"`. -/
theorem unknown_operation_tag_witness :
    (applier_apply (applier_apply StartServer ⟨"Put", "x", "1", 1, 1⟩).1
        (PutAppend_op ⟨"x", "9", "Delete", 1, 2⟩)).1.data =
      (applier_apply StartServer ⟨"Put", "x", "1", 1, 1⟩).1.data ∧
    (applier_apply (applier_apply StartServer ⟨"Put", "x", "1", 1, 1⟩).1
        (PutAppend_op ⟨"x", "9", "Delete", 1, 2⟩)).1.clientRequests 1 = some 2 ∧
    (applier_apply (applier_apply StartServer ⟨"Put", "x", "1", 1, 1⟩).1
        (PutAppend_op ⟨"x", "9", "Delete", 1, 2⟩)).2 = { Err := "OK", Value := "" } :=
  ⟨(unknown_operation_tag (applier_apply StartServer ⟨"Put", "x", "1", 1, 1⟩).1
      (PutAppend_op ⟨"x", "9", "Delete", 1, 2⟩) ⟨"x", "9", "Delete", 1, 2⟩
      (by decide) (by decide) (by decide) (by decide)).1,
    by decide, by decide⟩

end shardkv

/-! ## mr: completion of the job -/

namespace mr

theorem phaseOk_replicate (n : Nat) : phaseOk (List.replicate n TaskStatus.Idle) false := by
  refine ⟨fun h => (by cases h), fun hall hne => ?_⟩
  cases n with
  | zero => exact absurd rfl hne
  | succ k =>
    have := hall TaskStatus.Idle (by simp [List.replicate_succ])
    cases this

/-- Moving a task that is not `Completed` to another status that is not
`Completed` keeps a phase in order. -/
theorem phaseOk_set_open (l : List TaskStatus) (d : Bool) (n : Nat) (s v : TaskStatus)
    (hok : phaseOk l d) (hget : l[n]? = some s) (hs : s ≠ TaskStatus.Completed)
    (hv : v ≠ TaskStatus.Completed) : phaseOk (l.set n v) d := by
  have hd : d = false := by
    cases d with
    | false => rfl
    | true => exact absurd (hok.1 rfl s (List.getElem?_mem hget)) hs
  have hlt : n < l.length := by
    by_contra hge
    rw [List.getElem?_eq_none (Nat.le_of_not_lt hge)] at hget
    cases hget
  refine ⟨fun h => (by rw [hd] at h; cases h), fun hall _ => ?_⟩
  have hmem : v ∈ l.set n v := List.mem_set l n hlt v
  exact absurd (hall v hmem) hv

/-- Reporting a task and running the check of the phase keeps it in order. -/
theorem phaseOk_report (l : List TaskStatus) (d : Bool) (n : Nat) (s : TaskStatus)
    (hok : phaseOk l d) (hget : l[n]? = some s) :
    phaseOk (if s ≠ TaskStatus.Completed then l.set n TaskStatus.Completed else l)
      (if allCompleted (if s ≠ TaskStatus.Completed then l.set n TaskStatus.Completed else l)
        then true else d) := by
  by_cases hall : allCompleted
      (if s ≠ TaskStatus.Completed then l.set n TaskStatus.Completed else l) = true
  · simp only [hall, if_true]
    exact ⟨fun _ => (allCompleted_iff _).mp hall, fun _ _ => rfl⟩
  · simp only [hall, if_false]
    refine ⟨fun hd => ?_, fun hc _ => ?_⟩
    · have hc := hok.1 hd
      have hs : s = TaskStatus.Completed := hc s (List.getElem?_mem hget)
      simp only [hs, ne_eq, not_true_eq_false, if_false]
      exact hc
    · exact absurd ((allCompleted_iff _).mpr hc) hall

theorem MakeCoordinator_doneInvariant (files : List String) (nReduce : Int) (c : Coordinator)
    (h : MakeCoordinator files nReduce = some c) :
    c.doneInvariant files.length nReduce.toNat := by
  unfold MakeCoordinator at h
  split at h
  · cases h
  · cases h
    exact ⟨by simp, by simp, phaseOk_replicate _, phaseOk_replicate _⟩

theorem RequestTask_doneInvariant (nm nr : Nat) (c c1 : Coordinator)
    (reply r : RequestTaskReply) (hinv : c.doneInvariant nm nr)
    (h : c.RequestTask reply = some (c1, r)) : c1.doneInvariant nm nr := by
  obtain ⟨hm, hr, hpm, hpr⟩ := hinv
  unfold Coordinator.RequestTask at h
  split at h
  · split at h
    · rename_i i hidle
      split at h
      · cases h
        have hi := ((firstIdle_some _ i).mp hidle).1
        exact ⟨by simpa using hm, hr,
          phaseOk_set_open _ _ i TaskStatus.Idle TaskStatus.InProgress hpm hi
            (by decide) (by decide), hpr⟩
      · cases h
    · cases h; exact ⟨hm, hr, hpm, hpr⟩
  · split at h
    · split at h
      · rename_i i hidle
        cases h
        have hi := ((firstIdle_some _ i).mp hidle).1
        exact ⟨hm, by simpa using hr, hpm,
          phaseOk_set_open _ _ i TaskStatus.Idle TaskStatus.InProgress hpr hi
            (by decide) (by decide)⟩
      · cases h; exact ⟨hm, hr, hpm, hpr⟩
    · cases h; exact ⟨hm, hr, hpm, hpr⟩

theorem sliceGet_eq {α : Type} (l : List α) (i : Int) (a : α) (h : sliceGet l i = some a) :
    l[i.toNat]? = some a := by
  unfold sliceGet at h
  split at h
  · exact h
  · cases h

theorem ReportTask_doneInvariant (nm nr : Nat) (c c1 : Coordinator) (args : ReportTaskArgs)
    (hinv : c.doneInvariant nm nr) (h : c.ReportTask args = some c1) :
    c1.doneInvariant nm nr := by
  obtain ⟨hm, hr, hpm, hpr⟩ := hinv
  unfold Coordinator.ReportTask at h
  split at h
  · split at h
    · rename_i status hget
      have hrep := phaseOk_report _ _ _ status hpm (sliceGet_eq _ _ _ hget)
      simp only [Option.some.injEq] at h
      rw [← h]
      unfold Coordinator.checkMapDone
      by_cases hst : status = TaskStatus.Completed
      · simp only [hst, ne_eq, not_true_eq_false, if_false] at hrep ⊢
        split
        · rename_i hall
          simp only [hall, if_true] at hrep
          exact ⟨hm, hr, hrep, hpr⟩
        · rename_i hall
          simp only [hall, if_false] at hrep
          exact ⟨hm, hr, hrep, hpr⟩
      · simp only [ne_eq, hst, not_false_eq_true, if_true] at hrep ⊢
        split
        · rename_i hall
          simp only [hall, if_true] at hrep
          exact ⟨by simpa using hm, hr, hrep, hpr⟩
        · rename_i hall
          simp only [hall, if_false] at hrep
          exact ⟨by simpa using hm, hr, hrep, hpr⟩
    · cases h
  · split at h
    · split at h
      · rename_i status hget
        have hrep := phaseOk_report _ _ _ status hpr (sliceGet_eq _ _ _ hget)
        simp only [Option.some.injEq] at h
        rw [← h]
        unfold Coordinator.checkReduceDone
        by_cases hst : status = TaskStatus.Completed
        · simp only [hst, ne_eq, not_true_eq_false, if_false] at hrep ⊢
          split
          · rename_i hall
            simp only [hall, if_true] at hrep
            exact ⟨hm, hr, hpm, hrep⟩
          · rename_i hall
            simp only [hall, if_false] at hrep
            exact ⟨hm, hr, hpm, hrep⟩
        · simp only [ne_eq, hst, not_false_eq_true, if_true] at hrep ⊢
          split
          · rename_i hall
            simp only [hall, if_true] at hrep
            exact ⟨hm, by simpa using hr, hpm, hrep⟩
          · rename_i hall
            simp only [hall, if_false] at hrep
            exact ⟨hm, by simpa using hr, hpm, hrep⟩
      · cases h
    · cases h; exact ⟨hm, hr, hpm, hpr⟩

theorem monitorTask_doneInvariant (nm nr : Nat) (c c1 : Coordinator) (taskType : TaskType)
    (taskNumber : Int) (hinv : c.doneInvariant nm nr)
    (h : c.monitorTask taskType taskNumber = some c1) : c1.doneInvariant nm nr := by
  obtain ⟨hm, hr, hpm, hpr⟩ := hinv
  unfold Coordinator.monitorTask at h
  split at h
  · split at h
    · rename_i status hget
      split at h
      · rename_i hst
        cases h
        exact ⟨by simpa using hm, hr,
          phaseOk_set_open _ _ _ status TaskStatus.Idle hpm (sliceGet_eq _ _ _ hget)
            (by rw [hst]; decide) (by decide), hpr⟩
      · cases h; exact ⟨hm, hr, hpm, hpr⟩
    · cases h
  · split at h
    · split at h
      · rename_i status hget
        split at h
        · rename_i hst
          cases h
          exact ⟨hm, by simpa using hr, hpm,
            phaseOk_set_open _ _ _ status TaskStatus.Idle hpr (sliceGet_eq _ _ _ hget)
              (by rw [hst]; decide) (by decide)⟩
        · cases h; exact ⟨hm, hr, hpm, hpr⟩
      · cases h
    · cases h; exact ⟨hm, hr, hpm, hpr⟩

theorem run_doneInvariant (nm nr : Nat) (events : List Event) (c c1 : Coordinator)
    (hinv : c.doneInvariant nm nr) (h : c.run events = some c1) :
    c1.doneInvariant nm nr := by
  induction events generalizing c with
  | nil =>
    simp only [Coordinator.run, Option.some.injEq] at h
    rw [← h]; exact hinv
  | cons e rest ih =>
    simp only [Coordinator.run] at h
    cases hstep : c.handle e with
    | none => rw [hstep] at h; cases h
    | some c2 =>
      rw [hstep] at h
      refine ih c2 ?_ h
      cases e with
      | request reply =>
        simp only [Coordinator.handle] at hstep
        cases hreq : c.RequestTask reply with
        | none => rw [hreq] at hstep; cases hstep
        | some p =>
          obtain ⟨c3, r⟩ := p
          rw [hreq] at hstep
          cases hstep
          exact RequestTask_doneInvariant nm nr c c2 reply r hinv hreq
      | report args => exact ReportTask_doneInvariant nm nr c c2 args hinv hstep
      | monitor taskType taskNumber =>
        exact monitorTask_doneInvariant nm nr c c2 taskType taskNumber hinv hstep

/-- Counterexample to C21: with one input file and `nReduce = 0`, after the
only map task has been handed out and reported every map task and every
reduce task (there is none) is `Completed`, yet `Done()` is false; the same
holds right after `MakeCoordinator` for no input file and `nReduce = 0`. -/
theorem done_false_though_all_completed :
    ((MakeCoordinator ["a"] 0).bind (fun c =>
        c.run [Event.request ⟨TaskType.MapTask, 0, 0, 0, ""⟩,
          Event.report ⟨TaskType.MapTask, 0⟩])).map
        (fun c => (c.mapTaskStatus, c.reduceTaskStatus, c.Done)) =
      some ([TaskStatus.Completed], [], false) ∧
    (MakeCoordinator [] 0).map (fun c => (c.mapTaskStatus, c.reduceTaskStatus, c.Done)) =
      some ([], [], false) := by
  constructor <;> decide

/-- C21 (amended). Done reflects completion: in every state reached from
`MakeCoordinator(files, nReduce)` by RequestTask calls, ReportTask calls with
in-range task numbers and `monitorTask` timeouts, `Done()` returning true
implies that every map task and every reduce task is `Completed`, for every
file list and every `nReduce >= 0`; conversely, when there is at least one
input file and `nReduce > 0`, `Done()` returns true as soon as every map task
and every reduce task is `Completed`. -/
theorem done_reflects_completion (files : List String) (nReduce : Int)
    (events : List Event) (c0 c : Coordinator)
    (hmake : MakeCoordinator files nReduce = some c0) (hrun : c0.run events = some c) :
    (c.Done = true →
      (∀ s ∈ c.mapTaskStatus, s = TaskStatus.Completed) ∧
      (∀ s ∈ c.reduceTaskStatus, s = TaskStatus.Completed)) ∧
    (files ≠ [] → 0 < nReduce →
      (c.Done = true ↔
        (∀ s ∈ c.mapTaskStatus, s = TaskStatus.Completed) ∧
        (∀ s ∈ c.reduceTaskStatus, s = TaskStatus.Completed))) := by
  obtain ⟨hm, hr, hpm, hpr⟩ := run_doneInvariant _ _ events c0 c
    (MakeCoordinator_doneInvariant files nReduce c0 hmake) hrun
  have hfwd : c.Done = true →
      (∀ s ∈ c.mapTaskStatus, s = TaskStatus.Completed) ∧
      (∀ s ∈ c.reduceTaskStatus, s = TaskStatus.Completed) := by
    intro hdone
    simp only [Coordinator.Done, Bool.and_eq_true] at hdone
    exact ⟨hpm.1 hdone.1, hpr.1 hdone.2⟩
  refine ⟨hfwd, fun hfiles hpos => ⟨hfwd, fun hall => ?_⟩⟩
  have hmne : c.mapTaskStatus ≠ [] := by
    intro hnil
    rw [hnil] at hm
    exact hfiles (List.length_eq_zero.mp hm.symm)
  have hrne : c.reduceTaskStatus ≠ [] := by
    intro hnil
    rw [hnil] at hr
    have h0 : nReduce.toNat = 0 := hr.symm
    omega
  simp only [Coordinator.Done, Bool.and_eq_true]
  exact ⟨hpm.2 hall.1 hmne, hpr.2 hall.2 hrne⟩

/-- Witness of C21 (amended): one input file and one reduce task, both handed
out and reported. -/
theorem done_reflects_completion_witness :
    ∃ c0 c, MakeCoordinator ["a"] 1 = some c0 ∧
      c0.run [Event.request ⟨TaskType.MapTask, 0, 0, 0, ""⟩,
        Event.report ⟨TaskType.MapTask, 0⟩, Event.request ⟨TaskType.MapTask, 0, 0, 0, ""⟩,
        Event.report ⟨TaskType.ReduceTask, 0⟩] = some c ∧
      c.Done = true ∧
      (∀ s ∈ c.mapTaskStatus, s = TaskStatus.Completed) ∧
      (∀ s ∈ c.reduceTaskStatus, s = TaskStatus.Completed) :=
  ⟨⟨["a"], [TaskStatus.Idle], 1, 1, [TaskStatus.Idle], false, false⟩,
    ⟨["a"], [TaskStatus.Completed], 1, 1, [TaskStatus.Completed], true, true⟩,
    by decide, by decide, rfl,
    (done_reflects_completion ["a"] 1
      [Event.request ⟨TaskType.MapTask, 0, 0, 0, ""⟩,
        Event.report ⟨TaskType.MapTask, 0⟩, Event.request ⟨TaskType.MapTask, 0, 0, 0, ""⟩,
        Event.report ⟨TaskType.ReduceTask, 0⟩]
      ⟨["a"], [TaskStatus.Idle], 1, 1, [TaskStatus.Idle], false, false⟩
      ⟨["a"], [TaskStatus.Completed], 1, 1, [TaskStatus.Completed], true, true⟩
      (by decide) (by decide)).1 rfl⟩

end mr

/-! ## mr: the worker -/

namespace mr

theorem ihash_eq_mod (key : String) :
    ihash key = Int.ofNat (fnv32a (stringBytes key) % 2 ^ 31) := by
  unfold ihash
  have h : (0x7fffffff : Nat) = 2 ^ 31 - 1 := by norm_num
  rw [h, Nat.and_pow_two_sub_one_eq_mod]

theorem ihash_range (key : String) : 0 ≤ ihash key ∧ ihash key < 2 ^ 31 := by
  rw [ihash_eq_mod]
  refine ⟨Int.ofNat_nonneg _, ?_⟩
  have h : fnv32a (stringBytes key) % 2 ^ 31 < 2 ^ 31 := Nat.mod_lt _ (by norm_num)
  have h2 : ((fnv32a (stringBytes key) % 2 ^ 31 : Nat) : Int) < ((2 ^ 31 : Nat) : Int) :=
    Int.ofNat_lt.mpr h
  simpa using h2

theorem reduceTaskNumber_range (key : String) (nReduce : Int) (hpos : 0 < nReduce) :
    ∃ r, reduceTaskNumber key nReduce = some r ∧ r = ihash key % nReduce ∧
      0 ≤ r ∧ r < nReduce := by
  have hne : nReduce ≠ 0 := ne_of_gt hpos
  refine ⟨(ihash key).tmod nReduce, by simp [reduceTaskNumber, hne], ?_, ?_, ?_⟩
  · exact Int.tmod_eq_emod (ihash_range key).1 (le_of_lt hpos)
  · exact Int.tmod_nonneg _ (ihash_range key).1
  · exact Int.tmod_lt_of_pos _ hpos

/-- With as many encoders as `nReduce`, the writing loop of `doMapTask` runs
through, and each encoder receives, in order, the pairs of its bucket. -/
theorem doMapTask_encode_spec (nReduce : Int) (hpos : 0 < nReduce) (kva : List KeyValue)
    (encoders : List (List KeyValue)) (hlen : encoders.length = nReduce.toNat) :
    ∃ out, doMapTask_encode nReduce kva encoders = some out ∧
      out.length = nReduce.toNat ∧
      ∀ r : Nat, r < nReduce.toNat →
        out[r]? = (encoders[r]?).map (fun written =>
          written ++ kva.filter (fun kv => decide (reduceTaskNumber kv.Key nReduce = some (r : Int)))) := by
  induction kva generalizing encoders with
  | nil =>
    refine ⟨encoders, rfl, hlen, fun r _ => ?_⟩
    cases encoders[r]? <;> simp
  | cons kv rest ih =>
    obtain ⟨b, hb, _, hb0, hblt⟩ := reduceTaskNumber_range kv.Key nReduce hpos
    have hbn : b.toNat < encoders.length := by rw [hlen]; omega
    have hget : sliceGet encoders b = some encoders[b.toNat] := by
      simp [sliceGet, hb0, List.getElem?_eq_getElem hbn]
    obtain ⟨out, hout, hlenout, hspec⟩ :=
      ih (encoders.set b.toNat (encoders[b.toNat] ++ [kv])) (by simpa using hlen)
    refine ⟨out, ?_, hlenout, fun r hr => ?_⟩
    · simp only [doMapTask_encode, hb, hget]
      exact hout
    · rw [hspec r hr]
      have hrn : r < encoders.length := by rw [hlen]; exact hr
      by_cases hrb : b.toNat = r
      · have hp : decide (reduceTaskNumber kv.Key nReduce = some (r : Int)) = true := by
          rw [hb]
          simp only [Option.some.injEq, decide_eq_true_eq]
          omega
        simp only [List.filter_cons, hp, if_true]
        rw [← hrb, List.getElem?_set_self hbn, List.getElem?_eq_getElem hbn]
        simp
      · have hp : ¬ decide (reduceTaskNumber kv.Key nReduce = some (r : Int)) = true := by
          rw [hb]
          simp only [Option.some.injEq, decide_eq_true_eq]
          omega
        simp only [List.filter_cons, hp, Bool.false_eq_true, if_false]
        rw [List.getElem?_set_ne hrb]

/-- C22. Partition index is in range: `ihash(key)` is the 32-bit FNV-1a hash of
the key's bytes with the top bit cleared, so `0 <= ihash(key) < 2^31`; for
`nReduce > 0` the bucket `ihash(key) % nReduce` lies in `[0, nReduce)`, two
pairs with the same key get the same bucket, and the partitioning loop of
`doMapTask` never indexes `encoders` out of range: it runs through and every
encoder receives, in order, exactly the pairs of its bucket. -/
theorem partition_index_in_range (key : String) (nReduce : Int) (kva : List KeyValue)
    (hpos : 0 < nReduce) :
    ihash key = Int.ofNat (fnv32a (stringBytes key) % 2 ^ 31) ∧
    0 ≤ ihash key ∧ ihash key < 2 ^ 31 ∧
    (∃ r, reduceTaskNumber key nReduce = some r ∧ r = ihash key % nReduce ∧
      0 ≤ r ∧ r < nReduce) ∧
    (∀ kv1 kv2 : KeyValue, kv1.Key = kv2.Key →
      reduceTaskNumber kv1.Key nReduce = reduceTaskNumber kv2.Key nReduce) ∧
    ∃ files, doMapTask_partition kva nReduce = some files ∧
      files.length = nReduce.toNat ∧
      ∀ r : Nat, r < nReduce.toNat →
        files[r]? = some (kva.filter
          (fun kv => decide (reduceTaskNumber kv.Key nReduce = some (r : Int)))) := by
  refine ⟨ihash_eq_mod key, (ihash_range key).1, (ihash_range key).2,
    reduceTaskNumber_range key nReduce hpos, fun kv1 kv2 h => by rw [h], ?_⟩
  obtain ⟨out, hout, hlen, hspec⟩ := doMapTask_encode_spec nReduce hpos kva
    (List.replicate nReduce.toNat []) (by simp)
  refine ⟨out, ?_, hlen, fun r hr => ?_⟩
  · simp only [doMapTask_partition, not_lt.mpr (le_of_lt hpos), if_false]
    exact hout
  · rw [hspec r hr]
    simp [List.getElem?_replicate, hr]

/-- Witness of C22: three pairs, two of them with the key "a", and three
reduce tasks: "c" goes to bucket 0, both "a" to bucket 2. -/
theorem partition_index_in_range_witness :
    (0 : Int) < 3 ∧ ihash "a" = 1678518572 ∧ reduceTaskNumber "a" 3 = some 2 ∧
    doMapTask_partition [⟨"a", "1"⟩, ⟨"c", "1"⟩, ⟨"a", "2"⟩] 3 =
      some [[⟨"c", "1"⟩], [], [⟨"a", "1"⟩, ⟨"a", "2"⟩]] ∧
    ∃ r, reduceTaskNumber "a" 3 = some r ∧ r = ihash "a" % 3 ∧ 0 ≤ r ∧ r < 3 :=
  ⟨by decide, by decide, by decide, by decide,
    (partition_index_in_range "a" 3 [⟨"a", "1"⟩, ⟨"c", "1"⟩, ⟨"a", "2"⟩] (by decide)).2.2.2.1⟩

end mr

namespace mr

/-- The scanning loop stops right after the run of pairs that carry the key of
`intermediate[i]`. -/
theorem reduce_scan_spec (xs : List KeyValue) (i : Nat) (a : KeyValue) (hi : xs[i]? = some a)
    (fuel j : Nat) (hfuel : xs.length - j < fuel) :
    reduce_scan xs i fuel j =
      some (j + ((xs.drop j).takeWhile (fun kv => decide (kv.Key = a.Key))).length) := by
  induction fuel generalizing j with
  | zero => exact absurd hfuel (Nat.not_lt_zero _)
  | succ fuel ih =>
    by_cases hj : j < xs.length
    · have hdrop : xs.drop j = xs[j] :: xs.drop (j + 1) := List.drop_eq_getElem_cons hj
      simp only [reduce_scan, List.getElem?_eq_getElem hj, hi]
      by_cases hkey : xs[j].Key = a.Key
      · simp only [hkey, if_true]
        rw [ih (j + 1) (by omega), hdrop]
        simp only [List.takeWhile_cons, hkey, decide_True, if_true, List.length_cons,
          Option.some.injEq]
        omega
      · simp only [hkey, if_false]
        rw [hdrop]
        simp [List.takeWhile_cons, hkey]
    · have hnone : xs[j]? = none := List.getElem?_eq_none (Nat.le_of_not_lt hj)
      simp only [reduce_scan, hnone]
      rw [List.drop_eq_nil_of_le (Nat.le_of_not_lt hj)]
      simp

/-- The collecting loop appends the values of `intermediate[k..j)`. -/
theorem reduce_values_spec (xs : List KeyValue) (j : Nat) (hj : j ≤ xs.length)
    (fuel k : Nat) (values : List String) (hk : k ≤ j) (hfuel : j - k < fuel) :
    reduce_values xs j fuel k values =
      some (values ++ ((xs.drop k).take (j - k)).map (fun kv => kv.Value)) := by
  induction fuel generalizing k values with
  | zero => exact absurd hfuel (Nat.not_lt_zero _)
  | succ fuel ih =>
    by_cases hkj : k < j
    · have hlen : k < xs.length := Nat.lt_of_lt_of_le hkj hj
      have hdrop : xs.drop k = xs[k] :: xs.drop (k + 1) := List.drop_eq_getElem_cons hlen
      have hsub : j - k = (j - (k + 1)) + 1 := by omega
      have htake : (xs.drop k).take (j - k) =
          xs[k] :: (xs.drop (k + 1)).take (j - (k + 1)) := by
        rw [hdrop, hsub, List.take_succ_cons]
      simp only [reduce_values, hkj, if_true, List.getElem?_eq_getElem hlen]
      rw [ih (k + 1) _ (by omega) (by omega), htake]
      simp
    · have hkeq : j - k = 0 := by omega
      simp [reduce_values, hkj, hkeq]

theorem drop_takeWhile_length (p : KeyValue → Bool) (l : List KeyValue) :
    l.drop (l.takeWhile p).length = l.dropWhile p ∧
    l.take (l.takeWhile p).length = l.takeWhile p := by
  have h := List.takeWhile_append_dropWhile p l
  constructor
  · calc l.drop (l.takeWhile p).length
        = (l.takeWhile p ++ l.dropWhile p).drop (l.takeWhile p).length := by rw [h]
      _ = l.dropWhile p := List.drop_left _ _
  · calc l.take (l.takeWhile p).length
        = (l.takeWhile p ++ l.dropWhile p).take (l.takeWhile p).length := by rw [h]
      _ = l.takeWhile p := List.take_left _ _

/-- In a list sorted by key, what follows the run of the first key has
strictly larger keys. -/
theorem dropWhile_keys_gt (a : KeyValue) (rest : List KeyValue)
    (hsorted : (a :: rest).Pairwise (fun x y => x.Key ≤ y.Key)) :
    ∀ kv ∈ rest.dropWhile (fun kv => decide (kv.Key = a.Key)), a.Key < kv.Key := by
  obtain ⟨hhead, htail⟩ := List.pairwise_cons.mp hsorted
  have hsub := List.dropWhile_sublist (fun kv => decide (kv.Key = a.Key)) (l := rest)
  have hsortedR := htail.sublist hsub
  intro kv hkv
  cases hR : rest.dropWhile (fun kv => decide (kv.Key = a.Key)) with
  | nil => rw [hR] at hkv; cases hkv
  | cons h R1 =>
    have hne : rest.dropWhile (fun kv => decide (kv.Key = a.Key)) ≠ [] := by
      rw [hR]; exact List.cons_ne_nil _ _
    have hnot := List.head_dropWhile_not (fun kv => decide (kv.Key = a.Key)) rest hne
    simp only [hR, List.head_cons, decide_eq_false_iff_not] at hnot
    have hh : a.Key < h.Key :=
      lt_of_le_of_ne (hhead h (hsub.subset (by rw [hR]; exact List.mem_cons_self _ _)))
        (fun e => hnot e.symm)
    rw [hR] at hkv hsortedR
    rcases List.mem_cons.mp hkv with e | hmem
    · rw [e]; exact hh
    · exact lt_of_lt_of_le hh ((List.pairwise_cons.mp hsortedR).1 kv hmem)

/-- One round of the grouping loop, on lists: the call for the first key
followed by a grouping of what follows its run is a grouping of the whole. -/
theorem reduceGrouped_cons (reducef : String → List String → String) (a : KeyValue)
    (rest : List KeyValue) (calls : List ReduceCall)
    (hsorted : (a :: rest).Pairwise (fun x y => x.Key ≤ y.Key))
    (hgood : reduceGrouped reducef (rest.dropWhile (fun kv => decide (kv.Key = a.Key))) calls) :
    reduceGrouped reducef (a :: rest)
      ({ key := a.Key
         values := (a :: rest.takeWhile (fun kv => decide (kv.Key = a.Key))).map
           (fun kv => kv.Value)
         line := a.Key ++ " " ++ reducef a.Key
           ((a :: rest.takeWhile (fun kv => decide (kv.Key = a.Key))).map
             (fun kv => kv.Value)) ++ "\n" } :: calls) := by
  obtain ⟨hinc, hkeys, hvals, hsum⟩ := hgood
  have hsplit := List.takeWhile_append_dropWhile (fun kv => decide (kv.Key = a.Key)) rest
  have hrun : ∀ kv ∈ rest.takeWhile (fun kv => decide (kv.Key = a.Key)), kv.Key = a.Key := by
    intro kv hkv
    simpa using List.mem_takeWhile_imp hkv
  have hgt := dropWhile_keys_gt a rest hsorted
  have hcallgt : ∀ c ∈ calls, a.Key < c.key := by
    intro c hc
    have hmem : c.key ∈ calls.map (fun c => c.key) := List.mem_map.mpr ⟨c, hc, rfl⟩
    obtain ⟨kv, hkv, hk⟩ := List.mem_map.mp ((hkeys c.key).mp hmem)
    rw [← hk]; exact hgt kv hkv
  have hfilter_run : ∀ k, (rest.filter (fun kv => decide (kv.Key = k))) =
      (rest.takeWhile (fun kv => decide (kv.Key = a.Key))).filter
        (fun kv => decide (kv.Key = k)) ++
      (rest.dropWhile (fun kv => decide (kv.Key = a.Key))).filter
        (fun kv => decide (kv.Key = k)) := by
    intro k
    rw [← List.filter_append, hsplit]
  refine ⟨?_, ?_, ?_, ?_⟩
  · simp only [List.map_cons, List.pairwise_cons]
    refine ⟨fun k hk => ?_, hinc⟩
    obtain ⟨c, hc, hck⟩ := List.mem_map.mp hk
    rw [← hck]; exact hcallgt c hc
  · intro k
    simp only [List.map_cons, List.mem_cons]
    constructor
    · rintro (h | h)
      · exact Or.inl h
      · right
        obtain ⟨kv, hkv, hk⟩ := List.mem_map.mp ((hkeys k).mp h)
        exact List.mem_map.mpr ⟨kv, (List.dropWhile_sublist _).subset hkv, hk⟩
    · rintro (h | h)
      · exact Or.inl h
      · obtain ⟨kv, hkv, hk⟩ := List.mem_map.mp h
        rw [← hsplit] at hkv
        rcases List.mem_append.mp hkv with hin | hin
        · left; rw [← hk]; exact hrun kv hin
        · right; exact (hkeys k).mpr (List.mem_map.mpr ⟨kv, hin, hk⟩)
  · intro c hc
    rcases List.mem_cons.mp hc with e | hmem
    · subst e
      refine ⟨?_, rfl⟩
      simp only [List.filter_cons, decide_True, if_true, List.map_cons]
      rw [hfilter_run a.Key]
      have h1 : (rest.takeWhile (fun kv => decide (kv.Key = a.Key))).filter
          (fun kv => decide (kv.Key = a.Key)) =
          rest.takeWhile (fun kv => decide (kv.Key = a.Key)) :=
        List.filter_eq_self.mpr (fun kv hkv => by simpa using hrun kv hkv)
      have h2 : (rest.dropWhile (fun kv => decide (kv.Key = a.Key))).filter
          (fun kv => decide (kv.Key = a.Key)) = [] :=
        List.filter_eq_nil_iff.mpr (fun kv hkv => by
          simpa using ne_of_gt (hgt kv hkv))
      rw [h1, h2, List.append_nil]
    · obtain ⟨hv, hl⟩ := hvals c hmem
      refine ⟨?_, hl⟩
      have hne : a.Key ≠ c.key := ne_of_lt (hcallgt c hmem)
      rw [hv]
      simp only [List.filter_cons, hne, decide_False, Bool.false_eq_true, if_false]
      rw [hfilter_run c.key]
      have h1 : (rest.takeWhile (fun kv => decide (kv.Key = a.Key))).filter
          (fun kv => decide (kv.Key = c.key)) = [] :=
        List.filter_eq_nil_iff.mpr (fun kv hkv => by
          simpa [hrun kv hkv] using hne)
      rw [h1, List.nil_append]
  · simp only [List.map_cons, List.sum_cons, List.length_cons, List.length_map]
    rw [hsum]
    have hlen := congrArg List.length hsplit
    rw [List.length_append] at hlen
    omega

/-- With enough fuel the grouping loop returns, always the same calls, and
what it returns from the value `i` groups the pairs from index `i` on. -/
theorem reduce_loop_spec (reducef : String → List String → String) (xs : List KeyValue)
    (hsorted : xs.Pairwise (fun x y => x.Key ≤ y.Key)) (i : Nat) (hi : i ≤ xs.length) :
    ∃ calls, (∀ fuel, xs.length - i + 2 ≤ fuel → reduce_loop reducef xs fuel i = some calls) ∧
      reduceGrouped reducef (xs.drop i) calls := by
  generalize hn : xs.length - i = n
  induction n using Nat.strong_induction_on generalizing i with
  | _ n ih =>
    by_cases hlt : i < xs.length
    · have hget : xs[i]? = some xs[i] := List.getElem?_eq_getElem hlt
      have hdrop : xs.drop i = xs[i] :: xs.drop (i + 1) := List.drop_eq_getElem_cons hlt
      have hrunlen : ((xs.drop (i + 1)).takeWhile (fun kv => decide (kv.Key = xs[i].Key))).length
          ≤ xs.length - (i + 1) := by
        have h := (List.takeWhile_prefix (fun kv => decide (kv.Key = xs[i].Key))
          (l := xs.drop (i + 1))).length_le
        simpa using h
      have htd := drop_takeWhile_length (fun kv => decide (kv.Key = xs[i].Key)) (xs.drop (i + 1))
      have hjle : i + 1 + ((xs.drop (i + 1)).takeWhile
          (fun kv => decide (kv.Key = xs[i].Key))).length ≤ xs.length := by omega
      have htake : (xs.drop i).take (i + 1 + ((xs.drop (i + 1)).takeWhile
            (fun kv => decide (kv.Key = xs[i].Key))).length - i) =
          xs[i] :: (xs.drop (i + 1)).takeWhile (fun kv => decide (kv.Key = xs[i].Key)) := by
        have hsub : i + 1 + ((xs.drop (i + 1)).takeWhile
            (fun kv => decide (kv.Key = xs[i].Key))).length - i =
            ((xs.drop (i + 1)).takeWhile
              (fun kv => decide (kv.Key = xs[i].Key))).length + 1 := by omega
        rw [hsub, hdrop, List.take_succ_cons, htd.2]
      have hdropj : xs.drop (i + 1 + ((xs.drop (i + 1)).takeWhile
            (fun kv => decide (kv.Key = xs[i].Key))).length) =
          (xs.drop (i + 1)).dropWhile (fun kv => decide (kv.Key = xs[i].Key)) := by
        rw [← List.drop_drop, htd.1]
      obtain ⟨calls, hcalls, hgood⟩ := ih _ (by omega) _ hjle rfl
      rw [hdropj] at hgood
      have hsortedS : (xs[i] :: xs.drop (i + 1)).Pairwise (fun x y => x.Key ≤ y.Key) := by
        rw [← hdrop]; exact hsorted.sublist (List.drop_sublist i xs)
      refine ⟨{ key := xs[i].Key
                values := (xs[i] :: (xs.drop (i + 1)).takeWhile
                  (fun kv => decide (kv.Key = xs[i].Key))).map (fun kv => kv.Value)
                line := xs[i].Key ++ " " ++ reducef xs[i].Key
                  ((xs[i] :: (xs.drop (i + 1)).takeWhile
                    (fun kv => decide (kv.Key = xs[i].Key))).map (fun kv => kv.Value)) ++
                  "\n" } :: calls, fun fuel hfuel => ?_, ?_⟩
      · cases fuel with
        | zero => omega
        | succ f =>
          have hscan := reduce_scan_spec xs i xs[i] hget f (i + 1) (by omega)
          have hvalues := reduce_values_spec xs _ hjle f i [] (by omega) (by omega)
          simp only [reduce_loop, hlt, if_true, hscan, hvalues, hget, hcalls f (by omega),
            htake, List.nil_append]
      · rw [hdrop]
        exact reduceGrouped_cons reducef xs[i] (xs.drop (i + 1)) calls hsortedS hgood
    · have hnil : xs.drop i = [] := List.drop_eq_nil_of_le (Nat.le_of_not_lt hlt)
      refine ⟨[], fun fuel hfuel => ?_, ?_⟩
      · cases fuel with
        | zero => omega
        | succ f => simp [reduce_loop, hlt]
      · rw [hnil]
        exact ⟨List.Pairwise.nil, fun k => by simp, fun c hc => (by cases hc), rfl⟩

/-- C23. Reduce grouping: for every list of pairs sorted by key the grouping
loop of `doReduceTask` (the same loop as in `mrsequential.go`) terminates, with
the same result for every sufficient bound on its iterations; it calls the
reduce function exactly once for each distinct key, in strictly increasing key
order, passing exactly the values of the pairs with that key in their order in
the sorted list; the lengths of the value lists add up to the length of the
input, and one line `key output` is written per distinct key. -/
theorem reduce_grouping (reducef : String → List String → String)
    (intermediate : List KeyValue)
    (hsorted : intermediate.Pairwise (fun x y => x.Key ≤ y.Key)) :
    ∃ calls,
      (∀ fuel, intermediate.length + 2 ≤ fuel →
        reduce_loop reducef intermediate fuel 0 = some calls) ∧
      (calls.map (fun c => c.key)).Pairwise (fun k1 k2 => k1 < k2) ∧
      (calls.map (fun c => c.key)).Nodup ∧
      (∀ k, k ∈ calls.map (fun c => c.key) ↔ k ∈ intermediate.map (fun kv => kv.Key)) ∧
      (∀ c ∈ calls,
        c.values = (intermediate.filter (fun kv => decide (kv.Key = c.key))).map
          (fun kv => kv.Value) ∧
        c.line = c.key ++ " " ++ reducef c.key c.values ++ "\n") ∧
      (calls.map (fun c => c.values.length)).sum = intermediate.length ∧
      (calls.map (fun c => c.line)).length =
        (intermediate.map (fun kv => kv.Key)).dedup.length := by
  obtain ⟨calls, hrun, hinc, hkeys, hvals, hsum⟩ :=
    reduce_loop_spec reducef intermediate hsorted 0 (Nat.zero_le _)
  have hnodup : (calls.map (fun c => c.key)).Nodup := hinc.imp (fun h => ne_of_lt h)
  simp only [List.drop_zero] at hkeys hvals hsum
  refine ⟨calls, fun fuel hfuel => hrun fuel (by omega), hinc, hnodup, hkeys, hvals, hsum, ?_⟩
  have hperm : (calls.map (fun c => c.key)).Perm
      (intermediate.map (fun kv => kv.Key)).dedup :=
    (List.perm_ext_iff_of_nodup hnodup (List.nodup_dedup _)).mpr
      (fun k => by rw [List.mem_dedup]; exact hkeys k)
  have hlen := hperm.length_eq
  simpa using hlen

/-- Witness of C23: the sorted output of a word count over "a b a c a". -/
theorem reduce_grouping_witness :
    List.Pairwise (fun x y : KeyValue => x.Key ≤ y.Key)
      [⟨"a", "1"⟩, ⟨"a", "2"⟩, ⟨"a", "3"⟩, ⟨"b", "4"⟩, ⟨"c", "5"⟩] ∧
    reduce_loop (fun _ values => String.join values)
        [⟨"a", "1"⟩, ⟨"a", "2"⟩, ⟨"a", "3"⟩, ⟨"b", "4"⟩, ⟨"c", "5"⟩] 7 0 =
      some [⟨"a", ["1", "2", "3"], "a 123\n"⟩, ⟨"b", ["4"], "b 4\n"⟩, ⟨"c", ["5"], "c 5\n"⟩] ∧
    ∃ calls,
      (∀ fuel, 5 + 2 ≤ fuel →
        reduce_loop (fun _ values => String.join values)
          [⟨"a", "1"⟩, ⟨"a", "2"⟩, ⟨"a", "3"⟩, ⟨"b", "4"⟩, ⟨"c", "5"⟩] fuel 0 = some calls) ∧
      (calls.map (fun c => c.values.length)).sum = 5 :=
  ⟨by simp [String.le_iff_toList_le]; decide, by decide,
    match reduce_grouping (fun _ values => String.join values)
      [⟨"a", "1"⟩, ⟨"a", "2"⟩, ⟨"a", "3"⟩, ⟨"b", "4"⟩, ⟨"c", "5"⟩]
      (by simp [String.le_iff_toList_le]; decide) with
    | ⟨calls, hrun, _, _, _, _, hsum, _⟩ => ⟨calls, hrun, hsum⟩⟩

end mr
